import Mathlib

/-!
# Knot orchestrator: chunked upload sessions

A shallow embedding of the orchestrator (`controllers/upload.go`,
`helpers/storage.go`, `helpers/file.go`, `services/room.go`, `services/sse.go`,
`config/config.go`, `models/metadata.go`, `main.go`) and the properties of its
session protocol. The handlers are embedded twice, and the two embeddings are
proved to agree.

Session model (`Knot.InitHandler`, `Knot.UploadHandler`, ...).
`config.StorageRoot` holds one directory per upload id, and a session
directory is a map from file names to file contents. This is what the handlers
do when every upload id is one path component and every filename is one path
component or empty (`filepath.Join(dir, "")` is the directory itself).

File-system model (`Knot.Disk.InitHandler`, `Knot.Disk.UploadHandler`, ...).
The disk is a table from cleaned paths to nodes; `Disk.join` is
`filepath.Join` with the cleaning of `.`, `..` and repeated separators, so an
upload id or a filename with separators or dots reaches the path it reaches on
disk; `os.Stat`, `os.ReadFile`, `os.Create`, `os.Rename`, `os.Remove`,
`os.RemoveAll`, `os.MkdirAll` and `ioutil.ReadDir` fail where the path does not
resolve (a missing parent directory, a directory in place of a file), and the
handlers answer as the source does on each failure; the chunk index is the
text of the route parameter, parsed by `strconv.Atoi`. Failures of the device
(permissions, full disk) are not modelled, one handler call is one atomic
step, and names are within the length the file system accepts.

Refinement. `Disk.toStore` reads a file system as a storage of sessions; for
requests with plain names (`Disk.Op.Plain`) each handler of the file-system
model answers and writes what the handler of the session model does
(`disk_init_sim`, `disk_upload_sim`, `disk_complete_sim`, `disk_cleanup_sim`,
`disk_run_sim`).

External libraries. The xxhash digest and the text that `encoding/json`
produces are parameters (`Lib`, `Disk.Env`); a JSON document the handlers wrote
is represented by the value it decodes to, so decoding what was encoded gives
the value back; in the session model content written as raw bytes does not
decode as a JSON document, in the file-system model it decodes as
`Disk.Env` says.
-/

namespace Knot

/-! ## Data model -/

/-- Session descriptor, `models.Metadata`. -/
structure Metadata where
  UploadID : String
  Filename : String
  TotalChunks : Int
  ChunkSize : Int
  ChunkHashes : List String
  FileHash : String
  ShareID : String
deriving DecidableEq, Repr

/-- Content of a file of a session directory: the JSON document of a
descriptor, the JSON array of received indices, or raw bytes. -/
inductive FileData where
  | descriptor (md : Metadata)
  | indexList (arr : List Int)
  | raw (bytes : List Nat)
deriving DecidableEq, Repr

/-- Behaviour of the libraries the controllers call: `sum64` is the xxhash
digest of a byte string, `metadataText` and `indicesText` are the bytes that
`encoding/json` writes for a descriptor and for an integer slice. -/
structure Lib where
  sum64 : List Nat → Nat
  metadataText : Metadata → List Nat
  indicesText : List Int → List Nat

/-- Bytes that `os.ReadFile` returns for a file. -/
def FileData.bytes (L : Lib) : FileData → List Nat
  | .descriptor md => L.metadataText md
  | .indexList arr => L.indicesText arr
  | .raw b => b

/-- A session directory: file name to content, `none` when there is no such file. -/
abbrev Dir := String → Option FileData

/-- The storage root: upload id to session directory. -/
abbrev Store := String → Option Dir

/-- A directory without files, as `os.MkdirAll` creates it. -/
def Dir.empty : Dir := fun _ => none

/-- A storage root without sessions. -/
def Store.empty : Store := fun _ => none

/-- Effect of `os.WriteFile` / `os.Create` and writes on one file of a directory. -/
def Dir.write (d : Dir) (name : String) (c : FileData) : Dir :=
  fun n => if n = name then some c else d n

/-- Effect of `os.Remove` on one file of a directory. -/
def Dir.remove (d : Dir) (name : String) : Dir :=
  fun n => if n = name then none else d n

/-- Effect of `os.Rename(src, dst)` inside a directory whose file `src` exists. -/
def Dir.rename (d : Dir) (src dst : String) : Dir :=
  fun n => if n = dst then d src else if n = src then none else d n

/-- Whether `os.Stat(filepath.Join(dir, name))` succeeds: the empty name is the
directory itself. -/
def Dir.stat (d : Dir) (name : String) : Bool :=
  name = "" || (d name).isSome

/-- Replace the directory of one upload id. -/
def Store.set (s : Store) (uploadID : String) (d : Option Dir) : Store :=
  fun u => if u = uploadID then d else s u

/-- The constant `config.MaxUploadSize`, 1 << 30. -/
def MaxUploadSize : Int := 2 ^ 30

/-! ## Names and hashes -/

/-- Decimal digits of `n`, zero-padded on the left to width 6 (`%06d`). -/
def pad6 (n : Nat) : List Char :=
  let ds := Nat.toDigits 10 n
  List.replicate (6 - ds.length) '0' ++ ds

/-- The chunk artifact name, `fmt.Sprintf("chunk_%06d", idx)` for `idx ≥ 0`. -/
def chunkName (i : Nat) : String :=
  "chunk_" ++ String.mk (pad6 i)

/-- The side-car name, `chunkPath + ".xxhash"`. -/
def sidecarName (i : Nat) : String :=
  chunkName i ++ ".xxhash"

/-- One lower-case hexadecimal digit, `hextable[v]`. -/
def hexDigit (v : Nat) : Char :=
  "0123456789abcdef".toList.getD v '0'

/-- The function `hex.EncodeToString`. -/
def hexEncode (bs : List Nat) : String :=
  String.mk (bs.flatMap fun b => [hexDigit (b / 16 % 16), hexDigit (b % 16)])

/-- The eight big-endian bytes `Digest.Sum(nil)` appends for a 64-bit sum. -/
def sumBytes (v : Nat) : List Nat :=
  (List.range 8).map fun k => (v % 2 ^ 64) / 2 ^ (8 * (7 - k)) % 256

/-- Hash of a payload as the handlers compute it:
`hex.EncodeToString(h.Sum(nil))` after `h.Write(body)`. -/
def hashHex (L : Lib) (body : List Nat) : String :=
  hexEncode (sumBytes (L.sum64 body))

/-- The conversion `[]byte(s)` of a string: its UTF-8 bytes. -/
def strBytes (s : String) : List Nat :=
  s.toList.flatMap fun c => (String.utf8EncodeChar c).map UInt8.toNat

/-! ## Received-set tracker (`helpers/storage.go`) -/

/-- The function `sort.Ints`. -/
def sortInts (arr : List Int) : List Int :=
  arr.insertionSort (· ≤ ·)

/-- The list `ReadReceivedChunks` hands to callers that drop its error: the
decoded array, and no index when `received.json` is missing or is not a JSON
array of integers. -/
def ReadReceivedChunks (d : Dir) : List Int :=
  match d "received.json" with
  | some (.indexList arr) => arr
  | _ => []

/-- The function `AppendReceivedChunk`: read the list (empty when the file is
missing or does not decode), and when `idx` is not in it append, sort and
write the file back. -/
def AppendReceivedChunk (d : Dir) (idx : Int) : Dir :=
  let arr : List Int :=
    match d "received.json" with
    | none => []
    | some (.indexList a) => a
    | some _ => []
  let seen := arr.any fun v => v == idx
  if !seen then d.write "received.json" (.indexList (sortInts (arr ++ [idx]))) else d

/-! ## Handlers (`controllers/upload.go`) -/

/-- Outcome of `InitHandler`. -/
inductive InitResponse where
  | uploadIDRequired
  | created (uploadID shareID : String)
deriving DecidableEq, Repr

/-- Outcome of `UploadHandler` for a request whose index parsed as an integer. -/
inductive UploadResponse where
  | sessionNotFound
  | payloadTooLarge
  | metadataNotFound
  | invalidMetadata
  | indexOutOfRange
  | alreadyCompleted
  | emptyBody
  | alreadyReceived (receivedBytes : Nat) (chunkHash : String)
  | hashMismatch (expected actual : String)
  | received (receivedBytes : Nat) (chunkHash : String)
deriving DecidableEq, Repr

/-- Outcome of `CompleteHandler`. -/
inductive CompleteResponse where
  | metadataNotFound
  | invalidMetadata
  | alreadyCompleted
  | incomplete (missingChunks : List Int) (receivedCount : Nat) (totalChunks : Int)
  | missingChunk (i : Nat)
  | overallHashMismatch (expected actual : String)
  | assembled (filePath fileHash downloadURL : String)
deriving DecidableEq, Repr

/-- Outcome of `CleanupHandler`. -/
inductive CleanupResponse where
  | sessionNotFound
  | forbidden
  | deleted (uploadID : String)
deriving DecidableEq, Repr

/-- The handler `InitHandler` for a decoded descriptor; `freshShareID` is the
value `helpers.GenerateShareID` returns when the request carries no share id. -/
def InitHandler (s : Store) (md : Metadata) (freshShareID : String) : InitResponse × Store :=
  if md.UploadID = "" then (.uploadIDRequired, s)
  else
    let md := if md.ShareID = "" then { md with ShareID := freshShareID } else md
    let d := (s md.UploadID).getD Dir.empty
    let d := d.write "metadata.json" (.descriptor md)
    let d := d.write "received.json" (.indexList [])
    (.created md.UploadID md.ShareID, s.set md.UploadID (some d))

/-- The durable write of `UploadHandler`: temporary file, move into place,
side-car, received list. -/
def storeChunk (d : Dir) (idx : Int) (body : List Nat) (actualHash : String) : Dir :=
  let chunkPath := chunkName idx.toNat
  let tmpPath := chunkPath ++ ".part"
  let d := d.write tmpPath (.raw body)
  let d := d.rename tmpPath chunkPath
  let d := d.write (chunkPath ++ ".xxhash") (.raw (strBytes actualHash))
  AppendReceivedChunk d idx

/-- The declared hash of a chunk in `UploadHandler`: `md.ChunkHashes[idx]` when
the descriptor carries one hash per chunk, the empty string otherwise. -/
def expectedHash (md : Metadata) (idx : Int) : String :=
  if (md.ChunkHashes.length : Int) = md.TotalChunks then md.ChunkHashes.getD idx.toNat ""
  else ""

/-- The idempotency check of `UploadHandler`: the bytes of the chunk file already
at the index, when there is one and its side-car (empty when unreadable) equals
the hash of the request. -/
def existingChunk (L : Lib) (d : Dir) (idx : Int) (actualHash : String) : Option (List Nat) :=
  match d (chunkName idx.toNat) with
  | some existingData =>
    let existingHash :=
      match d (chunkName idx.toNat ++ ".xxhash") with
      | some h => h.bytes L
      | none => []
    if existingHash = strBytes actualHash then some (existingData.bytes L) else none
  | none => none

/-- The handler `UploadHandler`. -/
def UploadHandler (L : Lib) (s : Store) (uploadID : String) (idx : Int)
    (contentLength : Int) (body : List Nat) : UploadResponse × Store :=
  match s uploadID with
  | none => (.sessionNotFound, s)
  | some d =>
    if contentLength > MaxUploadSize then (.payloadTooLarge, s)
    else
      match d "metadata.json" with
      | none => (.metadataNotFound, s)
      | some (.descriptor md) =>
        if idx < 0 ∨ idx ≥ md.TotalChunks then (.indexOutOfRange, s)
        else if d.stat md.Filename then (.alreadyCompleted, s)
        else if body.length = 0 then (.emptyBody, s)
        else
          let actualHash := hashHex L body
          match existingChunk L d idx actualHash with
          | some existingData => (.alreadyReceived existingData.length actualHash, s)
          | none =>
            if expectedHash md idx ≠ "" ∧ expectedHash md idx ≠ actualHash then
              (.hashMismatch (expectedHash md idx) actualHash, s)
            else
              (.received body.length actualHash,
                s.set uploadID (some (storeChunk d idx body actualHash)))
      | some _ => (.invalidMetadata, s)

/-- The list `missingChunks` of `CompleteHandler`: the indices below
`total_chunks`, in loop order, that the received list does not contain. -/
def missingChunks (received : List Int) (total : Int) : List Int :=
  ((List.range total.toNat).map fun i : Nat => (i : Int)).filter fun i => !received.contains i

/-- The assembly loop of `CompleteHandler`: read each chunk in index order and
append it to the temporary output; `Except.error i` when chunk `i` cannot be
read. -/
def assembleChunks (L : Lib) (outTemp : String) :
    List Nat → Dir → List Nat → Except Nat (Dir × List Nat)
  | [], d, acc => .ok (d, acc)
  | i :: rest, d, acc =>
    match d (chunkName i) with
    | none => .error i
    | some data =>
      let acc := acc ++ data.bytes L
      assembleChunks L outTemp rest (d.write outTemp (.raw acc)) acc

/-- The cleanup loop of `CompleteHandler`: remove every chunk and side-car. -/
def removeChunks (d : Dir) (total : Int) : Dir :=
  (List.range total.toNat).foldl
    (fun d i => (d.remove (chunkName i)).remove (chunkName i ++ ".xxhash")) d

/-- The handler `CompleteHandler`; reading `metadata.json` fails when the
directory or the file is missing. -/
def CompleteHandler (L : Lib) (s : Store) (uploadID : String) : CompleteResponse × Store :=
  match s uploadID with
  | none => (.metadataNotFound, s)
  | some d =>
    match d "metadata.json" with
    | none => (.metadataNotFound, s)
    | some (.descriptor md) =>
      let outPath := md.Filename
      if d.stat outPath then (.alreadyCompleted, s)
      else
        let received := ReadReceivedChunks d
        let missing := missingChunks received md.TotalChunks
        if missing.length > 0 then
          (.incomplete missing received.length md.TotalChunks, s)
        else
          let outTemp := outPath ++ ".part"
          let d := d.write outTemp (.raw [])
          match assembleChunks L outTemp (List.range md.TotalChunks.toNat) d [] with
          | .error i => (.missingChunk i, s.set uploadID (some (d.remove outTemp)))
          | .ok (d, data) =>
            let finalHash := hashHex L data
            if md.FileHash ≠ "" ∧ md.FileHash ≠ finalHash then
              (.overallHashMismatch md.FileHash finalHash,
                s.set uploadID (some (d.remove outTemp)))
            else
              let d := d.rename outTemp outPath
              let d := removeChunks d md.TotalChunks
              let d := d.remove "received.json"
              (.assembled ("storage/" ++ uploadID ++ "/" ++ md.Filename) finalHash
                  ("/static/" ++ uploadID ++ "/" ++ md.Filename),
                s.set uploadID (some d))
    | some _ => (.invalidMetadata, s)

/-- The handler `CleanupHandler`. -/
def CleanupHandler (s : Store) (uploadID : String) : CleanupResponse × Store :=
  match s uploadID with
  | none => (.sessionNotFound, s)
  | some d =>
    let completed :=
      match d "metadata.json" with
      | some (.descriptor md) => d.stat md.Filename
      | _ => false
    if completed then (.forbidden, s)
    else (.deleted uploadID, s.set uploadID none)

/-! ## Operation sequences -/

/-- A request to one of the four session handlers. -/
inductive Op where
  | init (md : Metadata) (freshShareID : String)
  | upload (uploadID : String) (idx : Int) (contentLength : Int) (body : List Nat)
  | complete (uploadID : String)
  | cleanup (uploadID : String)

/-- The storage after one request. -/
def step (L : Lib) (s : Store) : Op → Store
  | .init md fresh => (InitHandler s md fresh).2
  | .upload u idx cl body => (UploadHandler L s u idx cl body).2
  | .complete u => (CompleteHandler L s u).2
  | .cleanup u => (CleanupHandler s u).2

/-- The storage after a sequence of requests, each one atomic. -/
def run (L : Lib) (s : Store) (ops : List Op) : Store :=
  ops.foldl (step L) s

/-- A storage state that requests to the handlers produce from the empty root. -/
def Reachable (L : Lib) (s : Store) : Prop :=
  ∃ ops : List Op, s = run L Store.empty ops

/-! ## Specification-side definitions -/

/-- Value of a decimal digit string, most significant digit first. -/
def digitsValue (cs : List Char) : Nat :=
  cs.foldl (fun a c => 10 * a + (c.toNat - 48)) 0

/-- The bytes of the chunks of `l` read in order from `d`, or the first index
whose chunk file is missing. -/
def readAll (L : Lib) (d : Dir) : List Nat → Except Nat (List Nat)
  | [] => .ok []
  | i :: rest =>
    match d (chunkName i) with
    | none => .error i
    | some data =>
      match readAll L d rest with
      | .error j => .error j
      | .ok tail => .ok (data.bytes L ++ tail)

/-- The directory `CompleteHandler` leaves after it assembled `data`: the
temporary output renamed to the filename, chunks and side-cars removed, the
received list removed. -/
def assembledDir (d : Dir) (md : Metadata) (data : List Nat) : Dir :=
  (removeChunks
    ((d.write (md.Filename ++ ".part") (.raw data)).rename (md.Filename ++ ".part") md.Filename)
    md.TotalChunks).remove "received.json"

/-- Invariant of a session directory: it has a descriptor; its received list is
on disk unless the file named by the descriptor exists; every received index is
in the range of the descriptor and has its chunk file and side-car; the
received list is strictly ascending. -/
def DirInv (d : Dir) : Prop :=
  ∃ md, d "metadata.json" = some (.descriptor md) ∧
    ((∃ arr, d "received.json" = some (.indexList arr)) ∨ d.stat md.Filename = true) ∧
    (∀ i ∈ ReadReceivedChunks d, 0 ≤ i ∧ i < md.TotalChunks ∧
      (d (chunkName i.toNat)).isSome = true ∧ (d (sidecarName i.toNat)).isSome = true) ∧
    (ReadReceivedChunks d).Sorted (· < ·)

/-- Invariant of the storage root: every session directory satisfies `DirInv`. -/
def StoreInv (s : Store) : Prop :=
  ∀ u d, s u = some d → DirInv d

/-! ## Sample data -/

/-- A library instance for the examples: a polynomial checksum in place of the
digest and empty JSON texts. -/
def sampleLib : Lib :=
  ⟨fun b => b.foldl (fun a x => a * 31 + x) 7, fun _ => [], fun _ => []⟩

/-- A session of three chunks, as in the scenario of the specification. -/
def sessionABC : Metadata := ⟨"u1", "out.bin", 3, 1, [], "", "r1"⟩

/-- A session that declares the empty string as the hash of its only chunk. -/
def sessionEmptyHash : Metadata := ⟨"u1", "out.bin", 1, 1, [""], "", "r1"⟩

/-- A session that declares a hash for its only chunk. -/
def sessionDeclared : Metadata := ⟨"u1", "out.bin", 1, 1, ["0123456789abcdef"], "", "r1"⟩

/-- A one-chunk session named after its chunk artifact, with a declared file hash. -/
def sessionStuck : Metadata := ⟨"u1", "chunk_000000", 1, 1, [], "deadbeef", "r1"⟩

/-- A one-chunk session that declares a file hash no payload has. -/
def sessionBadHash : Metadata := ⟨"u1", "out.bin", 1, 1, [], "deadbeef", "r1"⟩

/-- A session without declared chunk hashes. -/
def sessionUndeclared : Metadata := ⟨"u1", "out.bin", 1, 1, [], "", "r1"⟩

/-- The same upload id created again, now declaring the hash "abc" for its chunk. -/
def sessionShortHash : Metadata := ⟨"u1", "out.bin", 1, 1, ["abc"], "", "r1"⟩

/-- A one-chunk session whose filename is the name of its descriptor file. -/
def sessionMetaName : Metadata := ⟨"u1", "metadata.json", 1, 1, [], "", "r1"⟩

/-- The storage after the chunk "A" of `sessionUndeclared` arrived and the
session was created a second time with the same descriptor. -/
def storeRecreated (L : Lib) : Store :=
  run L Store.empty
    [.init sessionUndeclared "", .upload "u1" 0 1 [65], .init sessionUndeclared ""]

/-- Capacity of the channel each stream handler makes: `make(chan string, 10)`. -/
def chanCap : Nat := 10

/-- A subscriber registry (`mm`, `roomClients`) together with the channels it
refers to: `clients` maps a key to its set of channels (`none` when the key is
not in the map), `queue` holds the buffered messages of each channel, oldest
first, and `made` counts the channels made so far. -/
structure Hub where
  clients : String → Option (Finset Nat)
  queue : Nat → List String
  made : Nat

/-- The registry of a process that has served no stream yet. -/
def Hub.empty : Hub := ⟨fun _ => none, fun _ => [], 0⟩

/-- The channels registered under a key; a missing key reads as the nil map. -/
def Hub.registered (h : Hub) (key : String) : Finset Nat :=
  (h.clients key).getD ∅

/-- The functions `AddClient` and `AddRoomClient`. -/
def Hub.AddClient (h : Hub) (key : String) (ch : Nat) : Hub :=
  { h with clients := fun k => if k = key then some (insert ch (h.registered key))
                               else h.clients k }

/-- The functions `RemoveClient` and `RemoveRoomClient`: delete the channel and,
when no channel is left, the key. -/
def Hub.RemoveClient (h : Hub) (key : String) (ch : Nat) : Hub :=
  match h.clients key with
  | none => h
  | some set =>
    { h with clients := fun k =>
        if k = key then (if (set.erase ch).card = 0 then none else some (set.erase ch))
        else h.clients k }

/-- The non-blocking send `select { case ch <- msg: default: }` on the buffer of
a channel of capacity `chanCap`. -/
def trySend (q : List String) (msg : String) : List String :=
  if q.length < chanCap then q ++ [msg] else q

/-- The send loop of `BroadcastProgress` and `BroadcastRoomEvent`: one
non-blocking send to every channel registered under the key. -/
def Hub.send (h : Hub) (key : String) (msg : String) : Hub :=
  { h with queue := fun c => if c ∈ h.registered key then trySend (h.queue c) msg
                             else h.queue c }

/-- What `SSEHandler` and `RoomSSEHandler` do on connect: make a channel and
register it under the key. -/
def Hub.subscribe (h : Hub) (key : String) : Hub :=
  ({ h with made := h.made + 1,
            queue := fun c => if c = h.made then [] else h.queue c }).AddClient key h.made

/-- A stream handler takes the oldest message of its channel, `msg := <-ch`. -/
def Hub.receive (h : Hub) (ch : Nat) : Hub :=
  { h with queue := fun c => if c = ch then (h.queue c).tail else h.queue c }

/-- An event at a hub. -/
inductive HubOp where
  | subscribe (key : String)
  | unsubscribe (key : String) (ch : Nat)
  | publish (key : String) (msg : String)
  | receive (ch : Nat)

/-- The hub after one event. -/
def Hub.step (h : Hub) : HubOp → Hub
  | .subscribe key => h.subscribe key
  | .unsubscribe key ch => h.RemoveClient key ch
  | .publish key msg => h.send key msg
  | .receive ch => h.receive ch

/-- A hub state that events produce from the empty registry. -/
def Hub.Reachable (h : Hub) : Prop :=
  ∃ ops : List HubOp, h = ops.foldl Hub.step Hub.empty

/-- Invariant of a hub: registered channels were made, a channel is registered
under one key only, and no buffer exceeds the capacity. -/
def HubInv (h : Hub) : Prop :=
  (∀ k c, c ∈ h.registered k → c < h.made) ∧
  (∀ k1 k2 c, c ∈ h.registered k1 → c ∈ h.registered k2 → k1 = k2) ∧
  (∀ c, (h.queue c).length ≤ chanCap)

/-- Go integer division: a panic (`none`) on a zero divisor, truncation toward
zero otherwise. -/
def goDiv (a b : Int) : Option Int :=
  if b = 0 then none else some (a.tdiv b)

/-- The message object of `BroadcastProgress`. -/
structure Progress where
  upload_id : String
  filename : String
  total_chunks : Int
  received_chunks : List Int
  received_count : Int
  completed_percent : Int
deriving DecidableEq, Repr

/-- The snapshot `BroadcastProgress` builds from the storage, `none` when the
descriptor cannot be read. -/
def progressOf (s : Store) (uploadID : String) : Option Progress :=
  match s uploadID with
  | none => none
  | some d =>
    match d "metadata.json" with
    | some (.descriptor md) =>
      let received := sortInts (ReadReceivedChunks d)
      some ⟨uploadID, md.Filename, md.TotalChunks, received, received.length,
        if md.TotalChunks = 0 then 0
        else ((received.length : Int) * 100).tdiv md.TotalChunks⟩
    | _ => none

/-- The function `SSEService.BroadcastProgress`. -/
def SSEService.BroadcastProgress (marshal : Progress → String) (h : Hub) (s : Store)
    (uploadID : String) : Hub :=
  match progressOf s uploadID with
  | none => h
  | some p => h.send uploadID (marshal p)

/-- An active upload of a room, `models.UploadInfo`. -/
structure UploadInfo where
  UploadID : String
  Filename : String
  TotalChunks : Int
  ReceivedChunks : Int
  CompletionPercent : Int
  StartedAt : Int
deriving DecidableEq, Repr

/-- A completed upload of a room, `models.CompletedFile`. -/
structure CompletedFile where
  UploadID : String
  Filename : String
  FileSize : Int
  CompletedAt : Int
deriving DecidableEq, Repr

/-- The state of a room, `models.RoomState`; `LastUpdated` is `none` for the
zero time. -/
structure RoomState where
  ShareID : String
  ActiveUploads : List UploadInfo
  CompletedFiles : List CompletedFile
  LastUpdated : Option Int
  ExpiresAt : Int
  ExpiresIn : Int
deriving DecidableEq, Repr

/-- The payload `Data` of a room event. -/
inductive EventData where
  | none
  | chunkReceived (received_chunks total_chunks percent : Int)
  | uploadComplete (file_size : Int)
  | roomState (state : RoomState)
deriving DecidableEq, Repr

/-- A room event, `models.RoomEvent`; `EventType` is its field `Type`. -/
structure RoomEvent where
  EventType : String
  ShareID : String
  UploadID : String
  Filename : String
  Data : EventData
  Timestamp : Int
deriving DecidableEq, Repr

/-- The service `RoomService`: the room registry with its channels and the
expiry of each room. -/
structure RoomService where
  hub : Hub
  roomExpiryMap : String → Option Int

/-- The room service of a process that has served no request yet. -/
def RoomService.empty : RoomService := ⟨Hub.empty, fun _ => none⟩

/-- The constant `DefaultExpiryHours`. -/
def DefaultExpiryHours : Int := 24

/-- The duration `time.Hour` in nanoseconds. -/
def hour : Int := 3600 * 1000000000

/-- The function `RoomService.BroadcastRoomEvent` at clock reading `now`. -/
def RoomService.BroadcastRoomEvent (marshal : RoomEvent → String) (rs : RoomService)
    (event : RoomEvent) (now : Int) : RoomService :=
  { rs with hub := rs.hub.send event.ShareID (marshal { event with Timestamp := now }) }

/-- The function `RoomService.UpdateRoomExpiry` at clock reading `now`. -/
def RoomService.UpdateRoomExpiry (rs : RoomService) (shareID : String) (now : Int) :
    RoomService :=
  { rs with roomExpiryMap := fun k =>
      if k = shareID then some (now + DefaultExpiryHours * hour) else rs.roomExpiryMap k }

/-- The function `RoomService.GetRoomExpiry` at clock reading `now`; it reads
the map and writes nothing. -/
def RoomService.GetRoomExpiry (rs : RoomService) (shareID : String) (now : Int) : Int :=
  match rs.roomExpiryMap shareID with
  | some expiresAt => expiresAt
  | none => now + DefaultExpiryHours * hour

/-- The function `RoomService.NotifyUploadStart`. -/
def RoomService.NotifyUploadStart (marshal : RoomEvent → String) (rs : RoomService)
    (shareID uploadID filename : String) (now : Int) : RoomService :=
  (rs.UpdateRoomExpiry shareID now).BroadcastRoomEvent marshal
    ⟨"upload_start", shareID, uploadID, filename, .none, 0⟩ now

/-- The function `RoomService.NotifyChunkReceived`; `none` when the division
`(received * 100) / total` panics. -/
def RoomService.NotifyChunkReceived (marshal : RoomEvent → String) (rs : RoomService)
    (shareID uploadID : String) (received total : Int) (now : Int) : Option RoomService :=
  (goDiv (received * 100) total).map fun percent =>
    rs.BroadcastRoomEvent marshal
      ⟨"chunk_received", shareID, uploadID, "", .chunkReceived received total percent, 0⟩ now

/-- The arguments of the call `NotifyChunkReceived(md.ShareID, uploadID,
len(received), md.TotalChunks)` at the end of `UploadHandler`, which only the
path that answers `received` reaches: share id and total of the descriptor read
at the start of the request, and the length of the received list read back
from the storage after the write. -/
def chunkReceivedArgs (L : Lib) (s : Store) (uploadID : String) (idx : Int)
    (contentLength : Int) (body : List Nat) : Option (String × Int × Int) :=
  match s uploadID with
  | none => none
  | some d =>
    match d "metadata.json" with
    | some (.descriptor md) =>
      match UploadHandler L s uploadID idx contentLength body with
      | (.received _ _, s') =>
        some (md.ShareID, (((s' uploadID).map ReadReceivedChunks).getD []).length,
          md.TotalChunks)
      | _ => none
    | _ => none

/-- The notifications at the end of `UploadHandler`: the progress broadcast on
the storage after the write and the room event when the request was accepted,
nothing otherwise; `none` when `NotifyChunkReceived` panics. -/
def UploadNotify (marshalP : Progress → String) (marshalE : RoomEvent → String) (L : Lib)
    (s : Store) (sse : Hub) (room : RoomService) (uploadID : String) (idx : Int)
    (contentLength : Int) (body : List Nat) (now : Int) : Option (Hub × RoomService) :=
  match chunkReceivedArgs L s uploadID idx contentLength body with
  | none => some (sse, room)
  | some (shareID, received, total) =>
    (room.NotifyChunkReceived marshalE shareID uploadID received total now).map fun room' =>
      (SSEService.BroadcastProgress marshalP sse
        (UploadHandler L s uploadID idx contentLength body).2 uploadID, room')

/-- Size that `os.Stat` reports for `filepath.Join(dir, name)`: `dirSize` for the
directory itself, the number of bytes of a file. -/
def Dir.statSize (L : Lib) (dirSize : Int) (d : Dir) (name : String) : Int :=
  if name = "" then dirSize
  else
    match d name with
    | some f => ((f.bytes L).length : Int)
    | none => 0

/-- The whole seconds of a duration in nanoseconds, `int64(d.Seconds())`
(the rounding of the floating-point value is not modelled). -/
def durationSeconds (d : Int) : Int :=
  d.tdiv 1000000000

/-- The lists `GetRoomState` has built so far: active uploads, completed files
and the latest modification time. -/
structure RoomScan where
  active : List UploadInfo
  completed : List CompletedFile
  lastUpdated : Option Int

/-- One round of the loop of `GetRoomState` over the entries of the storage
root; `modTime` is the modification time of the entry. -/
def scanEntry (L : Lib) (dirSize : Int) (modTime : String → Int) (s : Store)
    (shareID : String) (acc : RoomScan) (uploadID : String) : RoomScan :=
  match s uploadID with
  | none => acc
  | some d =>
    match d "metadata.json" with
    | some (.descriptor md) =>
      if md.ShareID ≠ shareID then acc
      else
        let lastUpdated :=
          match acc.lastUpdated with
          | none => some (modTime uploadID)
          | some l => if modTime uploadID > l then some (modTime uploadID) else some l
        if d.stat md.Filename then
          { acc with
            completed := acc.completed ++
              [⟨uploadID, md.Filename, d.statSize L dirSize md.Filename, modTime uploadID⟩],
            lastUpdated := lastUpdated }
        else
          let received := ReadReceivedChunks d
          let completionPercent :=
            if md.TotalChunks > 0 then ((received.length : Int) * 100).tdiv md.TotalChunks
            else 0
          { acc with
            active := acc.active ++
              [⟨uploadID, md.Filename, md.TotalChunks, received.length, completionPercent,
                modTime uploadID⟩],
            lastUpdated := lastUpdated }
    | _ => acc

/-- The function `RoomService.GetRoomState` at clock reading `now`; `entries`
are the directory names `ioutil.ReadDir` returns for the storage root. -/
def RoomService.GetRoomState (L : Lib) (dirSize : Int) (modTime : String → Int)
    (entries : List String) (s : Store) (rs : RoomService) (shareID : String) (now : Int) :
    RoomState :=
  let scan := entries.foldl (scanEntry L dirSize modTime s shareID) ⟨[], [], none⟩
  let expiresAt := rs.GetRoomExpiry shareID now
  let expiresIn := durationSeconds (expiresAt - now)
  ⟨shareID, scan.active, scan.completed, scan.lastUpdated, expiresAt,
    if expiresIn < 0 then 0 else expiresIn⟩

/-- The record `GetRoomState` lists under active uploads for an entry of the
storage root, when it lists one there. -/
def activeEntry (modTime : String → Int) (s : Store) (shareID : String) (uploadID : String) :
    Option UploadInfo :=
  match s uploadID with
  | none => none
  | some d =>
    match d "metadata.json" with
    | some (.descriptor md) =>
      if md.ShareID = shareID ∧ d.stat md.Filename = false then
        some ⟨uploadID, md.Filename, md.TotalChunks, (ReadReceivedChunks d).length,
          if md.TotalChunks > 0 then
            (((ReadReceivedChunks d).length : Int) * 100).tdiv md.TotalChunks
          else 0,
          modTime uploadID⟩
      else none
    | _ => none

/-- The record `GetRoomState` lists under completed files for an entry of the
storage root, when it lists one there. -/
def completedEntry (L : Lib) (dirSize : Int) (modTime : String → Int) (s : Store)
    (shareID : String) (uploadID : String) : Option CompletedFile :=
  match s uploadID with
  | none => none
  | some d =>
    match d "metadata.json" with
    | some (.descriptor md) =>
      if md.ShareID = shareID ∧ d.stat md.Filename = true then
        some ⟨uploadID, md.Filename, d.statSize L dirSize md.Filename, modTime uploadID⟩
      else none
    | _ => none

/-- A second session of the room `r1`, still without chunks. -/
def sessionTwo : Metadata := ⟨"u2", "two.bin", 2, 1, [], "", "r1"⟩

/-- A session of the room `r1` with no chunks to send. -/
def sessionDone : Metadata := ⟨"u3", "done.bin", 0, 1, [], "", "r1"⟩

/-- A session of another room. -/
def sessionOther : Metadata := ⟨"u4", "other.bin", 1, 1, [], "", "r2"⟩

/-- A hub with two subscribers of room `r1` and one of room `r2`. -/
def hubRooms : Hub :=
  [HubOp.subscribe "r1", .subscribe "r1", .subscribe "r2"].foldl Hub.step Hub.empty

/-- The upload ids a room state lists, active uploads first. -/
def RoomState.listed (st : RoomState) : List String :=
  st.ActiveUploads.map (fun a => a.UploadID) ++ st.CompletedFiles.map (fun c => c.UploadID)

/-! ## The file system (`os`, `path/filepath`)

The handlers build every path with `filepath.Join`, which cleans the joined
text: empty and `.` components are dropped and a `..` component removes the
component before it. The definitions of this section interpret paths that way.
A path is the list of its components below the working directory of the
process (`config.StorageRoot` is the relative path `./storage`); a path that
leaves the working directory keeps its leading `..` components and is a
location of its own. The file system is a finite table from paths to nodes;
there are no symbolic links, names are compared byte by byte, and an operation
fails only for the reasons of the path itself (a missing parent, a file where a
directory is needed, a directory where a file is needed). One handler call is
one atomic step. -/

namespace Disk

/-- A cleaned relative path, as the list of its components. -/
abbrev Path := List String

/-- A node of the file system: a directory or a regular file with its content. -/
inductive Node where
  | dir
  | file (content : FileData)
deriving DecidableEq, Repr

/-- The file system: a finite table from paths to nodes, read from the front. -/
abbrev FS := List (Path × Node)

/-- The libraries behind the handlers: the digest and the JSON encoder of the
session model, and the JSON decoder applied to bytes that no handler wrote as a
JSON document (`json.Unmarshal` of a chunk payload that ended up in a JSON
file). -/
structure Env where
  lib : Lib
  parseMetadata : List Nat → Option Metadata
  parseIndices : List Nat → Option (List Int)

/-- The pieces of a text between its separators `/`. -/
def splitSlash : List Char → List (List Char)
  | [] => [[]]
  | c :: cs =>
    if c = '/' then [] :: splitSlash cs
    else
      match splitSlash cs with
      | [] => [[c]]
      | w :: ws => (c :: w) :: ws

/-- The components of a path text, empty ones included. -/
def components (s : String) : List String :=
  (splitSlash s.data).map String.mk

/-- One step of `filepath.Clean` on a relative path whose cleaned components so
far are `rev`, last component first: empty and `.` components are dropped, `..`
removes the last component, or stays when there is none to remove. -/
def pushComp (rev : List String) (c : String) : List String :=
  if c = "" ∨ c = "." then rev
  else if c = ".." then
    match rev with
    | [] => [".."]
    | x :: rest => if x = ".." then ".." :: x :: rest else rest
  else c :: rev

/-- The function `filepath.Join(base, name)` for a cleaned relative `base`. -/
def join (base : Path) (name : String) : Path :=
  ((components name).foldl pushComp base.reverse).reverse

/-- The constant `config.StorageRoot`, `./storage`, as a cleaned path. -/
def StorageRoot : Path := join [] "./storage"

/-- The path text `p + ext` of a cleaned path `p`: the suffix extends the last
component, and the cleaned empty path is the text `.`. -/
def withSuffix (p : Path) (ext : String) : Path :=
  match p.reverse with
  | [] => ["." ++ ext]
  | x :: rest => rest.reverse ++ [x ++ ext]

/-- The text of a cleaned path. -/
def pathString (p : Path) : String :=
  if p = [] then "." else "/".intercalate p

/-- The node stored at a path. -/
def FS.get : FS → Path → Option Node
  | [], _ => none
  | (q, n) :: rest, p => if q = p then some n else FS.get rest p

/-- The table without the entry of a path. -/
def FS.erase (fs : FS) (p : Path) : FS :=
  fs.filter fun e => decide (e.1 ≠ p)

/-- The table with the node of a path replaced. -/
def FS.set (fs : FS) (p : Path) (n : Node) : FS :=
  (p, n) :: fs.erase p

/-- The table without a path and everything below it. -/
def FS.eraseTree (fs : FS) (p : Path) : FS :=
  fs.filter fun e => !p.isPrefixOf e.1

/-- Result of resolving a path: the node, no such entry (`ENOENT`), or a file
on the way where a directory is needed (`ENOTDIR`). -/
inductive Lookup where
  | found (n : Node)
  | notExist
  | notDir
deriving DecidableEq, Repr

/-- Resolve the components `rest` below the path `pre`. -/
def FS.walk (fs : FS) : Path → List String → Lookup
  | pre, [] =>
    match fs.get pre with
    | some n => .found n
    | none => .notExist
  | pre, c :: rest =>
    match fs.get pre with
    | some .dir => FS.walk fs (pre ++ [c]) rest
    | some (.file _) => .notDir
    | none => .notExist

/-- The function `os.Stat`. -/
def FS.stat (fs : FS) (p : Path) : Lookup :=
  fs.walk [] p

/-- Whether `os.Stat` returned no error. -/
def Lookup.isFound : Lookup → Bool
  | .found _ => true
  | _ => false

/-- Result of `os.ReadFile`: the content, an error for which `os.IsNotExist`
holds, or another error. -/
inductive ReadResult where
  | ok (c : FileData)
  | notExist
  | failed
deriving DecidableEq, Repr

/-- The function `os.ReadFile`. -/
def FS.readFile (fs : FS) (p : Path) : ReadResult :=
  match fs.stat p with
  | .found (.file c) => .ok c
  | .found .dir => .failed
  | .notExist => .notExist
  | .notDir => .failed

/-- The functions `os.WriteFile` and `os.Create` followed by writes: the file is
created or replaced; `none` when the path is a directory or its parent is not
a directory. -/
def FS.writeFile (fs : FS) (p : Path) (c : FileData) : Option FS :=
  match fs.stat p with
  | .found (.file _) => some (fs.set p (.file c))
  | .found .dir => none
  | .notDir => none
  | .notExist =>
    match fs.stat p.dropLast with
    | .found .dir => some (fs.set p (.file c))
    | _ => none

/-- Create the directories of the components `rest` below `pre`. -/
def FS.mkdirs (fs : FS) : Path → List String → Option FS
  | pre, [] =>
    match fs.get pre with
    | some .dir => some fs
    | _ => none
  | pre, c :: rest =>
    match fs.get pre with
    | some .dir =>
      match fs.get (pre ++ [c]) with
      | none => FS.mkdirs (fs.set (pre ++ [c]) .dir) (pre ++ [c]) rest
      | some _ => FS.mkdirs fs (pre ++ [c]) rest
    | _ => none

/-- The function `os.MkdirAll`: `none` when a component of the path is a file. -/
def FS.mkdirAll (fs : FS) (p : Path) : Option FS :=
  fs.mkdirs [] p

/-- The function `os.Rename` for a source that is a regular file (the handlers
rename only files they have just written): `none` when the source is not a
file, the target is a directory, or the parent of the target is not a
directory. -/
def FS.rename (fs : FS) (src dst : Path) : Option FS :=
  match fs.stat src with
  | .found (.file c) =>
    if src = dst then some fs
    else
      match fs.stat dst with
      | .found (.file _) => some ((fs.erase src).set dst (.file c))
      | .notExist =>
        match fs.stat dst.dropLast with
        | .found .dir => some ((fs.erase src).set dst (.file c))
        | _ => none
      | _ => none
  | _ => none

/-- Whether the table has an entry strictly below a path. -/
def FS.hasChild (fs : FS) (p : Path) : Bool :=
  fs.any fun e => p.isPrefixOf e.1 && decide (e.1 ≠ p)

/-- The function `os.Remove`: a file or an empty directory is removed; `none`
for a missing path, a directory with entries, and the working directory. -/
def FS.remove (fs : FS) (p : Path) : Option FS :=
  match fs.stat p with
  | .found (.file _) => some (fs.erase p)
  | .found .dir => if p = [] ∨ fs.hasChild p then none else some (fs.erase p)
  | _ => none

/-- The function `os.RemoveAll`: the path and everything below it is removed;
`none` for the path `.` (`EINVAL`) and for a path below a regular file. -/
def FS.removeAll (fs : FS) (p : Path) : Option FS :=
  if p = [] then none
  else
    match fs.stat p with
    | .notDir => none
    | _ => some (fs.eraseTree p)

/-- The name of the entry of directory `p` that the path `q` is, when it is one. -/
def childName (p q : Path) : Option String :=
  match q.reverse with
  | [] => none
  | x :: rest => if rest.reverse = p then some x else none

/-- Lexicographic order of byte strings. -/
def bytesLE : List Nat → List Nat → Bool
  | [], _ => true
  | _ :: _, [] => false
  | a :: as, b :: bs => a < b || (a == b && bytesLE as bs)

/-- The order of names by which `ioutil.ReadDir` sorts: byte-wise comparison of
Go strings. -/
def nameLE (a b : String) : Prop :=
  bytesLE (strBytes a) (strBytes b) = true

instance nameLEDecidable : DecidableRel nameLE := fun a b => by
  unfold nameLE
  infer_instance

/-- The function `ioutil.ReadDir`: the names of the entries of a directory, each
once, sorted by name; `none` when the path is not a directory. -/
def FS.readDir (fs : FS) (p : Path) : Option (List String) :=
  match fs.stat p with
  | .found .dir => some (((fs.filterMap fun e => childName p e.1).dedup).insertionSort nameLE)
  | _ => none

/-- The function `strconv.Atoi` (64-bit `int`): an optional sign followed by
decimal digits, within the range of `int`. -/
def atoi (s : String) : Option Int :=
  let value : List Char → Bool → Option Int := fun ds neg =>
    if ds ≠ [] ∧ ds.all Char.isDigit = true then
      let v : Int := if neg then -(digitsValue ds : Int) else (digitsValue ds : Int)
      if -(2 ^ 63) ≤ v ∧ v < 2 ^ 63 then some v else none
    else none
  match s.data with
  | '-' :: ds => value ds true
  | '+' :: ds => value ds false
  | ds => value ds false

/-- The value `json.Unmarshal` gives for the content of a file read as a
descriptor. -/
def decodeMetadata (E : Env) : FileData → Option Metadata
  | .descriptor md => some md
  | .indexList _ => none
  | .raw b => E.parseMetadata b

/-- The value `json.Unmarshal` gives for the content of a file read as an array
of integers. -/
def decodeIndices (E : Env) : FileData → Option (List Int)
  | .indexList arr => some arr
  | .descriptor _ => none
  | .raw b => E.parseIndices b

/-- The list `ReadReceivedChunks(dir)` hands to callers that drop its error. -/
def ReadReceivedChunks (E : Env) (fs : FS) (dir : Path) : List Int :=
  match fs.readFile (join dir "received.json") with
  | .ok c => (decodeIndices E c).getD []
  | _ => []

/-- The function `AppendReceivedChunk(dir, idx)`; its error is dropped by the
caller. -/
def AppendReceivedChunk (E : Env) (fs : FS) (dir : Path) (idx : Int) : FS :=
  let receivedPath := join dir "received.json"
  match fs.readFile receivedPath with
  | .failed => fs
  | r =>
    let arr : List Int :=
      match r with
      | .ok c => (decodeIndices E c).getD []
      | _ => []
    let seen := arr.any fun v => v == idx
    if !seen then (fs.writeFile receivedPath (.indexList (sortInts (arr ++ [idx])))).getD fs
    else fs

/-- Outcome of `InitHandler`: an answer of the session model or an I/O failure. -/
inductive InitResponse where
  | mkdirError
  | createMetaFailed
  | answer (r : Knot.InitResponse)
deriving DecidableEq, Repr

/-- Outcome of `UploadHandler`: an answer of the session model, the rejection of
an index that is not an integer, or an I/O failure. -/
inductive UploadResponse where
  | badIdx
  | writeFailed
  | finalizeFailed
  | answer (r : Knot.UploadResponse)
deriving DecidableEq, Repr

/-- Outcome of `CompleteHandler`: an answer of the session model or an I/O
failure. -/
inductive CompleteResponse where
  | createFailed
  | renameFailed
  | answer (r : Knot.CompleteResponse)
deriving DecidableEq, Repr

/-- Outcome of `CleanupHandler`: an answer of the session model or an I/O
failure. -/
inductive CleanupResponse where
  | deleteFailed
  | answer (r : Knot.CleanupResponse)
deriving DecidableEq, Repr

/-- The handler `InitHandler` for a decoded descriptor; `freshShareID` is the
value `helpers.GenerateShareID` returns. -/
def InitHandler (fs : FS) (md : Metadata) (freshShareID : String) : InitResponse × FS :=
  if md.UploadID = "" then (.answer .uploadIDRequired, fs)
  else
    let md := if md.ShareID = "" then { md with ShareID := freshShareID } else md
    let dir := join StorageRoot md.UploadID
    match fs.mkdirAll dir with
    | none => (.mkdirError, fs)
    | some fs =>
      match fs.writeFile (join dir "metadata.json") (.descriptor md) with
      | none => (.createMetaFailed, fs)
      | some fs =>
        let fs := (fs.writeFile (join dir "received.json") (.indexList [])).getD fs
        (.answer (.created md.UploadID md.ShareID), fs)

/-- The function `helpers.MoveFile`: rename, and when that fails copy the
source to the target and remove the source; the flag tells whether it returned
no error. -/
def MoveFile (fs : FS) (src dst : Path) : Bool × FS :=
  match fs.rename src dst with
  | some fs => (true, fs)
  | none =>
    match fs.readFile src with
    | .ok c =>
      match fs.mkdirAll dst.dropLast with
      | none => (false, fs)
      | some fs =>
        match fs.writeFile dst c with
        | none => (false, fs)
        | some fs =>
          match fs.remove src with
          | some fs => (true, fs)
          | none => (false, fs)
    | _ => (false, fs)

/-- The idempotency check of `UploadHandler`: the bytes of the chunk file already
at the index, when it can be read and its side-car (empty when unreadable)
equals the hash of the request. -/
def existingChunk (E : Env) (fs : FS) (chunkPath : Path) (actualHash : String) :
    Option (List Nat) :=
  match fs.readFile chunkPath with
  | .ok existingData =>
    let existingHash :=
      match fs.readFile (withSuffix chunkPath ".xxhash") with
      | .ok h => h.bytes E.lib
      | _ => []
    if existingHash = strBytes actualHash then some (existingData.bytes E.lib) else none
  | _ => none

/-- The durable write of `UploadHandler`: temporary file, move into place,
side-car, received list; the errors of the last two are dropped. -/
def storeChunk (E : Env) (fs : FS) (dir : Path) (idx : Int) (body : List Nat)
    (actualHash : String) : UploadResponse × FS :=
  let chunkPath := join dir (chunkName idx.toNat)
  let tmpPath := withSuffix chunkPath ".part"
  match fs.writeFile tmpPath (.raw body) with
  | none => (.writeFailed, fs)
  | some fs =>
    match MoveFile fs tmpPath chunkPath with
    | (false, fs) => (.finalizeFailed, fs)
    | (true, fs) =>
      let fs := (fs.writeFile (withSuffix chunkPath ".xxhash")
        (.raw (strBytes actualHash))).getD fs
      let fs := AppendReceivedChunk E fs dir idx
      (.answer (.received body.length actualHash), fs)

/-- The handler `UploadHandler`; `uploadID` and `idxStr` are the route
parameters. -/
def UploadHandler (E : Env) (fs : FS) (uploadID idxStr : String) (contentLength : Int)
    (body : List Nat) : UploadResponse × FS :=
  match atoi idxStr with
  | none => (.badIdx, fs)
  | some idx =>
    let dir := join StorageRoot uploadID
    if fs.stat dir = .notExist then (.answer .sessionNotFound, fs)
    else if contentLength > MaxUploadSize then (.answer .payloadTooLarge, fs)
    else
      match fs.readFile (join dir "metadata.json") with
      | .ok c =>
        match decodeMetadata E c with
        | none => (.answer .invalidMetadata, fs)
        | some md =>
          if idx < 0 ∨ idx ≥ md.TotalChunks then (.answer .indexOutOfRange, fs)
          else if (fs.stat (join dir md.Filename)).isFound then (.answer .alreadyCompleted, fs)
          else if body.length = 0 then (.answer .emptyBody, fs)
          else
            let actualHash := hashHex E.lib body
            match existingChunk E fs (join dir (chunkName idx.toNat)) actualHash with
            | some existingData => (.answer (.alreadyReceived existingData.length actualHash), fs)
            | none =>
              if expectedHash md idx ≠ "" ∧ expectedHash md idx ≠ actualHash then
                (.answer (.hashMismatch (expectedHash md idx) actualHash), fs)
              else storeChunk E fs dir idx body actualHash
      | _ => (.answer .metadataNotFound, fs)

/-- The assembly loop of `CompleteHandler`: read each chunk in index order and
append it to the temporary output; `Except.error` with the index whose chunk
cannot be read. -/
def assembleChunks (E : Env) (dir outTemp : Path) :
    List Nat → FS → List Nat → Except (Nat × FS) (FS × List Nat)
  | [], fs, acc => .ok (fs, acc)
  | i :: rest, fs, acc =>
    match fs.readFile (join dir (chunkName i)) with
    | .ok data =>
      let acc := acc ++ data.bytes E.lib
      assembleChunks E dir outTemp rest (fs.set outTemp (.file (.raw acc))) acc
    | _ => .error (i, fs)

/-- The cleanup loop of `CompleteHandler`: remove every chunk and side-car,
dropping the errors. -/
def removeChunks (fs : FS) (dir : Path) (total : Int) : FS :=
  (List.range total.toNat).foldl
    (fun fs i =>
      let chunkPath := join dir (chunkName i)
      let fs := (fs.remove chunkPath).getD fs
      (fs.remove (withSuffix chunkPath ".xxhash")).getD fs) fs

/-- The handler `CompleteHandler`. -/
def CompleteHandler (E : Env) (fs : FS) (uploadID : String) : CompleteResponse × FS :=
  let dir := join StorageRoot uploadID
  match fs.readFile (join dir "metadata.json") with
  | .ok c =>
    match decodeMetadata E c with
    | none => (.answer .invalidMetadata, fs)
    | some md =>
      let outPath := join dir md.Filename
      if (fs.stat outPath).isFound then (.answer .alreadyCompleted, fs)
      else
        let received := ReadReceivedChunks E fs dir
        let missing := missingChunks received md.TotalChunks
        if missing.length > 0 then
          (.answer (.incomplete missing received.length md.TotalChunks), fs)
        else
          let outTemp := withSuffix outPath ".part"
          match fs.writeFile outTemp (.raw []) with
          | none => (.createFailed, fs)
          | some fs =>
            match assembleChunks E dir outTemp (List.range md.TotalChunks.toNat) fs [] with
            | .error (i, fs) => (.answer (.missingChunk i), (fs.remove outTemp).getD fs)
            | .ok (fs, data) =>
              let finalHash := hashHex E.lib data
              if md.FileHash ≠ "" ∧ md.FileHash ≠ finalHash then
                (.answer (.overallHashMismatch md.FileHash finalHash),
                  (fs.remove outTemp).getD fs)
              else
                match fs.rename outTemp outPath with
                | none => (.renameFailed, fs)
                | some fs =>
                  let fs := removeChunks fs dir md.TotalChunks
                  let fs := (fs.remove (join dir "received.json")).getD fs
                  (.answer (.assembled (pathString outPath) finalHash
                      ("/static/" ++ uploadID ++ "/" ++ md.Filename)), fs)
  | _ => (.answer .metadataNotFound, fs)

/-- The handler `CleanupHandler`. -/
def CleanupHandler (E : Env) (fs : FS) (uploadID : String) : CleanupResponse × FS :=
  let dir := join StorageRoot uploadID
  if fs.stat dir = .notExist then (.answer .sessionNotFound, fs)
  else
    let completed :=
      match fs.readFile (join dir "metadata.json") with
      | .ok c =>
        match decodeMetadata E c with
        | some md => (fs.stat (join dir md.Filename)).isFound
        | none => false
      | _ => false
    if completed then (.answer .forbidden, fs)
    else
      match fs.removeAll dir with
      | none => (.deleteFailed, fs)
      | some fs => (.answer (.deleted uploadID), fs)

/-- The limit `BodyLimit: config.MaxUploadSize` that `main.go` gives the server:
a request with a larger declared length is refused before a handler runs. -/
def BodyLimit : Int := MaxUploadSize

/-- A request to one of the four session handlers. -/
inductive Op where
  | init (md : Metadata) (freshShareID : String)
  | upload (uploadID idxStr : String) (contentLength : Int) (body : List Nat)
  | complete (uploadID : String)
  | cleanup (uploadID : String)

/-- The file system after one request. -/
def step (E : Env) (fs : FS) : Op → FS
  | .init md fresh => (InitHandler fs md fresh).2
  | .upload u idxStr cl body => (UploadHandler E fs u idxStr cl body).2
  | .complete u => (CompleteHandler E fs u).2
  | .cleanup u => (CleanupHandler E fs u).2

/-- The file system after a sequence of requests, each one atomic. -/
def run (E : Env) (fs : FS) (ops : List Op) : FS :=
  ops.foldl (step E) fs

/-- The file system when the server starts with no storage yet: the working
directory and the storage root that `main.go` makes. -/
def FS.initial : FS :=
  [(StorageRoot, .dir), ([], .dir)]

/-- A plain name: one path component that `filepath.Join` leaves as it is (not
empty, not `.` or `..`, no separator) and that the file system stores also
with the suffix `.part` (no NUL byte, at most 250 bytes). -/
def plainName (n : String) : Prop :=
  n ≠ "" ∧ n ≠ "." ∧ n ≠ ".." ∧ '/' ∉ n.data ∧ Char.ofNat 0 ∉ n.data ∧
    (strBytes n).length ≤ 250

instance plainNameDecidable (n : String) : Decidable (plainName n) := by
  unfold plainName
  infer_instance

/-- A request with plain names: the upload id is a plain name, and the filename
of a descriptor is a plain name or empty. -/
def Op.Plain : Op → Prop
  | .init md _ => plainName md.UploadID ∧ (md.Filename = "" ∨ plainName md.Filename)
  | .upload u _ _ _ => plainName u
  | .complete u => plainName u
  | .cleanup u => plainName u

/-- A file system that requests with plain names produce from the initial one. -/
def PlainReachable (E : Env) (fs : FS) : Prop :=
  ∃ ops : List Op, (∀ op ∈ ops, op.Plain) ∧ fs = run E FS.initial ops

/-- The directory of a session with a plain upload id. -/
def sessionDir (u : String) : Path := ["storage", u]

/-- The path of a file with a plain name in the directory of a session. -/
def sessionFile (u n : String) : Path := ["storage", u, n]

/-- The files of the directory of a session, as a directory of the session
model. -/
def view (fs : FS) (u : String) : Dir :=
  fun n =>
    match fs.get (sessionFile u n) with
    | some (.file c) => some c
    | _ => none

/-- The storage root as a storage of the session model: the directories
directly below the root, each with its files. -/
def toStore (fs : FS) : Store :=
  fun u =>
    match fs.get (sessionDir u) with
    | some .dir => some (view fs u)
    | _ => none

/-- Shape of a file system that holds nothing but sessions with plain names:
the working directory and the storage root are directories, the entries of the
root are directories, and the entries of a session directory are regular files
of an existing session directory. -/
structure Shape (fs : FS) : Prop where
  cwd : fs.get [] = some .dir
  root : fs.get ["storage"] = some .dir
  sess : ∀ (u : String) (c : FileData), fs.get (sessionDir u) ≠ some (.file c)
  files : ∀ u n : String, fs.get (sessionFile u n) ≠ some .dir
  closed : ∀ u n : String, fs.get (sessionFile u n) ≠ none → fs.get (sessionDir u) = some .dir

/-- The table `g` with the files of the session directory of `u` replaced by
the files of `d`. -/
def putDir (g : Path → Option Node) (u : String) (d : Dir) : Path → Option Node :=
  fun p =>
    match p with
    | [r, v, n] => if r = "storage" ∧ v = u then (d n).map Node.file else g p
    | _ => g p

/-- The file system `fs` is `fs0` with the files of the session directory of `u`
replaced by the files of `d`. -/
def Rep (fs0 : FS) (u : String) (fs : FS) (d : Dir) : Prop :=
  ∀ p, fs.get p = putDir fs0.get u d p

/-- The JSON files of a session directory hold documents the handlers wrote,
and the filename of its descriptor is a plain name or empty. -/
def TypedSession (d : Dir) : Prop :=
  (∀ b, d "metadata.json" ≠ some (.raw b)) ∧ (∀ b, d "received.json" ≠ some (.raw b)) ∧
  ∀ md, d "metadata.json" = some (.descriptor md) → md.Filename = "" ∨ plainName md.Filename

/-- Every stored descriptor names a plain file or has the empty filename. -/
def PlainNames (s : Store) : Prop :=
  ∀ u d md, s u = some d → d "metadata.json" = some (.descriptor md) →
    md.Filename = "" ∨ plainName md.Filename

/-- The requests of the session model that a request to the file system
amounts to: none for an index that is not an integer. -/
def Op.flat : Op → List Knot.Op
  | .init md fresh => [.init md fresh]
  | .upload u idxStr cl body =>
    match atoi idxStr with
    | some idx => [.upload u idx cl body]
    | none => []
  | .complete u => [.complete u]
  | .cleanup u => [.cleanup u]

/-- Decidability of `Op.Plain`. -/
instance Op.plainDecidable (op : Op) : Decidable op.Plain := by
  cases op <;> unfold Op.Plain <;> infer_instance

/-- The size `os.Stat` reports for a node: `dirSize` for a directory, the number
of bytes of a file. -/
def statSize (E : Env) (dirSize : Int) : Node → Int
  | .dir => dirSize
  | .file c => ((c.bytes E.lib).length : Int)

/-- One round of the loop of `GetRoomState` over the entries of the storage
root; `name` is the name of the entry and `modTime` its modification time. -/
def scanEntry (E : Env) (dirSize : Int) (modTime : String → Int) (fs : FS)
    (shareID : String) (acc : RoomScan) (name : String) : RoomScan :=
  match fs.get (StorageRoot ++ [name]) with
  | some .dir =>
    let metadataPath := join (join StorageRoot name) "metadata.json"
    if fs.stat metadataPath = .notExist then acc
    else
      match fs.readFile metadataPath with
      | .ok c =>
        match decodeMetadata E c with
        | none => acc
        | some md =>
          if md.ShareID ≠ shareID then acc
          else
            let uploadDir := join StorageRoot name
            let lastUpdated :=
              match acc.lastUpdated with
              | none => some (modTime name)
              | some l => if modTime name > l then some (modTime name) else some l
            match fs.stat (join uploadDir md.Filename) with
            | .found node =>
              { acc with
                completed := acc.completed ++
                  [⟨name, md.Filename, statSize E dirSize node, modTime name⟩],
                lastUpdated := lastUpdated }
            | _ =>
              let received := ReadReceivedChunks E fs uploadDir
              let completionPercent :=
                if md.TotalChunks > 0 then ((received.length : Int) * 100).tdiv md.TotalChunks
                else 0
              { acc with
                active := acc.active ++
                  [⟨name, md.Filename, md.TotalChunks, received.length, completionPercent,
                    modTime name⟩],
                lastUpdated := lastUpdated }
      | _ => acc
  | _ => acc

/-- The function `RoomService.GetRoomState`; `now` is the clock reading inside
`GetRoomExpiry` and `later` the reading of `time.Until` after it; `none` when the
storage root cannot be listed. -/
def GetRoomState (E : Env) (dirSize : Int) (modTime : String → Int) (fs : FS)
    (rs : RoomService) (shareID : String) (now later : Int) : Option RoomState :=
  match fs.readDir StorageRoot with
  | none => none
  | some entries =>
    let scan := entries.foldl (scanEntry E dirSize modTime fs shareID) ⟨[], [], none⟩
    let expiresAt := rs.GetRoomExpiry shareID now
    let expiresIn := durationSeconds (expiresAt - later)
    some ⟨shareID, scan.active, scan.completed, scan.lastUpdated, expiresAt,
      if expiresIn < 0 then 0 else expiresIn⟩

/-- Every session directory has a plain name. -/
def PlainIds (s : Store) : Prop :=
  ∀ u, (s u).isSome = true → plainName u

/-- A library instance for the examples: the sample digest and encoder, and a
decoder that reads the texts `[5]` and `[0,0]` as the arrays they spell. -/
def sampleEnv : Env :=
  ⟨sampleLib, fun _ => none,
    fun b => if b = [91, 53, 93] then some [5]
      else if b = [91, 48, 44, 48, 93] then some [0, 0] else none⟩

/-- The file system after the three chunks "A", "B", "C" of `sessionABC` arrived. -/
def fsABC : FS :=
  run sampleEnv FS.initial
    [.init sessionABC "", .upload "u1" "0" 1 [65], .upload "u1" "1" 1 [66],
      .upload "u1" "2" 1 [67]]

/-- The file system after only the chunks "A" and "C" of `sessionABC` arrived. -/
def fsAC : FS :=
  run sampleEnv FS.initial [.init sessionABC "", .upload "u1" "0" 1 [65], .upload "u1" "2" 1 [67]]

/-- The file system after the only chunk of `sessionBadHash` arrived. -/
def fsBadHash : FS :=
  run sampleEnv FS.initial [.init sessionBadHash "", .upload "u1" "0" 1 [65]]

/-- A one-chunk session whose filename has a directory component. -/
def sessionNested : Metadata := ⟨"u1", "a/b", 1, 1, [], "", "r1"⟩

/-- The file system after the only chunk of `sessionNested` arrived. -/
def fsNested : FS :=
  run sampleEnv FS.initial [.init sessionNested "", .upload "u1" "0" 1 [65]]

/-- A one-chunk session with a directory component in its filename and a
declared file hash no payload has. -/
def sessionNestedBadHash : Metadata := ⟨"u1", "a/b", 1, 1, [], "deadbeef", "r1"⟩

/-- A session without chunks. -/
def sessionEmpty : Metadata := ⟨"u2", "f2", 0, 1, [], "", "r1"⟩

/-- A one-chunk session whose filename points at the received list of the
session `u2`. -/
def sessionForger : Metadata := ⟨"u1", "../u2/received.json", 1, 1, [], "", "r1"⟩

/-- The file system after the session `u2` was assembled and the session `u1`,
whose filename points into the directory of `u2`, was assembled from the chunk
`[5]`. -/
def fsForged : FS :=
  run sampleEnv FS.initial
    [.init sessionEmpty "", .complete "u2", .init sessionForger "",
      .upload "u1" "0" 3 [91, 53, 93], .complete "u1"]

/-- A session that is going to be cleaned up. -/
def sessionHost : Metadata := ⟨"u9", "x9", 1, 1, [], "", "r1"⟩

/-- A two-chunk session whose filename points into the directory of `u9`. -/
def sessionGuest : Metadata := ⟨"u2", "../u9/f", 2, 1, [], "", "r1"⟩

/-- The file system after the session `u2` was assembled into the directory of
`u9`, the session `u9` was cleaned up, and the session `u1`, whose filename
points at the received list of `u2`, was assembled from the chunk `[0,0]`. -/
def fsDuplicate : FS :=
  run sampleEnv FS.initial
    [.init sessionHost "", .init sessionGuest "", .upload "u2" "0" 1 [65],
      .upload "u2" "1" 1 [66], .complete "u2", .cleanup "u9", .init sessionForger "",
      .upload "u1" "0" 5 [91, 48, 44, 48, 93], .complete "u1"]

/-- A one-chunk session named `a.bin`. -/
def sessionFirst : Metadata := ⟨"u1", "a.bin", 1, 1, [], "", "r1"⟩

/-- The same upload id with the filename `b.bin`. -/
def sessionSecond : Metadata := ⟨"u1", "b.bin", 1, 1, [], "", "r1"⟩

/-- The file system after `sessionFirst` was assembled and its upload id was
created again as `sessionSecond`. -/
def fsRecreated : FS :=
  run sampleEnv FS.initial
    [.init sessionFirst "", .upload "u1" "0" 1 [65], .complete "u1", .init sessionSecond ""]

/-- A session whose upload id has a directory component. -/
def sessionDeepID : Metadata := ⟨"a/b", "f", 1, 1, [], "", "r1"⟩

/-- The file system after `sessionDeepID` was created. -/
def fsDeepID : FS :=
  run sampleEnv FS.initial [.init sessionDeepID ""]

/-- A file system with two active sessions and one completed session of room
`r1` and one session of room `r2`. -/
def fsRoom : FS :=
  run sampleEnv FS.initial
    [.init sessionABC "", .upload "u1" "0" 1 [65], .init sessionTwo "", .init sessionDone "",
      .complete "u3", .init sessionOther ""]

end Disk

/-! ## File names -/

theorem digitChar_value (k : Nat) (hk : k < 10) :
    (Nat.digitChar k).toNat - 48 = k ∧ Nat.digitChar k ≠ '.' := by
  interval_cases k <;> decide

theorem digitsValue_append_singleton (cs : List Char) (c : Char) :
    digitsValue (cs ++ [c]) = 10 * digitsValue cs + (c.toNat - 48) := by
  simp [digitsValue, List.foldl_append]

theorem toDigitsCore_spec (fuel : Nat) : ∀ (n : Nat) (ds : List Char), n < fuel →
    ∃ pre : List Char, Nat.toDigitsCore 10 fuel n ds = pre ++ ds ∧ pre ≠ [] ∧
      digitsValue pre = n ∧ '.' ∉ pre := by
  induction fuel with
  | zero => intro n ds h; omega
  | succ f ih =>
    intro n ds h
    have hd := digitChar_value (n % 10) (Nat.mod_lt _ (by decide))
    simp only [Nat.toDigitsCore]
    split
    · rename_i h0
      refine ⟨[Nat.digitChar (n % 10)], rfl, by simp, ?_, ?_⟩
      · simp [digitsValue, hd.1]; omega
      · simpa using hd.2.symm
    · rename_i h0
      obtain ⟨pre, hpre, -, hv, hdot⟩ := ih (n / 10) (Nat.digitChar (n % 10) :: ds) (by omega)
      refine ⟨pre ++ [Nat.digitChar (n % 10)], by simp [hpre], by simp, ?_, ?_⟩
      · rw [digitsValue_append_singleton, hv, hd.1]; omega
      · simp [hdot, hd.2.symm]

theorem digitsValue_zeros (k : Nat) (cs : List Char) :
    digitsValue (List.replicate k '0' ++ cs) = digitsValue cs := by
  induction k with
  | zero => simp
  | succ k ih =>
    simp only [List.replicate_succ, List.cons_append]
    simp only [digitsValue, List.foldl_cons] at ih ⊢
    simpa using ih

theorem pad6_spec (n : Nat) : digitsValue (pad6 n) = n ∧ '.' ∉ pad6 n ∧ pad6 n ≠ [] := by
  obtain ⟨pre, hpre, hne, hv, hdot⟩ := toDigitsCore_spec (n + 1) n [] (by omega)
  simp only [List.append_nil] at hpre
  simp only [pad6, Nat.toDigits, hpre]
  refine ⟨by rw [digitsValue_zeros, hv], ?_, by simp [hne]⟩
  simp only [List.mem_append, List.mem_replicate, not_or]
  exact ⟨fun h => absurd h.2 (by decide), hdot⟩

theorem chunkName_data (i : Nat) : (chunkName i).data = "chunk_".data ++ pad6 i := by
  simp [chunkName, String.data_append]

theorem dot_not_mem_chunkName (i : Nat) : '.' ∉ (chunkName i).data := by
  rw [chunkName_data]
  simp only [List.mem_append, not_or]
  exact ⟨by decide, (pad6_spec i).2.1⟩

theorem chunkName_ne_of_dot {i : Nat} {n : String} (h : '.' ∈ n.data) : chunkName i ≠ n := by
  intro e
  exact dot_not_mem_chunkName i (e ▸ h)

theorem dot_mem_append_part (x : String) : '.' ∈ (x ++ ".part").data := by
  simp [String.data_append]

theorem dot_mem_append_xxhash (x : String) : '.' ∈ (x ++ ".xxhash").data := by
  simp [String.data_append]

theorem last_append_part (x : String) : (x ++ ".part").data.getLast? = some 't' := by
  simp [String.data_append]

theorem last_append_xxhash (x : String) : (x ++ ".xxhash").data.getLast? = some 'h' := by
  simp [String.data_append]

theorem append_part_ne_self (x : String) : x ++ ".part" ≠ x := by
  intro e
  have h := congrArg String.length e
  simp at h
  exact absurd h (by decide)

theorem append_part_ne_xxhash (x y : String) : x ++ ".part" ≠ y ++ ".xxhash" := by
  intro e
  have h := last_append_part x
  rw [e, last_append_xxhash] at h
  exact absurd h (by decide)

theorem append_part_ne_metadata (x : String) : x ++ ".part" ≠ "metadata.json" := by
  intro e
  have h := last_append_part x
  rw [e] at h
  exact absurd h (by decide)

theorem append_part_ne_received (x : String) : x ++ ".part" ≠ "received.json" := by
  intro e
  have h := last_append_part x
  rw [e] at h
  exact absurd h (by decide)

theorem append_xxhash_ne_metadata (x : String) : x ++ ".xxhash" ≠ "metadata.json" := by
  intro e
  have h := last_append_xxhash x
  rw [e] at h
  exact absurd h (by decide)

theorem append_xxhash_ne_received (x : String) : x ++ ".xxhash" ≠ "received.json" := by
  intro e
  have h := last_append_xxhash x
  rw [e] at h
  exact absurd h (by decide)

theorem chunkName_ne_metadata (i : Nat) : chunkName i ≠ "metadata.json" :=
  chunkName_ne_of_dot (by decide)

theorem chunkName_ne_received (i : Nat) : chunkName i ≠ "received.json" :=
  chunkName_ne_of_dot (by decide)

theorem chunkName_ne_append_part (i : Nat) (x : String) : chunkName i ≠ x ++ ".part" :=
  chunkName_ne_of_dot (dot_mem_append_part x)

theorem chunkName_ne_append_xxhash (i : Nat) (x : String) : chunkName i ≠ x ++ ".xxhash" :=
  chunkName_ne_of_dot (dot_mem_append_xxhash x)

/-! ## Received-set tracker -/

theorem readReceived_of_indexList {d : Dir} {arr : List Int}
    (h : d "received.json" = some (.indexList arr)) : ReadReceivedChunks d = arr := by
  simp [ReadReceivedChunks, h]

theorem readReceived_eq_nil_or (d : Dir) :
    ReadReceivedChunks d = [] ∨ d "received.json" = some (.indexList (ReadReceivedChunks d)) := by
  unfold ReadReceivedChunks
  split
  · rename_i arr h; right; exact h
  · left; rfl

theorem readReceived_congr {d d' : Dir} (h : d' "received.json" = d "received.json") :
    ReadReceivedChunks d' = ReadReceivedChunks d := by
  simp [ReadReceivedChunks, h]

theorem appendReceived_eq (d : Dir) (idx : Int) :
    AppendReceivedChunk d idx =
      if idx ∈ ReadReceivedChunks d then d
      else d.write "received.json" (.indexList (sortInts (ReadReceivedChunks d ++ [idx]))) := by
  have harr : (match d "received.json" with
      | none => ([] : List Int)
      | some (.indexList a) => a
      | some _ => []) = ReadReceivedChunks d := by
    unfold ReadReceivedChunks
    split <;> simp_all
  unfold AppendReceivedChunk
  simp only [harr]
  by_cases hmem : idx ∈ ReadReceivedChunks d
  · have : ((ReadReceivedChunks d).any fun v => v == idx) = true := by
      simp only [List.any_eq_true, beq_iff_eq]
      exact ⟨idx, hmem, rfl⟩
    simp [this, hmem]
  · have : ((ReadReceivedChunks d).any fun v => v == idx) = false := by
      rw [Bool.eq_false_iff]
      intro h
      simp only [List.any_eq_true, beq_iff_eq] at h
      obtain ⟨v, hv, rfl⟩ := h
      exact hmem hv
    simp [this, hmem]

theorem readReceived_append (d : Dir) (idx : Int) :
    ReadReceivedChunks (AppendReceivedChunk d idx) =
      if idx ∈ ReadReceivedChunks d then ReadReceivedChunks d
      else sortInts (ReadReceivedChunks d ++ [idx]) := by
  rw [appendReceived_eq]
  split
  · rfl
  · simp [ReadReceivedChunks, Dir.write]

theorem appendReceived_other (d : Dir) (idx : Int) {n : String} (hn : n ≠ "received.json") :
    AppendReceivedChunk d idx n = d n := by
  rw [appendReceived_eq]
  split
  · rfl
  · simp [Dir.write, hn]

theorem mem_sortInts {l : List Int} {x : Int} : x ∈ sortInts l ↔ x ∈ l :=
  (List.perm_insertionSort (· ≤ ·) l).mem_iff

theorem sortInts_snoc_sorted {l : List Int} {x : Int} (hl : l.Sorted (· < ·)) (hx : x ∉ l) :
    (sortInts (l ++ [x])).Sorted (· < ·) := by
  apply List.Sorted.lt_of_le (List.sorted_insertionSort (· ≤ ·) _)
  apply (List.perm_insertionSort (· ≤ ·) _).nodup_iff.mpr
  rw [List.nodup_append]
  refine ⟨hl.nodup, List.nodup_singleton x, ?_⟩
  intro a ha hb
  rw [List.mem_singleton] at hb
  exact hx (hb ▸ ha)

theorem mem_readReceived_append (d : Dir) (idx i : Int) :
    i ∈ ReadReceivedChunks (AppendReceivedChunk d idx) ↔ i = idx ∨ i ∈ ReadReceivedChunks d := by
  rw [readReceived_append]
  split
  · rename_i h
    constructor
    · intro hi; exact Or.inr hi
    · rintro (rfl | hi)
      · exact h
      · exact hi
  · rw [mem_sortInts, List.mem_append, List.mem_singleton]
    tauto

theorem appendReceived_received_file (d : Dir) (idx : Int) :
    AppendReceivedChunk d idx "received.json" =
      some (.indexList (ReadReceivedChunks (AppendReceivedChunk d idx))) := by
  rcases readReceived_eq_nil_or (AppendReceivedChunk d idx) with h | h
  · exfalso
    have := (mem_readReceived_append d idx idx).mpr (Or.inl rfl)
    rw [h] at this
    exact absurd this (List.not_mem_nil _)
  · exact h



/-! ## Chunk ingestion -/

theorem storeChunk_received_file (d : Dir) (idx : Int) (body : List Nat) (h : String) :
    storeChunk d idx body h "received.json" =
      some (.indexList (ReadReceivedChunks (storeChunk d idx body h))) := by
  unfold storeChunk
  exact appendReceived_received_file _ idx

theorem storeChunk_other (d : Dir) (idx : Int) (body : List Nat) (h : String) {n : String}
    (h1 : n ≠ "received.json") (h2 : n ≠ sidecarName idx.toNat) (h3 : n ≠ chunkName idx.toNat)
    (h4 : n ≠ chunkName idx.toNat ++ ".part") : storeChunk d idx body h n = d n := by
  simp only [storeChunk]
  rw [appendReceived_other _ _ h1]
  unfold sidecarName at h2
  simp [Dir.write, Dir.rename, h2, h3, h4]

theorem storeChunk_chunk (d : Dir) (idx : Int) (body : List Nat) (h : String) :
    storeChunk d idx body h (chunkName idx.toNat) = some (.raw body) := by
  simp only [storeChunk]
  rw [appendReceived_other _ _ (chunkName_ne_received _)]
  simp [Dir.write, Dir.rename, chunkName_ne_append_xxhash]

theorem storeChunk_sidecar (d : Dir) (idx : Int) (body : List Nat) (h : String) :
    storeChunk d idx body h (sidecarName idx.toNat) = some (.raw (strBytes h)) := by
  simp only [storeChunk, sidecarName]
  rw [appendReceived_other _ _ (append_xxhash_ne_received _)]
  simp [Dir.write]

theorem storeChunk_metadata (d : Dir) (idx : Int) (body : List Nat) (h : String) :
    storeChunk d idx body h "metadata.json" = d "metadata.json" :=
  storeChunk_other d idx body h (by decide) (append_xxhash_ne_metadata _).symm
    (chunkName_ne_metadata _).symm (append_part_ne_metadata _).symm

theorem storeChunk_readReceived (d : Dir) (idx : Int) (body : List Nat) (h : String) :
    ReadReceivedChunks (storeChunk d idx body h) =
      if idx ∈ ReadReceivedChunks d then ReadReceivedChunks d
      else sortInts (ReadReceivedChunks d ++ [idx]) := by
  simp only [storeChunk]
  rw [readReceived_append]
  have hr : ReadReceivedChunks
      (((d.write (chunkName idx.toNat ++ ".part") (.raw body)).rename
        (chunkName idx.toNat ++ ".part") (chunkName idx.toNat)).write
        (chunkName idx.toNat ++ ".xxhash") (.raw (strBytes h))) = ReadReceivedChunks d := by
    apply readReceived_congr
    simp [Dir.write, Dir.rename, (append_xxhash_ne_received _).symm,
      (chunkName_ne_received _).symm, (append_part_ne_received _).symm]
  rw [hr]

theorem mem_storeChunk_readReceived (d : Dir) (idx : Int) (body : List Nat) (h : String)
    (i : Int) :
    i ∈ ReadReceivedChunks (storeChunk d idx body h) ↔ i = idx ∨ i ∈ ReadReceivedChunks d := by
  rw [storeChunk_readReceived]
  split
  · rename_i hm
    constructor
    · intro hi; exact Or.inr hi
    · rintro (rfl | hi)
      · exact hm
      · exact hi
  · rw [mem_sortInts, List.mem_append, List.mem_singleton]
    tauto

theorem storeChunk_isSome_mono (d : Dir) (idx : Int) (body : List Nat) (h : String) {n : String}
    (h1 : n ≠ chunkName idx.toNat ++ ".part") (hn : (d n).isSome = true) :
    (storeChunk d idx body h n).isSome = true := by
  by_cases e1 : n = "received.json"
  · rw [e1, storeChunk_received_file]; rfl
  by_cases e2 : n = sidecarName idx.toNat
  · rw [e2, storeChunk_sidecar]; rfl
  by_cases e3 : n = chunkName idx.toNat
  · rw [e3, storeChunk_chunk]; rfl
  rw [storeChunk_other d idx body h e1 e2 e3 h1]
  exact hn

/-- The outcome of `UploadHandler` on a session with a descriptor, as one
case distinction. -/
theorem upload_eq (L : Lib) (s : Store) (u : String) (idx cl : Int) (body : List Nat)
    {d : Dir} {md : Metadata} (hd : s u = some d)
    (hmd : d "metadata.json" = some (.descriptor md)) :
    UploadHandler L s u idx cl body =
      if cl > MaxUploadSize then (.payloadTooLarge, s)
      else if idx < 0 ∨ idx ≥ md.TotalChunks then (.indexOutOfRange, s)
      else if d.stat md.Filename = true then (.alreadyCompleted, s)
      else if body = [] then (.emptyBody, s)
      else
        match existingChunk L d idx (hashHex L body) with
        | some existingData => (.alreadyReceived existingData.length (hashHex L body), s)
        | none =>
          if expectedHash md idx ≠ "" ∧ expectedHash md idx ≠ hashHex L body then
            (.hashMismatch (expectedHash md idx) (hashHex L body), s)
          else
            (.received body.length (hashHex L body),
              s.set u (some (storeChunk d idx body (hashHex L body)))) := by
  simp only [UploadHandler, hd, hmd, List.length_eq_zero]

/-- What `UploadHandler` does to the storage: nothing, or it stores the chunk of
an accepted request. -/
theorem upload_cases (L : Lib) (s : Store) (u : String) (idx cl : Int) (body : List Nat) :
    (UploadHandler L s u idx cl body).2 = s ∨
    ∃ d md, s u = some d ∧ d "metadata.json" = some (.descriptor md) ∧
      0 ≤ idx ∧ idx < md.TotalChunks ∧ d.stat md.Filename = false ∧ body ≠ [] ∧
      cl ≤ MaxUploadSize ∧
      UploadHandler L s u idx cl body =
        (.received body.length (hashHex L body),
          s.set u (some (storeChunk d idx body (hashHex L body)))) := by
  rcases hd : s u with _ | d
  · left; simp [UploadHandler, hd]
  rcases hm : d "metadata.json" with _ | f
  · left
    simp only [UploadHandler, hd, hm]
    split <;> rfl
  cases f with
  | descriptor md =>
    rw [upload_eq L s u idx cl body hd hm]
    by_cases h1 : cl > MaxUploadSize
    · left; simp [h1]
    by_cases h2 : idx < 0 ∨ idx ≥ md.TotalChunks
    · left; simp [h1, h2]
    by_cases h3 : d.stat md.Filename = true
    · left; simp [h1, h2, h3]
    by_cases h4 : body = []
    · left; simp [h1, h2, h3, h4]
    simp only [h1, h2, h3, h4, if_false]
    cases existingChunk L d idx (hashHex L body) with
    | some e => left; rfl
    | none =>
      by_cases h5 : expectedHash md idx ≠ "" ∧ expectedHash md idx ≠ hashHex L body
      · left; simp [h5]
      · right
        refine ⟨d, md, rfl, hm, by omega, by omega, by simpa using h3, h4, by omega, ?_⟩
        simp [h5]
  | indexList arr =>
    left
    simp only [UploadHandler, hd, hm]
    split <;> rfl
  | raw b =>
    left
    simp only [UploadHandler, hd, hm]
    split <;> rfl



/-! ## Assembly -/

theorem write_write (d : Dir) (n : String) (a b : FileData) :
    (d.write n a).write n b = d.write n b := by
  funext m
  simp only [Dir.write]
  split <;> rfl

theorem write_remove (d : Dir) (n : String) (a : FileData) :
    (d.write n a).remove n = d.remove n := by
  funext m
  simp only [Dir.write, Dir.remove]
  split <;> rfl

theorem assembleChunks_eq (L : Lib) (outTemp : String) (hne : ∀ i, chunkName i ≠ outTemp)
    (d : Dir) : ∀ (l : List Nat) (acc : List Nat),
    assembleChunks L outTemp l (d.write outTemp (.raw acc)) acc =
      match readAll L d l with
      | .error i => .error i
      | .ok data => .ok (d.write outTemp (.raw (acc ++ data)), acc ++ data) := by
  intro l
  induction l with
  | nil => intro acc; simp [assembleChunks, readAll]
  | cons i rest ih =>
    intro acc
    have hread : (d.write outTemp (.raw acc)) (chunkName i) = d (chunkName i) := by
      simp [Dir.write, hne i]
    simp only [assembleChunks, readAll, hread]
    cases hc : d (chunkName i) with
    | none => rfl
    | some data =>
      simp only [write_write, ih]
      cases readAll L d rest with
      | error j => rfl
      | ok tail => simp [List.append_assoc]

theorem foldl_remove_none (l : List Nat) : ∀ (d : Dir) (n : String), d n = none →
    l.foldl (fun d i => (d.remove (chunkName i)).remove (chunkName i ++ ".xxhash")) d n = none := by
  induction l with
  | nil => intro d n h; exact h
  | cons i rest ih =>
    intro d n h
    simp only [List.foldl_cons]
    apply ih
    simp only [Dir.remove]
    split
    · rfl
    · split
      · rfl
      · exact h

theorem foldl_remove_other (l : List Nat) : ∀ (d : Dir) (n : String),
    (∀ i ∈ l, n ≠ chunkName i ∧ n ≠ sidecarName i) →
    l.foldl (fun d i => (d.remove (chunkName i)).remove (chunkName i ++ ".xxhash")) d n = d n := by
  induction l with
  | nil => intro d n _; rfl
  | cons i rest ih =>
    intro d n h
    simp only [List.foldl_cons]
    rw [ih _ n (fun j hj => h j (List.mem_cons_of_mem _ hj))]
    have h1 := h i (List.mem_cons_self _ _)
    unfold sidecarName at h1
    simp [Dir.remove, h1.1, h1.2]

theorem foldl_remove_removed (l : List Nat) : ∀ (d : Dir) (i : Nat), i ∈ l →
    l.foldl (fun d i => (d.remove (chunkName i)).remove (chunkName i ++ ".xxhash")) d
        (chunkName i) = none ∧
    l.foldl (fun d i => (d.remove (chunkName i)).remove (chunkName i ++ ".xxhash")) d
        (sidecarName i) = none := by
  induction l with
  | nil => intro d i h; exact absurd h (List.not_mem_nil _)
  | cons j rest ih =>
    intro d i h
    simp only [List.foldl_cons]
    rcases List.mem_cons.mp h with rfl | h
    · constructor
      · apply foldl_remove_none
        simp [Dir.remove, chunkName_ne_append_xxhash]
      · apply foldl_remove_none
        simp [Dir.remove, sidecarName]
    · exact ih _ i h

theorem removeChunks_removed (d : Dir) (total : Int) (i : Nat) (h : (i : Int) < total) :
    removeChunks d total (chunkName i) = none ∧ removeChunks d total (sidecarName i) = none := by
  unfold removeChunks
  apply foldl_remove_removed
  rw [List.mem_range]
  omega

theorem removeChunks_other (d : Dir) (total : Int) (n : String)
    (h : ∀ i : Nat, (i : Int) < total → n ≠ chunkName i ∧ n ≠ sidecarName i) :
    removeChunks d total n = d n := by
  unfold removeChunks
  apply foldl_remove_other
  intro i hi
  rw [List.mem_range] at hi
  exact h i (by omega)

/-- The outcome of `CompleteHandler` on a session with a descriptor, as one case
distinction over what the assembly loop reads. -/
theorem complete_eq (L : Lib) (s : Store) (u : String) {d : Dir} {md : Metadata}
    (hd : s u = some d) (hmd : d "metadata.json" = some (.descriptor md)) :
    CompleteHandler L s u =
      if d.stat md.Filename = true then (.alreadyCompleted, s)
      else if missingChunks (ReadReceivedChunks d) md.TotalChunks ≠ [] then
        (.incomplete (missingChunks (ReadReceivedChunks d) md.TotalChunks)
          (ReadReceivedChunks d).length md.TotalChunks, s)
      else
        match readAll L d (List.range md.TotalChunks.toNat) with
        | .error i => (.missingChunk i, s.set u (some (d.remove (md.Filename ++ ".part"))))
        | .ok data =>
          if md.FileHash ≠ "" ∧ md.FileHash ≠ hashHex L data then
            (.overallHashMismatch md.FileHash (hashHex L data),
              s.set u (some (d.remove (md.Filename ++ ".part"))))
          else
            (.assembled ("storage/" ++ u ++ "/" ++ md.Filename) (hashHex L data)
                ("/static/" ++ u ++ "/" ++ md.Filename),
              s.set u (some (assembledDir d md data))) := by
  have hne : ∀ i, chunkName i ≠ md.Filename ++ ".part" := fun i => chunkName_ne_append_part i _
  simp only [CompleteHandler, hd, hmd, assembledDir]
  by_cases h1 : d.stat md.Filename = true
  · simp [h1]
  by_cases h2 : missingChunks (ReadReceivedChunks d) md.TotalChunks = []
  · have h2' : ¬ (missingChunks (ReadReceivedChunks d) md.TotalChunks).length > 0 := by
      simp [h2]
    simp only [h1, h2', h2, if_false, ne_eq, not_true_eq_false]
    have := assembleChunks_eq L (md.Filename ++ ".part") hne d
      (List.range md.TotalChunks.toNat) []
    simp only [List.nil_append] at this
    rw [this]
    cases readAll L d (List.range md.TotalChunks.toNat) with
    | error i => simp [write_remove]
    | ok data =>
      simp only [write_write, write_remove]
      split <;> rfl
  · have h2' : (missingChunks (ReadReceivedChunks d) md.TotalChunks).length > 0 :=
      List.length_pos.mpr h2
    simp [h1, h2', h2]



theorem mem_missingChunks (received : List Int) (total i : Int) :
    i ∈ missingChunks received total ↔ (0 ≤ i ∧ i < total) ∧ i ∉ received := by
  simp only [missingChunks, List.mem_filter, List.mem_map, List.mem_range, Bool.not_eq_true',
    List.contains_eq_any_beq, List.any_eq_false, beq_iff_eq]
  constructor
  · rintro ⟨⟨k, hk, rfl⟩, hn⟩
    refine ⟨⟨by omega, by omega⟩, fun hm => hn _ hm rfl⟩
  · rintro ⟨⟨h0, h1⟩, hn⟩
    refine ⟨⟨i.toNat, by omega, by simp [Int.toNat_of_nonneg h0]⟩, ?_⟩
    intro x hx e
    exact hn (e ▸ hx)

theorem missingChunks_eq_nil (received : List Int) (total : Int) :
    missingChunks received total = [] ↔ ∀ i : Int, 0 ≤ i → i < total → i ∈ received := by
  rw [List.eq_nil_iff_forall_not_mem]
  constructor
  · intro h i h0 h1
    by_contra hn
    exact h i ((mem_missingChunks received total i).mpr ⟨⟨h0, h1⟩, hn⟩)
  · intro h i hi
    obtain ⟨⟨h0, h1⟩, hn⟩ := (mem_missingChunks received total i).mp hi
    exact hn (h i h0 h1)

theorem missingChunks_sorted (received : List Int) (total : Int) :
    (missingChunks received total).Sorted (· < ·) := by
  unfold missingChunks
  apply List.Sorted.filter
  have h : (List.range total.toNat).Sorted (· < ·) := List.sorted_lt_range _
  exact List.Pairwise.map _ (fun a b hab => by exact_mod_cast hab) h

theorem assembledDir_received (d : Dir) (md : Metadata) (data : List Nat) :
    assembledDir d md data "received.json" = none := by
  simp [assembledDir, Dir.remove]

theorem assembledDir_removed (d : Dir) (md : Metadata) (data : List Nat) (i : Nat)
    (h : (i : Int) < md.TotalChunks) :
    assembledDir d md data (chunkName i) = none ∧
      assembledDir d md data (sidecarName i) = none := by
  have := removeChunks_removed
    ((d.write (md.Filename ++ ".part") (.raw data)).rename (md.Filename ++ ".part") md.Filename)
    md.TotalChunks i h
  simp only [assembledDir, Dir.remove, this]
  simp

theorem assembledDir_filename (d : Dir) (md : Metadata) (data : List Nat)
    (h1 : md.Filename ≠ "received.json")
    (h2 : ∀ i : Nat, (i : Int) < md.TotalChunks →
      md.Filename ≠ chunkName i ∧ md.Filename ≠ sidecarName i) :
    assembledDir d md data md.Filename = some (.raw data) := by
  simp only [assembledDir, Dir.remove, h1, if_false]
  rw [removeChunks_other _ _ _ h2]
  simp [Dir.rename, Dir.write]

theorem assembledDir_other (d : Dir) (md : Metadata) (data : List Nat) (n : String)
    (h1 : n ≠ "received.json") (h2 : n ≠ md.Filename) (h3 : n ≠ md.Filename ++ ".part")
    (h4 : ∀ i : Nat, (i : Int) < md.TotalChunks → n ≠ chunkName i ∧ n ≠ sidecarName i) :
    assembledDir d md data n = d n := by
  simp only [assembledDir, Dir.remove, h1, if_false]
  rw [removeChunks_other _ _ _ h4]
  simp [Dir.rename, Dir.write, h2, h3]

theorem stat_false {d : Dir} {n : String} (h : d.stat n = false) : n ≠ "" ∧ d n = none := by
  simp only [Dir.stat, Bool.or_eq_false_iff, decide_eq_false_iff_not] at h
  refine ⟨h.1, ?_⟩
  cases hx : d n with
  | none => rfl
  | some c => rw [hx] at h; exact absurd h.2 (by simp)

theorem stat_of_some {d : Dir} {n : String} {c : FileData} (h : d n = some c) :
    d.stat n = true := by
  simp [Dir.stat, h]

theorem ne_of_stat_false {d : Dir} {n m : String} (h : d.stat n = false)
    (hm : (d m).isSome = true) : n ≠ m := by
  intro e
  rw [e] at h
  rw [(stat_false h).2] at hm
  exact absurd hm (by simp)



/-! ## The storage invariant -/

theorem storeInv_empty : StoreInv Store.empty := by
  intro u d h
  simp [Store.empty] at h

theorem storeInv_set {s : Store} {u : String} {d : Dir} (hs : StoreInv s) (hd : DirInv d) :
    StoreInv (s.set u (some d)) := by
  intro v e h
  simp only [Store.set] at h
  split at h
  · cases h; exact hd
  · exact hs v e h

theorem storeInv_set_none {s : Store} {u : String} (hs : StoreInv s) :
    StoreInv (s.set u none) := by
  intro v e h
  simp only [Store.set] at h
  split at h
  · cases h
  · exact hs v e h

theorem readReceived_nil_of_none {d : Dir} (h : d "received.json" = none) :
    ReadReceivedChunks d = [] := by
  simp [ReadReceivedChunks, h]

theorem init_inv (s : Store) (md : Metadata) (fresh : String) (hs : StoreInv s) :
    StoreInv (InitHandler s md fresh).2 := by
  unfold InitHandler
  split
  · exact hs
  · apply storeInv_set hs
    refine ⟨if md.ShareID = "" then { md with ShareID := fresh } else md,
      by simp [Dir.write], Or.inl ⟨[], by simp [Dir.write]⟩, ?_, ?_⟩
    · intro i hi
      simp [ReadReceivedChunks, Dir.write] at hi
    · simp [ReadReceivedChunks, Dir.write]

theorem storeChunk_inv {d : Dir} {md : Metadata} {idx : Int} (body : List Nat) (h : String)
    (hd : DirInv d) (hmd : d "metadata.json" = some (.descriptor md))
    (h0 : 0 ≤ idx) (h1 : idx < md.TotalChunks) : DirInv (storeChunk d idx body h) := by
  obtain ⟨md', hmd', -, hback, hsorted⟩ := hd
  rw [hmd] at hmd'
  cases hmd'
  refine ⟨md, by rw [storeChunk_metadata, hmd], Or.inl ⟨_, storeChunk_received_file d idx body h⟩,
    ?_, ?_⟩
  · intro i hi
    rcases (mem_storeChunk_readReceived d idx body h i).mp hi with rfl | hi
    · refine ⟨h0, h1, ?_, ?_⟩
      · rw [storeChunk_chunk]; rfl
      · rw [storeChunk_sidecar]; rfl
    · obtain ⟨a, b, c, e⟩ := hback i hi
      refine ⟨a, b, ?_, ?_⟩
      · exact storeChunk_isSome_mono d idx body h (chunkName_ne_append_part _ _) c
      · exact storeChunk_isSome_mono d idx body h (append_part_ne_xxhash _ _).symm e
  · rw [storeChunk_readReceived]
    split
    · exact hsorted
    · rename_i hx
      exact sortInts_snoc_sorted hsorted hx

theorem upload_inv (L : Lib) (s : Store) (u : String) (idx cl : Int) (body : List Nat)
    (hs : StoreInv s) : StoreInv (UploadHandler L s u idx cl body).2 := by
  rcases upload_cases L s u idx cl body with h | ⟨d, md, hd, hmd, h0, h1, -, -, -, he⟩
  · rw [h]; exact hs
  · rw [he]
    exact storeInv_set hs (storeChunk_inv body _ (hs u d hd) hmd h0 h1)

theorem remove_temp_inv {d : Dir} {md : Metadata} (hd : DirInv d)
    (hmd : d "metadata.json" = some (.descriptor md)) :
    DirInv (d.remove (md.Filename ++ ".part")) := by
  obtain ⟨md', hmd', htrack, hback, hsorted⟩ := hd
  rw [hmd] at hmd'
  cases hmd'
  have hother : ∀ n, n ≠ md.Filename ++ ".part" → (d.remove (md.Filename ++ ".part")) n = d n := by
    intro n hn
    simp [Dir.remove, hn]
  have hrecv : ReadReceivedChunks (d.remove (md.Filename ++ ".part")) = ReadReceivedChunks d :=
    readReceived_congr (hother _ (append_part_ne_received _).symm)
  refine ⟨md, by rw [hother _ (append_part_ne_metadata _).symm, hmd], ?_, ?_, ?_⟩
  · rcases htrack with ⟨arr, ha⟩ | hst
    · left
      exact ⟨arr, by rw [hother _ (append_part_ne_received _).symm, ha]⟩
    · right
      simp only [Dir.stat] at hst ⊢
      rw [hother _ (append_part_ne_self _).symm]
      exact hst
  · intro i hi
    rw [hrecv] at hi
    obtain ⟨a, b, c, e⟩ := hback i hi
    refine ⟨a, b, ?_, ?_⟩
    · rw [hother _ (chunkName_ne_append_part _ _)]; exact c
    · rw [hother _ (show sidecarName i.toNat ≠ _ from (append_part_ne_xxhash _ _).symm)]
      exact e
  · rw [hrecv]; exact hsorted

/-- In a directory that satisfies the invariant, where the file named by the
descriptor does not exist and no chunk is missing, that name is none of the
names the cleanup of `CompleteHandler` removes. -/
theorem filename_fresh {d : Dir} {md : Metadata} (hd : DirInv d)
    (hmd : d "metadata.json" = some (.descriptor md)) (hstat : d.stat md.Filename = false)
    (hmiss : missingChunks (ReadReceivedChunks d) md.TotalChunks = []) :
    md.Filename ≠ "received.json" ∧ md.Filename ≠ "metadata.json" ∧
    ∀ i : Nat, (i : Int) < md.TotalChunks →
      md.Filename ≠ chunkName i ∧ md.Filename ≠ sidecarName i := by
  obtain ⟨md', hmd', htrack, hback, -⟩ := hd
  rw [hmd] at hmd'
  cases hmd'
  refine ⟨?_, ?_, ?_⟩
  · rcases htrack with ⟨arr, ha⟩ | hst
    · exact ne_of_stat_false hstat (by rw [ha]; rfl)
    · rw [hstat] at hst; exact absurd hst (by simp)
  · exact ne_of_stat_false hstat (by rw [hmd]; rfl)
  · intro i hi
    have hmem := (missingChunks_eq_nil _ _).mp hmiss (i : Int) (by omega) hi
    obtain ⟨-, -, c, e⟩ := hback _ hmem
    simp only [Int.toNat_ofNat] at c e
    exact ⟨ne_of_stat_false hstat c, ne_of_stat_false hstat e⟩

theorem assembled_inv {d : Dir} {md : Metadata} (data : List Nat) (hd : DirInv d)
    (hmd : d "metadata.json" = some (.descriptor md)) (hstat : d.stat md.Filename = false)
    (hmiss : missingChunks (ReadReceivedChunks d) md.TotalChunks = []) :
    DirInv (assembledDir d md data) := by
  obtain ⟨hR, hM, hC⟩ := filename_fresh hd hmd hstat hmiss
  have hnil : ReadReceivedChunks (assembledDir d md data) = [] :=
    readReceived_nil_of_none (assembledDir_received d md data)
  refine ⟨md, ?_, Or.inr ?_, ?_, ?_⟩
  · rw [assembledDir_other d md data _ (by decide) hM.symm (append_part_ne_metadata _).symm, hmd]
    intro i _
    exact ⟨(chunkName_ne_metadata i).symm, (append_xxhash_ne_metadata _).symm⟩
  · exact stat_of_some (assembledDir_filename d md data hR hC)
  · intro i hi
    rw [hnil] at hi
    exact absurd hi (List.not_mem_nil _)
  · rw [hnil]
    exact List.sorted_nil

theorem complete_inv (L : Lib) (s : Store) (u : String) (hs : StoreInv s) :
    StoreInv (CompleteHandler L s u).2 := by
  rcases hd : s u with _ | d
  · simp only [CompleteHandler, hd]; exact hs
  rcases hm : d "metadata.json" with _ | f
  · simp only [CompleteHandler, hd, hm]; exact hs
  cases f with
  | descriptor md =>
    rw [complete_eq L s u hd hm]
    have hdi := hs u d hd
    by_cases h1 : d.stat md.Filename = true
    · rw [if_pos h1]; exact hs
    rw [if_neg h1]
    by_cases h2 : missingChunks (ReadReceivedChunks d) md.TotalChunks = []
    · rw [if_neg (not_not.mpr h2)]
      cases readAll L d (List.range md.TotalChunks.toNat) with
      | error i => exact storeInv_set hs (remove_temp_inv hdi hm)
      | ok data =>
        simp only []
        split
        · exact storeInv_set hs (remove_temp_inv hdi hm)
        · exact storeInv_set hs (assembled_inv data hdi hm (by simpa using h1) h2)
    · rw [if_pos h2]; exact hs
  | indexList arr => simp only [CompleteHandler, hd, hm]; exact hs
  | raw b => simp only [CompleteHandler, hd, hm]; exact hs

theorem cleanup_inv (s : Store) (u : String) (hs : StoreInv s) :
    StoreInv (CleanupHandler s u).2 := by
  unfold CleanupHandler
  split
  · exact hs
  · simp only []
    split
    · exact hs
    · exact storeInv_set_none hs

theorem step_inv (L : Lib) (s : Store) (op : Op) (hs : StoreInv s) : StoreInv (step L s op) := by
  cases op with
  | init md fresh => exact init_inv s md fresh hs
  | upload u idx cl body => exact upload_inv L s u idx cl body hs
  | complete u => exact complete_inv L s u hs
  | cleanup u => exact cleanup_inv s u hs

theorem run_inv (L : Lib) (ops : List Op) : ∀ s : Store, StoreInv s → StoreInv (run L s ops) := by
  induction ops with
  | nil => intro s hs; exact hs
  | cons op rest ih =>
    intro s hs
    exact ih _ (step_inv L s op hs)

theorem reachable_inv {L : Lib} {s : Store} (h : Reachable L s) : StoreInv s := by
  obtain ⟨ops, rfl⟩ := h
  exact run_inv L ops _ storeInv_empty

theorem reachable_step {L : Lib} {s : Store} (h : Reachable L s) (op : Op) :
    Reachable L (step L s op) := by
  obtain ⟨ops, rfl⟩ := h
  exact ⟨ops ++ [op], by simp [run, List.foldl_append]⟩



/-! ## Idempotent re-ingestion in the session model -/

theorem upload_received {L : Lib} {s : Store} {u : String} {idx cl : Int} {body : List Nat}
    {n : Nat} {h : String} (hacc : (UploadHandler L s u idx cl body).1 = .received n h) :
    ∃ d md, s u = some d ∧ d "metadata.json" = some (.descriptor md) ∧
      0 ≤ idx ∧ idx < md.TotalChunks ∧ d.stat md.Filename = false ∧ body ≠ [] ∧
      cl ≤ MaxUploadSize ∧ existingChunk L d idx (hashHex L body) = none ∧
      ¬ (expectedHash md idx ≠ "" ∧ expectedHash md idx ≠ hashHex L body) ∧
      n = body.length ∧ h = hashHex L body ∧
      (UploadHandler L s u idx cl body).2 =
        s.set u (some (storeChunk d idx body (hashHex L body))) := by
  rcases hd : s u with _ | d
  · simp [UploadHandler, hd] at hacc
  rcases hm : d "metadata.json" with _ | f
  · simp only [UploadHandler, hd, hm] at hacc
    split at hacc <;> simp at hacc
  cases f with
  | descriptor md =>
    rw [upload_eq L s u idx cl body hd hm] at hacc ⊢
    by_cases h1 : cl > MaxUploadSize
    · simp [h1] at hacc
    by_cases h2 : idx < 0 ∨ idx ≥ md.TotalChunks
    · simp [h1, h2] at hacc
    by_cases h3 : d.stat md.Filename = true
    · simp [h1, h2, h3] at hacc
    by_cases h4 : body = []
    · simp [h1, h2, h3, h4] at hacc
    rw [if_neg h1, if_neg h2, if_neg h3, if_neg h4] at hacc ⊢
    cases hex : existingChunk L d idx (hashHex L body) with
    | some e => simp [hex] at hacc
    | none =>
      simp only [hex] at hacc ⊢
      by_cases h5 : expectedHash md idx ≠ "" ∧ expectedHash md idx ≠ hashHex L body
      · rw [if_pos h5] at hacc; simp at hacc
      · rw [if_neg h5] at hacc ⊢
        simp only [UploadResponse.received.injEq] at hacc
        exact ⟨d, md, rfl, hm, by omega, by omega, by simpa using h3, h4, by omega, hex, h5,
          hacc.1.symm, hacc.2.symm, rfl⟩
  | indexList arr =>
    simp only [UploadHandler, hd, hm] at hacc
    split at hacc <;> simp at hacc
  | raw b =>
    simp only [UploadHandler, hd, hm] at hacc
    split at hacc <;> simp at hacc

theorem hashHex_length (L : Lib) (body : List Nat) : (hashHex L body).length = 16 := by
  simp [hashHex, hexEncode, sumBytes, String.length, List.range_succ]

theorem hashHex_ne_empty (L : Lib) (body : List Nat) : hashHex L body ≠ "" := by
  intro e
  have h := hashHex_length L body
  rw [e] at h
  exact absurd h (by decide)

theorem existingChunk_of_stored (L : Lib) {d : Dir} {idx : Int} {h : String} {b : List Nat}
    (hc : d (chunkName idx.toNat) = some (.raw b))
    (hs : d (sidecarName idx.toNat) = some (.raw (strBytes h))) :
    existingChunk L d idx h = some b := by
  unfold sidecarName at hs
  simp [existingChunk, hc, hs, FileData.bytes]

/-- C2, as stated, fails twice. A descriptor with `total_chunks = 1` and
`chunk_hashes = [""]` has one declared hash per chunk, the hash computed for
the payload "A" differs from the declared one, and the ingest is accepted and
stores the chunk. And when the chunk "A" is stored and the upload id is then
created again with the declared hash "abc", the ingest of "A" answers
`already_received` although the computed hash differs from the declared one. -/
theorem C2_counterexample :
    ((sessionEmptyHash.ChunkHashes.length : Int) = sessionEmptyHash.TotalChunks ∧
     (∀ L : Lib, hashHex L [65] ≠ sessionEmptyHash.ChunkHashes.getD 0 "") ∧
     (∀ L : Lib, (UploadHandler L (InitHandler Store.empty sessionEmptyHash "").2
        "u1" 0 1 [65]).1 = .received 1 (hashHex L [65])) ∧
     (∀ L : Lib, ((UploadHandler L (InitHandler Store.empty sessionEmptyHash "").2
        "u1" 0 1 [65]).2 "u1").bind (fun d => d (chunkName 0)) = some (.raw [65]))) ∧
    ((sessionShortHash.ChunkHashes.length : Int) = sessionShortHash.TotalChunks ∧
     (∀ L : Lib, hashHex L [65] ≠ sessionShortHash.ChunkHashes.getD 0 "") ∧
     (∀ L : Lib, (UploadHandler L
        (run L Store.empty
          [.init sessionUndeclared "", .upload "u1" 0 1 [65], .init sessionShortHash ""])
        "u1" 0 1 [65]).1 = .alreadyReceived 1 (hashHex L [65]))) := by
  refine ⟨⟨by decide, fun L => hashHex_ne_empty L _, fun L => rfl, fun L => rfl⟩,
    by decide, fun L e => ?_, fun L => ?_⟩
  · have h := hashHex_length L [65]
    rw [e] at h
    exact absurd h (by decide)
  · rw [@upload_eq L _ "u1" 0 1 [65] _ sessionShortHash rfl rfl]
    rw [if_neg (by decide), if_neg (by decide), if_neg (fun h => Bool.noConfusion h),
      if_neg (by decide)]
    rw [@existingChunk_of_stored L _ 0 (hashHex L [65]) [65] rfl rfl]
    rfl

/-- C2, amended: for a session whose descriptor carries one hash per chunk and
a non-empty hash for index `idx`, an ingest at `idx` that passes the earlier
checks (content length within the ceiling, index in range, file named by the
descriptor absent, payload non-empty) and finds no chunk already stored at
`idx` under the computed hash, and whose computed hash differs from the
declared one, is rejected with the hash mismatch carrying the declared and the
computed hash, and the storage is unchanged. -/
theorem C2_hash_mismatch (L : Lib) (s : Store) (u : String) (idx cl : Int) (body : List Nat)
    (d : Dir) (md : Metadata) (hd : s u = some d)
    (hmd : d "metadata.json" = some (.descriptor md))
    (hcl : cl ≤ MaxUploadSize) (h0 : 0 ≤ idx) (h1 : idx < md.TotalChunks)
    (hstat : d.stat md.Filename = false)
    (hlen : (md.ChunkHashes.length : Int) = md.TotalChunks)
    (hne : md.ChunkHashes.getD idx.toNat "" ≠ "") (hbody : body ≠ [])
    (hdiff : hashHex L body ≠ md.ChunkHashes.getD idx.toNat "")
    (hnew : existingChunk L d idx (hashHex L body) = none) :
    UploadHandler L s u idx cl body =
      (.hashMismatch (md.ChunkHashes.getD idx.toNat "") (hashHex L body), s) := by
  have hexp : expectedHash md idx = md.ChunkHashes.getD idx.toNat "" := by
    simp [expectedHash, hlen]
  rw [upload_eq L s u idx cl body hd hmd]
  rw [if_neg (by omega), if_neg (by omega), if_neg (by simp [hstat]), if_neg hbody]
  simp only [hnew, hexp]
  rw [if_pos ⟨hne, fun e => hdiff e.symm⟩]

/-- The hypotheses of `C2_hash_mismatch` hold for a fresh session that declares
a hash for its only chunk. -/
theorem C2_witness :
    UploadHandler sampleLib (InitHandler Store.empty sessionDeclared "").2 "u1" 0 1 [65] =
      (.hashMismatch (sessionDeclared.ChunkHashes.getD (0 : Int).toNat "")
        (hashHex sampleLib [65]), (InitHandler Store.empty sessionDeclared "").2) :=
  C2_hash_mismatch sampleLib (InitHandler Store.empty sessionDeclared "").2 "u1" 0 1 [65]
    ((Dir.empty.write "metadata.json" (.descriptor sessionDeclared)).write "received.json"
      (.indexList []))
    sessionDeclared rfl rfl (by decide) (by decide) (by decide) (by decide) (by decide)
    (by decide) (by decide) (by decide) (by decide)



/-! ## Assembly and its completeness check in the session model -/

theorem readAll_of_raw (L : Lib) (d : Dir) (b : Nat → List Nat) : ∀ l : List Nat,
    (∀ i ∈ l, d (chunkName i) = some (.raw (b i))) → readAll L d l = .ok (l.flatMap b) := by
  intro l
  induction l with
  | nil => intro _; rfl
  | cons i rest ih =>
    intro h
    have hi := h i (List.mem_cons_self _ _)
    have hrest := ih (fun j hj => h j (List.mem_cons_of_mem _ hj))
    simp [readAll, hi, hrest, FileData.bytes]

/-- Session model: in every reachable storage state, for a session with descriptor `md`
whose received list holds exactly the indices of `[0, total_chunks)`, whose
chunk artifacts hold the bytes `b 0, b 1, ...`, whose file named by the
descriptor does not exist and whose declared `file_hash` is empty or the hash
of the concatenation, `CompleteHandler` answers `assembled` with the hash of
`b 0 ++ b 1 ++ ... ++ b (total_chunks - 1)`, and afterwards the file named by
the descriptor holds exactly that concatenation in ascending index order. -/
theorem session_assembles_in_order (L : Lib) (s : Store) (u : String) (d : Dir) (md : Metadata)
    (b : Nat → List Nat) (hr : Reachable L s) (hd : s u = some d)
    (hmd : d "metadata.json" = some (.descriptor md))
    (hrecv : ∀ i : Int, i ∈ ReadReceivedChunks d ↔ 0 ≤ i ∧ i < md.TotalChunks)
    (hchunks : ∀ i : Nat, (i : Int) < md.TotalChunks → d (chunkName i) = some (.raw (b i)))
    (hstat : d.stat md.Filename = false)
    (hhash : md.FileHash = "" ∨
      md.FileHash = hashHex L ((List.range md.TotalChunks.toNat).flatMap b)) :
    (CompleteHandler L s u).1 =
      .assembled ("storage/" ++ u ++ "/" ++ md.Filename)
        (hashHex L ((List.range md.TotalChunks.toNat).flatMap b))
        ("/static/" ++ u ++ "/" ++ md.Filename) ∧
    ((CompleteHandler L s u).2 u).bind (fun d' => d' md.Filename) =
      some (.raw ((List.range md.TotalChunks.toNat).flatMap b)) := by
  have hmiss : missingChunks (ReadReceivedChunks d) md.TotalChunks = [] :=
    (missingChunks_eq_nil _ _).mpr (fun i h0 h1 => (hrecv i).mpr ⟨h0, h1⟩)
  have hread : readAll L d (List.range md.TotalChunks.toNat) =
      .ok ((List.range md.TotalChunks.toNat).flatMap b) := by
    apply readAll_of_raw
    intro i hi
    rw [List.mem_range] at hi
    exact hchunks i (by omega)
  obtain ⟨hR, -, hC⟩ := filename_fresh (reachable_inv hr u d hd) hmd hstat hmiss
  have hcond : ¬ (md.FileHash ≠ "" ∧
      md.FileHash ≠ hashHex L ((List.range md.TotalChunks.toNat).flatMap b)) := by
    rintro ⟨h1, h2⟩
    rcases hhash with h | h
    · exact h1 h
    · exact h2 h
  rw [complete_eq L s u hd hmd, if_neg (by simp [hstat]), if_neg (not_not.mpr hmiss), hread]
  simp only []
  rw [if_neg hcond]
  refine ⟨rfl, ?_⟩
  simp [Store.set, assembledDir_filename d md _ hR hC]

/-- Session model: in every reachable storage state, for a session whose descriptor
exists, whose file named by the descriptor does not exist and whose received
set is a proper subset of `[0, total_chunks)`, `CompleteHandler` answers
`incomplete`; the reported missing list is strictly ascending and holds exactly
the indices of `[0, total_chunks)` absent from the received set, the reported
received count is the size of the received set, the reported total is
`total_chunks`, and the storage is unchanged. -/
theorem session_incomplete (L : Lib) (s : Store) (u : String) (d : Dir) (md : Metadata)
    (hr : Reachable L s) (hd : s u = some d)
    (hmd : d "metadata.json" = some (.descriptor md))
    (hstat : d.stat md.Filename = false)
    (hsub : (ReadReceivedChunks d).toFinset ⊂ Finset.Ico 0 md.TotalChunks) :
    ∃ missing : List Int,
      CompleteHandler L s u =
        (.incomplete missing (ReadReceivedChunks d).toFinset.card md.TotalChunks, s) ∧
      missing.Sorted (· < ·) ∧
      ∀ i : Int, i ∈ missing ↔
        i ∈ Finset.Ico 0 md.TotalChunks ∧ i ∉ (ReadReceivedChunks d).toFinset := by
  obtain ⟨-, -, -, -, hsorted⟩ := reachable_inv hr u d hd
  have hcard : (ReadReceivedChunks d).toFinset.card = (ReadReceivedChunks d).length :=
    List.toFinset_card_of_nodup hsorted.nodup
  have hmiss : missingChunks (ReadReceivedChunks d) md.TotalChunks ≠ [] := by
    obtain ⟨i, hi, hn⟩ := Finset.exists_of_ssubset hsub
    rw [Finset.mem_Ico] at hi
    rw [List.mem_toFinset] at hn
    exact List.ne_nil_of_mem ((mem_missingChunks _ _ i).mpr ⟨hi, hn⟩)
  refine ⟨missingChunks (ReadReceivedChunks d) md.TotalChunks, ?_, missingChunks_sorted _ _, ?_⟩
  · rw [complete_eq L s u hd hmd, if_neg (by simp [hstat]), if_pos hmiss, hcard]
  · intro i
    rw [mem_missingChunks, Finset.mem_Ico, List.mem_toFinset]

/-! ## C5: the two outcomes of an assembly -/

theorem complete_assembled {L : Lib} {s : Store} {u fp fh url : String}
    (hok : (CompleteHandler L s u).1 = .assembled fp fh url) :
    ∃ d md data, s u = some d ∧ d "metadata.json" = some (.descriptor md) ∧
      d.stat md.Filename = false ∧
      missingChunks (ReadReceivedChunks d) md.TotalChunks = [] ∧
      readAll L d (List.range md.TotalChunks.toNat) = .ok data ∧
      ¬ (md.FileHash ≠ "" ∧ md.FileHash ≠ hashHex L data) ∧ fh = hashHex L data ∧
      (CompleteHandler L s u).2 = s.set u (some (assembledDir d md data)) := by
  rcases hd : s u with _ | d
  · simp [CompleteHandler, hd] at hok
  rcases hm : d "metadata.json" with _ | f
  · simp [CompleteHandler, hd, hm] at hok
  cases f with
  | descriptor md =>
    rw [complete_eq L s u hd hm] at hok ⊢
    by_cases h1 : d.stat md.Filename = true
    · rw [if_pos h1] at hok; simp at hok
    rw [if_neg h1] at hok ⊢
    by_cases h2 : missingChunks (ReadReceivedChunks d) md.TotalChunks = []
    · rw [if_neg (not_not.mpr h2)] at hok ⊢
      cases hread : readAll L d (List.range md.TotalChunks.toNat) with
      | error i => rw [hread] at hok; simp at hok
      | ok data =>
        rw [hread] at hok
        simp only [] at hok ⊢
        by_cases h3 : md.FileHash ≠ "" ∧ md.FileHash ≠ hashHex L data
        · rw [if_pos h3] at hok; simp at hok
        · rw [if_neg h3] at hok ⊢
          simp only [CompleteResponse.assembled.injEq] at hok
          exact ⟨d, md, data, rfl, hm, by simpa using h1, h2, hread, h3, hok.2.1.symm, rfl⟩
    · rw [if_pos h2] at hok; simp at hok
  | indexList arr => simp [CompleteHandler, hd, hm] at hok
  | raw b => simp [CompleteHandler, hd, hm] at hok

/-- What a successful `CompleteHandler` leaves behind in a reachable state. -/
theorem complete_postcondition (L : Lib) (s : Store) (u fp fh url : String)
    (hr : Reachable L s) (hok : (CompleteHandler L s u).1 = .assembled fp fh url) :
    ∃ d' md data, (CompleteHandler L s u).2 u = some d' ∧
      d' "metadata.json" = some (.descriptor md) ∧
      d' "received.json" = none ∧
      (∀ i : Nat, (i : Int) < md.TotalChunks →
        d' (chunkName i) = none ∧ d' (sidecarName i) = none) ∧
      d' md.Filename = some (.raw data) ∧ fh = hashHex L data ∧
      (md.FileHash ≠ "" → hashHex L data = md.FileHash) := by
  obtain ⟨d, md, data, hd, hmd, hstat, hmiss, -, hcond, hfh, hstore⟩ := complete_assembled hok
  obtain ⟨hR, hM, hC⟩ := filename_fresh (reachable_inv hr u d hd) hmd hstat hmiss
  refine ⟨assembledDir d md data, md, data, by rw [hstore]; simp [Store.set], ?_,
    assembledDir_received d md data, fun i hi => assembledDir_removed d md data i hi,
    assembledDir_filename d md data hR hC, hfh, ?_⟩
  · rw [assembledDir_other d md data _ (by decide) hM.symm (append_part_ne_metadata _).symm, hmd]
    intro i _
    exact ⟨(chunkName_ne_metadata i).symm, (append_xxhash_ne_metadata _).symm⟩
  · intro hne
    by_contra hx
    exact hcond ⟨hne, fun e => hx e.symm⟩

/-- Session model: for a session whose file named by the descriptor does not
exist, with all chunks received, whose chunk artifacts hold the bytes `b 0, b
1, ...` and whose descriptor declares a non-empty `file_hash` different from
the hash of their concatenation in index order, `CompleteHandler` answers with
the overall hash mismatch carrying the declared and the computed hash;
afterwards the temporary output does not exist, the file named by the
descriptor does not exist, and every other file of the session (chunk
artifacts, side-cars, received list, descriptor) is as it was. -/
theorem session_integrity_failure (L : Lib) (s : Store) (u : String) (d : Dir) (md : Metadata)
    (b : Nat → List Nat) (hd : s u = some d)
    (hmd : d "metadata.json" = some (.descriptor md))
    (hstat : d.stat md.Filename = false)
    (hrecv : ∀ i : Int, 0 ≤ i → i < md.TotalChunks → i ∈ ReadReceivedChunks d)
    (hchunks : ∀ i : Nat, (i : Int) < md.TotalChunks → d (chunkName i) = some (.raw (b i)))
    (hne : md.FileHash ≠ "")
    (hdiff : md.FileHash ≠ hashHex L ((List.range md.TotalChunks.toNat).flatMap b)) :
    ∃ d', CompleteHandler L s u =
        (.overallHashMismatch md.FileHash
          (hashHex L ((List.range md.TotalChunks.toNat).flatMap b)), s.set u (some d')) ∧
      d' (md.Filename ++ ".part") = none ∧ d'.stat md.Filename = false ∧
      (∀ n : String, n ≠ md.Filename ++ ".part" → d' n = d n) ∧
      (∀ i : Nat, d' (chunkName i) = d (chunkName i) ∧ d' (sidecarName i) = d (sidecarName i)) ∧
      ReadReceivedChunks d' = ReadReceivedChunks d ∧
      d' "received.json" = d "received.json" := by
  have hmiss : missingChunks (ReadReceivedChunks d) md.TotalChunks = [] :=
    (missingChunks_eq_nil _ _).mpr hrecv
  have hread : readAll L d (List.range md.TotalChunks.toNat) =
      .ok ((List.range md.TotalChunks.toNat).flatMap b) := by
    apply readAll_of_raw
    intro i hi
    rw [List.mem_range] at hi
    exact hchunks i (by omega)
  have hother : ∀ n : String, n ≠ md.Filename ++ ".part" →
      (d.remove (md.Filename ++ ".part")) n = d n := by
    intro n hn
    simp [Dir.remove, hn]
  refine ⟨d.remove (md.Filename ++ ".part"), ?_, by simp [Dir.remove], ?_, hother, ?_,
    readReceived_congr (hother _ (append_part_ne_received _).symm),
    hother _ (append_part_ne_received _).symm⟩
  · rw [complete_eq L s u hd hmd, if_neg (by simp [hstat]), if_neg (not_not.mpr hmiss), hread]
    simp only []
    rw [if_pos ⟨hne, hdiff⟩]
  · have hF := stat_false hstat
    simp [Dir.stat, hF.1, hother _ (append_part_ne_self md.Filename).symm, hF.2]
  · intro i
    exact ⟨hother _ (chunkName_ne_append_part _ _),
      hother _ (show sidecarName i ≠ _ from (append_part_ne_xxhash _ _).symm)⟩

/-! ## C7: the received set after a sequence of appends -/

/-- Session model: in every storage state that create, ingest, complete and cleanup
requests produce from the empty root, every index of the persisted received
list of a session is non-negative and has a chunk artifact (and its side-car)
in the session directory. -/
theorem session_received_backed (L : Lib) (s : Store) (u : String) (d : Dir) (i : Int)
    (hr : Reachable L s) (hd : s u = some d) (hi : i ∈ ReadReceivedChunks d) :
    0 ≤ i ∧ (d (chunkName i.toNat)).isSome = true ∧ (d (sidecarName i.toNat)).isSome = true := by
  obtain ⟨md, -, -, hback, -⟩ := reachable_inv hr u d hd
  obtain ⟨h0, -, hc, hs⟩ := hback i hi
  exact ⟨h0, hc, hs⟩

/-! ## Cleanup in the session model -/

theorem cleanup_eq (s : Store) (u : String) {d : Dir} {md : Metadata} (hd : s u = some d)
    (hmd : d "metadata.json" = some (.descriptor md)) :
    CleanupHandler s u =
      if d.stat md.Filename = true then (.forbidden, s) else (.deleted u, s.set u none) := by
  simp only [CleanupHandler, hd, hmd]

/-- Session model: in every reachable storage state, a cleanup called after
`CompleteHandler` answered `assembled` is rejected as forbidden and leaves the
storage as it was, with the descriptor and the assembled file still present;
for an existing session whose file named by the descriptor does not exist,
cleanup deletes the whole session directory (descriptor, received list, every
chunk artifact and side-car); for an upload id without a directory it answers
not found. -/
theorem session_cleanup (L : Lib) (s : Store) (u : String) (hr : Reachable L s) :
    (∀ fp fh url : String, (CompleteHandler L s u).1 = .assembled fp fh url →
      CleanupHandler (CompleteHandler L s u).2 u = (.forbidden, (CompleteHandler L s u).2) ∧
      ∃ d' md data, (CompleteHandler L s u).2 u = some d' ∧
        d' "metadata.json" = some (.descriptor md) ∧ d' md.Filename = some (.raw data)) ∧
    (∀ (d : Dir) (md : Metadata), s u = some d →
      d "metadata.json" = some (.descriptor md) → d.stat md.Filename = false →
      CleanupHandler s u = (.deleted u, s.set u none) ∧ (CleanupHandler s u).2 u = none) ∧
    (s u = none → CleanupHandler s u = (.sessionNotFound, s)) := by
  refine ⟨?_, ?_, ?_⟩
  · intro fp fh url hok
    obtain ⟨d', md, data, hd', hmd', -, -, hfile, -, -⟩ :=
      complete_postcondition L s u fp fh url hr hok
    refine ⟨?_, d', md, data, hd', hmd', hfile⟩
    rw [cleanup_eq _ u hd' hmd', if_pos (stat_of_some hfile)]
  · intro d md hd hmd hstat
    have h := cleanup_eq s u hd hmd
    rw [if_neg (by simp [hstat])] at h
    rw [h]
    exact ⟨rfl, by simp [Store.set]⟩
  · intro hd
    simp [CleanupHandler, hd]

/-! ## Rejections of an ingest in the session model -/

/-- Session model: in every reachable storage state, an ingest for an upload id without
a directory answers session-not-found; for an existing session (which has a
descriptor), when the index is outside `[0, total_chunks)`, or the file named
by the descriptor exists, or the declared content length exceeds
`MaxUploadSize` (2^30), or the payload is empty, the ingest answers with the
typed rejection of one of the conditions that hold; in all these cases the
storage is unchanged. After `CompleteHandler` answered `assembled`, every
ingest for that session is rejected and leaves the storage unchanged. -/
theorem session_rejections (L : Lib) (s : Store) (u : String) (idx cl : Int) (body : List Nat)
    (hr : Reachable L s) :
    MaxUploadSize = 2 ^ 30 ∧
    (s u = none → UploadHandler L s u idx cl body = (.sessionNotFound, s)) ∧
    (∀ d : Dir, s u = some d → ∃ md, d "metadata.json" = some (.descriptor md) ∧
      ((idx < 0 ∨ md.TotalChunks ≤ idx) ∨ d.stat md.Filename = true ∨ cl > MaxUploadSize ∨
          body = [] →
        (UploadHandler L s u idx cl body).2 = s ∧
        (((UploadHandler L s u idx cl body).1 = .payloadTooLarge ∧ cl > MaxUploadSize) ∨
         ((UploadHandler L s u idx cl body).1 = .indexOutOfRange ∧
            (idx < 0 ∨ md.TotalChunks ≤ idx)) ∨
         ((UploadHandler L s u idx cl body).1 = .alreadyCompleted ∧
            d.stat md.Filename = true) ∨
         ((UploadHandler L s u idx cl body).1 = .emptyBody ∧ body = [])))) ∧
    (∀ fp fh url : String, (CompleteHandler L s u).1 = .assembled fp fh url →
      (UploadHandler L (CompleteHandler L s u).2 u idx cl body).2 = (CompleteHandler L s u).2 ∧
      ((UploadHandler L (CompleteHandler L s u).2 u idx cl body).1 = .payloadTooLarge ∨
       (UploadHandler L (CompleteHandler L s u).2 u idx cl body).1 = .indexOutOfRange ∨
       (UploadHandler L (CompleteHandler L s u).2 u idx cl body).1 = .alreadyCompleted)) := by
  refine ⟨rfl, ?_, ?_, ?_⟩
  · intro hd
    simp [UploadHandler, hd]
  · intro d hd
    obtain ⟨md, hmd, -, -, -⟩ := reachable_inv hr u d hd
    refine ⟨md, hmd, ?_⟩
    intro hcond
    rw [upload_eq L s u idx cl body hd hmd]
    by_cases h1 : cl > MaxUploadSize
    · rw [if_pos h1]; exact ⟨rfl, Or.inl ⟨rfl, h1⟩⟩
    rw [if_neg h1]
    by_cases h2 : idx < 0 ∨ idx ≥ md.TotalChunks
    · rw [if_pos h2]; exact ⟨rfl, Or.inr (Or.inl ⟨rfl, h2⟩)⟩
    rw [if_neg h2]
    by_cases h3 : d.stat md.Filename = true
    · rw [if_pos h3]; exact ⟨rfl, Or.inr (Or.inr (Or.inl ⟨rfl, h3⟩))⟩
    rw [if_neg h3]
    by_cases h4 : body = []
    · rw [if_pos h4]; exact ⟨rfl, Or.inr (Or.inr (Or.inr ⟨rfl, h4⟩))⟩
    · exfalso
      rcases hcond with h | h | h | h
      · exact h2 h
      · exact h3 h
      · exact h1 h
      · exact h4 h
  · intro fp fh url hok
    obtain ⟨d', md, data, hd', hmd', -, -, hfile, -, -⟩ :=
      complete_postcondition L s u fp fh url hr hok
    rw [upload_eq L _ u idx cl body hd' hmd']
    by_cases h1 : cl > MaxUploadSize
    · rw [if_pos h1]; exact ⟨rfl, Or.inl rfl⟩
    rw [if_neg h1]
    by_cases h2 : idx < 0 ∨ idx ≥ md.TotalChunks
    · rw [if_pos h2]; exact ⟨rfl, Or.inr (Or.inl rfl)⟩
    rw [if_neg h2, if_pos (stat_of_some hfile)]
    exact ⟨rfl, Or.inr (Or.inr rfl)⟩

/-! ## Shape of the received list in the session model -/

/-- Session model: in every storage state that create, ingest, complete and cleanup
requests produce from the empty root, the persisted received list of a session
is strictly ascending (sorted, without duplicates), also as the content of
`received.json` when that file exists, and each of its elements lies in
`[0, total_chunks)` of the descriptor the session has in that state. -/
theorem session_received_sorted (L : Lib) (s : Store) (u : String) (d : Dir)
    (md : Metadata) (hr : Reachable L s) (hd : s u = some d)
    (hmd : d "metadata.json" = some (.descriptor md)) :
    (ReadReceivedChunks d).Sorted (· < ·) ∧
    (∀ i ∈ ReadReceivedChunks d, 0 ≤ i ∧ i < md.TotalChunks) ∧
    (∀ arr : List Int, d "received.json" = some (.indexList arr) →
      arr.Sorted (· < ·) ∧ ∀ i ∈ arr, 0 ≤ i ∧ i < md.TotalChunks) := by
  obtain ⟨md', hmd', -, hback, hsorted⟩ := reachable_inv hr u d hd
  rw [hmd] at hmd'
  cases hmd'
  have hrange : ∀ i ∈ ReadReceivedChunks d, 0 ≤ i ∧ i < md.TotalChunks :=
    fun i hi => ⟨(hback i hi).1, (hback i hi).2.1⟩
  refine ⟨hsorted, hrange, ?_⟩
  intro arr harr
  rw [← readReceived_of_indexList harr]
  exact ⟨hsorted, hrange⟩

/-! ## C11: creating an upload id again -/

/-- What `CompleteHandler` does to the storage: nothing, or it removes the
temporary output, or it leaves the assembled directory. -/
theorem complete_cases (L : Lib) (s : Store) (u : String) :
    (CompleteHandler L s u).2 = s ∨
    ∃ d md, s u = some d ∧ d "metadata.json" = some (.descriptor md) ∧
      d.stat md.Filename = false ∧
      ((CompleteHandler L s u).2 = s.set u (some (d.remove (md.Filename ++ ".part"))) ∨
       ∃ data, (CompleteHandler L s u).2 = s.set u (some (assembledDir d md data))) := by
  rcases hd : s u with _ | d
  · left; simp only [CompleteHandler, hd]
  rcases hm : d "metadata.json" with _ | f
  · left; simp only [CompleteHandler, hd, hm]
  cases f with
  | descriptor md =>
    rw [complete_eq L s u hd hm]
    by_cases h1 : d.stat md.Filename = true
    · rw [if_pos h1]; left; rfl
    rw [if_neg h1]
    have h1' : d.stat md.Filename = false := by simpa using h1
    by_cases h2 : missingChunks (ReadReceivedChunks d) md.TotalChunks = []
    · rw [if_neg (not_not.mpr h2)]
      right
      refine ⟨d, md, rfl, hm, h1', ?_⟩
      cases readAll L d (List.range md.TotalChunks.toNat) with
      | error i => left; rfl
      | ok data =>
        simp only []
        split
        · left; rfl
        · right; exact ⟨data, rfl⟩
    · rw [if_pos h2]; left; rfl
  | indexList arr => left; simp only [CompleteHandler, hd, hm]
  | raw b => left; simp only [CompleteHandler, hd, hm]

theorem assembledDir_metadata {d : Dir} {md : Metadata} (data : List Nat)
    (hmd : d "metadata.json" = some (.descriptor md)) (hstat : d.stat md.Filename = false) :
    assembledDir d md data "metadata.json" = d "metadata.json" := by
  have hM : md.Filename ≠ "metadata.json" := ne_of_stat_false hstat (by rw [hmd]; rfl)
  rw [assembledDir_other d md data _ (by decide) hM.symm (append_part_ne_metadata _).symm]
  intro i _
  exact ⟨(chunkName_ne_metadata i).symm, (append_xxhash_ne_metadata _).symm⟩

theorem cleanup_cases (s : Store) (u : String) :
    (CleanupHandler s u).2 = s ∨ (CleanupHandler s u).2 = s.set u none := by
  unfold CleanupHandler
  split
  · left; rfl
  · simp only []
    split
    · left; rfl
    · right; rfl

/-- The handlers other than `InitHandler` leave the descriptor file of a
session that exists before and after the request as it was. -/
theorem step_metadata (L : Lib) (s : Store) (op : Op) (u : String) (d d' : Dir)
    (hop : ∀ md fresh, op ≠ .init md fresh) (hd : s u = some d)
    (hd' : step L s op u = some d') : d' "metadata.json" = d "metadata.json" := by
  cases op with
  | init md fresh => exact absurd rfl (hop md fresh)
  | upload u0 idx cl body =>
    simp only [step] at hd'
    rcases upload_cases L s u0 idx cl body with h | ⟨d0, md, hd0, -, -, -, -, -, -, he⟩
    · rw [h, hd] at hd'; cases hd'; rfl
    · rw [he] at hd'
      simp only [Store.set] at hd'
      split at hd'
      · rename_i hu
        subst hu
        rw [hd] at hd0
        cases hd0
        cases hd'
        exact storeChunk_metadata _ _ _ _
      · rw [hd] at hd'; cases hd'; rfl
  | complete u0 =>
    simp only [step] at hd'
    rcases complete_cases L s u0 with h | ⟨d0, md, hd0, hmd, hstat, h | ⟨data, h⟩⟩
    · rw [h, hd] at hd'; cases hd'; rfl
    · rw [h] at hd'
      simp only [Store.set] at hd'
      split at hd'
      · rename_i hu
        subst hu
        rw [hd] at hd0
        cases hd0
        cases hd'
        simp [Dir.remove, (append_part_ne_metadata _).symm]
      · rw [hd] at hd'; cases hd'; rfl
    · rw [h] at hd'
      simp only [Store.set] at hd'
      split at hd'
      · rename_i hu
        subst hu
        rw [hd] at hd0
        cases hd0
        cases hd'
        exact assembledDir_metadata data hmd hstat
      · rw [hd] at hd'; cases hd'; rfl
  | cleanup u0 =>
    simp only [step] at hd'
    rcases cleanup_cases s u0 with h | h
    · rw [h, hd] at hd'; cases hd'; rfl
    · rw [h] at hd'
      simp only [Store.set] at hd'
      split at hd'
      · cases hd'
      · rw [hd] at hd'; cases hd'; rfl

/-- When the chunk file of an in-range index is stored with a side-car equal to
the hash of the request, the handler answers `already_received` and returns
before the received list is touched. -/
theorem upload_stored_unchanged (L : Lib) (s : Store) (u : String) (idx cl : Int)
    (body b : List Nat) (d : Dir) (md : Metadata) (hd : s u = some d)
    (hmd : d "metadata.json" = some (.descriptor md)) (hcl : cl ≤ MaxUploadSize)
    (h0 : 0 ≤ idx) (h1 : idx < md.TotalChunks) (hstat : d.stat md.Filename = false)
    (hbody : body ≠ []) (hc : d (chunkName idx.toNat) = some (.raw b))
    (hs : d (sidecarName idx.toNat) = some (.raw (strBytes (hashHex L body)))) :
    UploadHandler L s u idx cl body = (.alreadyReceived b.length (hashHex L body), s) := by
  rw [upload_eq L s u idx cl body hd hmd]
  rw [if_neg (by omega), if_neg (by omega), if_neg (by simp [hstat]), if_neg hbody]
  rw [existingChunk_of_stored L hc hs]

/-- C12 fails on the code: after the chunk "A" of a one-chunk session was
accepted and the session was created again, the chunk artifact and its side-car
are stored and index 0 is missing from the received list; the next ingest of
the same bytes answers `already_received` and leaves the storage as it was, so
index 0 is still missing and a complete request reports it. -/
theorem C12_no_self_heal :
    (∀ L : Lib, (storeRecreated L "u1").bind (fun d => d (chunkName 0)) = some (.raw [65])) ∧
    (∀ L : Lib, (storeRecreated L "u1").bind (fun d => d (sidecarName 0)) =
      some (.raw (strBytes (hashHex L [65])))) ∧
    (∀ L : Lib, (storeRecreated L "u1").map ReadReceivedChunks = some []) ∧
    (∀ L : Lib, UploadHandler L (storeRecreated L) "u1" 0 1 [65] =
      (.alreadyReceived 1 (hashHex L [65]), storeRecreated L)) ∧
    (∀ L : Lib, (CompleteHandler L (UploadHandler L (storeRecreated L) "u1" 0 1 [65]).2
      "u1").1 = .incomplete [0] 0 1) := by
  have hup : ∀ L : Lib, UploadHandler L (storeRecreated L) "u1" 0 1 [65] =
      (.alreadyReceived 1 (hashHex L [65]), storeRecreated L) := fun L =>
    @upload_stored_unchanged L (storeRecreated L) "u1" 0 1 [65] [65] _ sessionUndeclared
      rfl rfl (by decide) (by decide) (by decide) rfl (by decide) rfl rfl
  refine ⟨fun L => rfl, fun L => rfl, fun L => rfl, hup, fun L => ?_⟩
  rw [hup L]
  rfl

/-! ## A filename that already exists in a fresh session, in the session model -/

theorem init_eq (s : Store) (md : Metadata) (fresh : String) (hid : md.UploadID ≠ "") :
    ∃ d md', (InitHandler s md fresh).1 = .created md.UploadID md'.ShareID ∧
      (InitHandler s md fresh).2 md.UploadID = some d ∧
      md'.Filename = md.Filename ∧ md'.TotalChunks = md.TotalChunks ∧
      md'.ChunkHashes = md.ChunkHashes ∧
      d "metadata.json" = some (.descriptor md') ∧
      d "received.json" = some (.indexList []) ∧
      ∀ n : String, n ≠ "metadata.json" → n ≠ "received.json" →
        d n = ((s md.UploadID).getD Dir.empty) n := by
  have hu : (if md.ShareID = "" then { md with ShareID := fresh } else md).UploadID =
      md.UploadID := by split <;> rfl
  refine ⟨(((s md.UploadID).getD Dir.empty).write "metadata.json" (.descriptor
      (if md.ShareID = "" then { md with ShareID := fresh } else md))).write
      "received.json" (.indexList []),
    if md.ShareID = "" then { md with ShareID := fresh } else md, ?_, ?_, ?_, ?_, ?_, ?_, ?_, ?_⟩
  · simp only [InitHandler, if_neg hid, hu]
  · simp only [InitHandler, if_neg hid, hu, Store.set, if_true]
  · split <;> rfl
  · split <;> rfl
  · split <;> rfl
  · simp [Dir.write]
  · simp [Dir.write]
  · intro n h1 h2
    simp [Dir.write, h1, h2]

/-- Session model: for every descriptor with a non-empty upload id whose
filename is `metadata.json`, `received.json` or the empty string, create
succeeds, and in the session just created every ingest of an in-range index
whose declared content length is within the ceiling, and every complete
request, is rejected with the already-completed conflict and changes
nothing. -/
theorem session_filename_blocks (L : Lib) (s : Store) (md : Metadata) (fresh : String)
    (hid : md.UploadID ≠ "")
    (hname : md.Filename = "metadata.json" ∨ md.Filename = "received.json" ∨
      md.Filename = "") :
    (∃ share, (InitHandler s md fresh).1 = .created md.UploadID share) ∧
    (∀ (idx cl : Int) (body : List Nat), cl ≤ MaxUploadSize → 0 ≤ idx →
      idx < md.TotalChunks →
      UploadHandler L (InitHandler s md fresh).2 md.UploadID idx cl body =
        (.alreadyCompleted, (InitHandler s md fresh).2)) ∧
    CompleteHandler L (InitHandler s md fresh).2 md.UploadID =
      (.alreadyCompleted, (InitHandler s md fresh).2) := by
  obtain ⟨d, md', hresp, hd, hF, hT, -, hM, hR, -⟩ := init_eq s md fresh hid
  have hstat : d.stat md'.Filename = true := by
    rw [hF]
    rcases hname with h | h | h
    · rw [h]; exact stat_of_some hM
    · rw [h]; exact stat_of_some hR
    · rw [h]; rfl
  refine ⟨⟨_, hresp⟩, ?_, ?_⟩
  · intro idx cl body hcl h0 h1
    rw [upload_eq L _ md.UploadID idx cl body hd hM]
    rw [if_neg (by omega), if_neg (by rw [hT]; omega), if_pos hstat]
  · rw [complete_eq L _ md.UploadID hd hM, if_pos hstat]

/-! ## C19: declared hashes pin the stored chunks -/

theorem chunkReceivedArgs_spec {L : Lib} {s : Store} {u : String} {idx cl : Int}
    {body : List Nat} {share : String} {r t : Int}
    (h : chunkReceivedArgs L s u idx cl body = some (share, r, t)) :
    0 ≤ idx ∧ idx < t ∧ 0 ≤ r := by
  unfold chunkReceivedArgs at h
  split at h
  · cases h
  · rename_i d hd
    split at h
    · rename_i md hmd
      split at h
      · rename_i n hh s' he
        have hacc : (UploadHandler L s u idx cl body).1 = .received n hh := by rw [he]
        obtain ⟨d0, md0, hd0, hmd0, h0, h1, -⟩ := upload_received hacc
        rw [hd] at hd0
        cases hd0
        rw [hmd] at hmd0
        cases hmd0
        simp only [Option.some.injEq, Prod.mk.injEq] at h
        obtain ⟨-, hr, ht⟩ := h
        subst ht
        subst hr
        exact ⟨h0, h1, Int.ofNat_nonneg _⟩
      · cases h
    · cases h



/-! ## The loop of `GetRoomState` -/

theorem scanEntry_active (L : Lib) (dirSize : Int) (modTime : String → Int) (s : Store)
    (shareID : String) (acc : RoomScan) (u : String) :
    (scanEntry L dirSize modTime s shareID acc u).active =
      acc.active ++ (activeEntry modTime s shareID u).toList := by
  unfold scanEntry activeEntry
  rcases hs : s u with _ | d
  · simp
  rcases hm : d "metadata.json" with _ | f
  · simp [hm]
  cases f with
  | descriptor md =>
    simp only [hm]
    by_cases h1 : md.ShareID = shareID
    · by_cases h2 : d.stat md.Filename = true
      · simp [h1, h2]
      · have h2' : d.stat md.Filename = false := by simpa using h2
        simp [h1, h2']
    · simp [h1]
  | indexList arr => simp [hm]
  | raw b => simp [hm]

theorem scanEntry_completed (L : Lib) (dirSize : Int) (modTime : String → Int) (s : Store)
    (shareID : String) (acc : RoomScan) (u : String) :
    (scanEntry L dirSize modTime s shareID acc u).completed =
      acc.completed ++ (completedEntry L dirSize modTime s shareID u).toList := by
  unfold scanEntry completedEntry
  rcases hs : s u with _ | d
  · simp
  rcases hm : d "metadata.json" with _ | f
  · simp [hm]
  cases f with
  | descriptor md =>
    simp only [hm]
    by_cases h1 : md.ShareID = shareID
    · by_cases h2 : d.stat md.Filename = true
      · simp [h1, h2]
      · have h2' : d.stat md.Filename = false := by simpa using h2
        simp [h1, h2']
    · simp [h1]
  | indexList arr => simp [hm]
  | raw b => simp [hm]

theorem scan_active (L : Lib) (dirSize : Int) (modTime : String → Int) (s : Store)
    (shareID : String) (entries : List String) : ∀ acc : RoomScan,
    (entries.foldl (scanEntry L dirSize modTime s shareID) acc).active =
      acc.active ++ entries.filterMap (activeEntry modTime s shareID) := by
  induction entries with
  | nil => intro acc; simp
  | cons u rest ih =>
    intro acc
    rw [List.foldl_cons, ih, scanEntry_active, List.append_assoc]
    congr 1
    cases he : activeEntry modTime s shareID u <;> simp [List.filterMap_cons, he]

theorem scan_completed (L : Lib) (dirSize : Int) (modTime : String → Int) (s : Store)
    (shareID : String) (entries : List String) : ∀ acc : RoomScan,
    (entries.foldl (scanEntry L dirSize modTime s shareID) acc).completed =
      acc.completed ++ entries.filterMap (completedEntry L dirSize modTime s shareID) := by
  induction entries with
  | nil => intro acc; simp
  | cons u rest ih =>
    intro acc
    rw [List.foldl_cons, ih, scanEntry_completed, List.append_assoc]
    congr 1
    cases he : completedEntry L dirSize modTime s shareID u <;> simp [List.filterMap_cons, he]

theorem roomState_active (L : Lib) (dirSize : Int) (modTime : String → Int)
    (entries : List String) (s : Store) (rs : RoomService) (shareID : String) (now : Int) :
    (rs.GetRoomState L dirSize modTime entries s shareID now).ActiveUploads =
      entries.filterMap (activeEntry modTime s shareID) := by
  simp [RoomService.GetRoomState, scan_active]

theorem roomState_completed (L : Lib) (dirSize : Int) (modTime : String → Int)
    (entries : List String) (s : Store) (rs : RoomService) (shareID : String) (now : Int) :
    (rs.GetRoomState L dirSize modTime entries s shareID now).CompletedFiles =
      entries.filterMap (completedEntry L dirSize modTime s shareID) := by
  simp [RoomService.GetRoomState, scan_completed]

theorem activeEntry_some {modTime : String → Int} {s : Store} {shareID u : String}
    {info : UploadInfo} (h : activeEntry modTime s shareID u = some info) :
    ∃ d md, s u = some d ∧ d "metadata.json" = some (.descriptor md) ∧
      md.ShareID = shareID ∧ d.stat md.Filename = false ∧
      info = ⟨u, md.Filename, md.TotalChunks, (ReadReceivedChunks d).length,
        if md.TotalChunks > 0 then
          (((ReadReceivedChunks d).length : Int) * 100).tdiv md.TotalChunks
        else 0,
        modTime u⟩ := by
  unfold activeEntry at h
  split at h
  · cases h
  · rename_i d hd
    split at h
    · rename_i md hmd
      split at h
      · rename_i hc
        cases h
        exact ⟨d, md, hd, hmd, hc.1, hc.2, rfl⟩
      · cases h
    · cases h

theorem completedEntry_some {L : Lib} {dirSize : Int} {modTime : String → Int} {s : Store}
    {shareID u : String} {c : CompletedFile}
    (h : completedEntry L dirSize modTime s shareID u = some c) :
    ∃ d md, s u = some d ∧ d "metadata.json" = some (.descriptor md) ∧
      md.ShareID = shareID ∧ d.stat md.Filename = true ∧
      c = ⟨u, md.Filename, d.statSize L dirSize md.Filename, modTime u⟩ := by
  unfold completedEntry at h
  split at h
  · cases h
  · rename_i d hd
    split at h
    · rename_i md hmd
      split at h
      · rename_i hc
        cases h
        exact ⟨d, md, hd, hmd, hc.1, hc.2, rfl⟩
      · cases h
    · cases h

/-! ## C20: no division by zero -/

/-- C20: on every path through `UploadHandler`, for every descriptor and every
request, the call of `NotifyChunkReceived` is reached only with
`0 ≤ idx < total_chunks`, so its total is at least 1, its division
`(received * 100) / total` does not panic, and the notifications of the handler
never panic; the percent of the snapshot of `BroadcastProgress` is 0 when
`total_chunks = 0`, and the percent `GetRoomState` reports for an active upload
is 0 when `total_chunks` is not positive. -/
theorem C20_no_division_by_zero (marshalP : Progress → String) (marshalE : RoomEvent → String)
    (L : Lib) (s : Store) (sse : Hub) (room : RoomService) (u : String) (idx cl : Int)
    (body : List Nat) (now : Int) :
    (∀ (share : String) (r t : Int),
      chunkReceivedArgs L s u idx cl body = some (share, r, t) →
      0 ≤ idx ∧ idx < t ∧ 1 ≤ t ∧ goDiv (r * 100) t = some ((r * 100).tdiv t) ∧
      (room.NotifyChunkReceived marshalE share u r t now).isSome = true) ∧
    (UploadNotify marshalP marshalE L s sse room u idx cl body now).isSome = true ∧
    (∀ (s' : Store) (u' : String) (p : Progress), progressOf s' u' = some p →
      p.total_chunks = 0 → p.completed_percent = 0) ∧
    (∀ (dirSize : Int) (modTime : String → Int) (entries : List String) (shareID : String),
      ∀ info ∈ (room.GetRoomState L dirSize modTime entries s shareID now).ActiveUploads,
        info.TotalChunks ≤ 0 → info.CompletionPercent = 0) := by
  have hargs : ∀ (share : String) (r t : Int),
      chunkReceivedArgs L s u idx cl body = some (share, r, t) →
      0 ≤ idx ∧ idx < t ∧ 1 ≤ t ∧ goDiv (r * 100) t = some ((r * 100).tdiv t) ∧
      (room.NotifyChunkReceived marshalE share u r t now).isSome = true := by
    intro share r t h
    obtain ⟨h0, h1, -⟩ := chunkReceivedArgs_spec h
    have ht : t ≠ 0 := by omega
    have hdiv : goDiv (r * 100) t = some ((r * 100).tdiv t) := by simp [goDiv, ht]
    exact ⟨h0, h1, by omega, hdiv, by simp [RoomService.NotifyChunkReceived, hdiv]⟩
  refine ⟨hargs, ?_, ?_, ?_⟩
  · unfold UploadNotify
    cases hc : chunkReceivedArgs L s u idx cl body with
    | none => rfl
    | some a =>
      obtain ⟨share, r, t⟩ := a
      have h := (hargs share r t hc).2.2.2.2
      simp only [Option.isSome_map']
      exact h
  · intro s' u' p hp ht
    unfold progressOf at hp
    split at hp
    · cases hp
    · split at hp
      · cases hp
        simp only [] at ht
        simp [ht]
      · cases hp
  · intro dirSize modTime entries shareID info hinfo hT
    rw [roomState_active, List.mem_filterMap] at hinfo
    obtain ⟨u', -, hu'⟩ := hinfo
    obtain ⟨d, md, -, -, -, -, rfl⟩ := activeEntry_some hu'
    simp only [] at hT ⊢
    rw [if_neg (by omega)]



/-! ## C16: the expiry of a room -/

theorem expiry_after_touch (rs : RoomService) (shareID : String) (t now : Int) :
    (rs.UpdateRoomExpiry shareID t).GetRoomExpiry shareID now =
      t + DefaultExpiryHours * hour := by
  simp [RoomService.UpdateRoomExpiry, RoomService.GetRoomExpiry]

/-- C16 fails on the code: for a room without a recorded expiry, a read at
clock reading 0 returns 0 + 24h and a second read one hour later, with no touch
in between, returns 1h + 24h; `GetRoomExpiry` and `GetRoomState` only read the
expiry map, so the default is never recorded. After a touch at `t` every read
returns `t + 24h`. -/
theorem C16_default_expiry_not_recorded :
    RoomService.empty.roomExpiryMap "r1" = none ∧
    RoomService.empty.GetRoomExpiry "r1" 0 = 0 + 24 * hour ∧
    RoomService.empty.GetRoomExpiry "r1" hour = hour + 24 * hour ∧
    RoomService.empty.GetRoomExpiry "r1" 0 ≠ RoomService.empty.GetRoomExpiry "r1" hour ∧
    (∀ (L : Lib) (dirSize : Int) (modTime : String → Int) (entries : List String) (s : Store),
      (RoomService.empty.GetRoomState L dirSize modTime entries s "r1" 0).ExpiresAt ≠
        (RoomService.empty.GetRoomState L dirSize modTime entries s "r1" hour).ExpiresAt) ∧
    (∀ (rs : RoomService) (shareID : String) (t now : Int),
      (rs.UpdateRoomExpiry shareID t).GetRoomExpiry shareID now = t + 24 * hour) := by
  refine ⟨rfl, rfl, rfl, by decide, ?_, fun rs k t now => expiry_after_touch rs k t now⟩
  intro L dirSize modTime entries s
  show RoomService.empty.GetRoomExpiry "r1" 0 ≠ RoomService.empty.GetRoomExpiry "r1" hour
  decide

/-! ## C13: publishing to a hub -/

theorem registered_AddClient (h : Hub) (key : String) (ch : Nat) (k : String) :
    (h.AddClient key ch).registered k =
      if k = key then insert ch (h.registered key) else h.registered k := by
  unfold Hub.AddClient Hub.registered
  simp only []
  split <;> rfl

theorem registered_RemoveClient (h : Hub) (key : String) (ch : Nat) (k : String) :
    (h.RemoveClient key ch).registered k =
      if k = key then (h.registered key).erase ch else h.registered k := by
  unfold Hub.RemoveClient Hub.registered
  cases hk : h.clients key with
  | none =>
    simp only []
    split
    · rename_i e; rw [e, hk]; simp
    · rfl
  | some set =>
    simp only []
    split
    · simp only [Option.getD_some]
      split
      · rename_i hc
        rw [Finset.card_eq_zero] at hc
        simp [hc]
      · rfl
    · rfl

theorem registered_send (h : Hub) (key msg : String) (k : String) :
    (h.send key msg).registered k = h.registered k := rfl

theorem trySend_length (q : List String) (msg : String) (hq : q.length ≤ chanCap) :
    (trySend q msg).length ≤ chanCap := by
  unfold trySend
  split
  · rw [List.length_append, List.length_singleton]; omega
  · exact hq

theorem hubInv_empty : HubInv Hub.empty := by
  refine ⟨?_, ?_, ?_⟩
  · intro k c hc; simp [Hub.registered, Hub.empty] at hc
  · intro k1 k2 c hc; simp [Hub.registered, Hub.empty] at hc
  · intro c; simp [Hub.empty]

theorem hubInv_step (h : Hub) (op : HubOp) (hinv : HubInv h) : HubInv (h.step op) := by
  obtain ⟨h1, h2, h3⟩ := hinv
  cases op with
  | subscribe key =>
    have hreg : ∀ k, (h.subscribe key).registered k =
        if k = key then insert h.made (h.registered key) else h.registered k := by
      intro k
      unfold Hub.subscribe
      rw [registered_AddClient]
      rfl
    have hmade : (h.subscribe key).made = h.made + 1 := rfl
    show HubInv (h.subscribe key)
    refine ⟨?_, ?_, ?_⟩
    · intro k c hc
      rw [hmade]
      simp only [hreg] at hc
      split at hc
      · rw [Finset.mem_insert] at hc
        rcases hc with rfl | hc
        · omega
        · have := h1 _ _ hc; omega
      · have := h1 _ _ hc; omega
    · intro k1 k2 c hc1 hc2
      simp only [hreg] at hc1 hc2
      by_cases hc : c = h.made
      · subst hc
        have hk : ∀ k, h.made ∈ (if k = key then insert h.made (h.registered key)
            else h.registered k) → k = key := by
          intro k hm
          by_contra hne
          rw [if_neg hne] at hm
          exact absurd (h1 _ _ hm) (by omega)
        rw [hk k1 hc1, hk k2 hc2]
      · have hm : ∀ k, c ∈ (if k = key then insert h.made (h.registered key)
            else h.registered k) → c ∈ h.registered k := by
          intro k hm
          split at hm
          · rename_i e
            rw [Finset.mem_insert] at hm
            rcases hm with e' | hm
            · exact absurd e' hc
            · rw [e]; exact hm
          · exact hm
        exact h2 k1 k2 c (hm k1 hc1) (hm k2 hc2)
    · intro c
      show (if c = h.made then [] else h.queue c).length ≤ chanCap
      split
      · simp
      · exact h3 c
  | unsubscribe key ch =>
    have hsub : ∀ k c, c ∈ (h.RemoveClient key ch).registered k → c ∈ h.registered k := by
      intro k c hc
      rw [registered_RemoveClient] at hc
      split at hc
      · rename_i e; rw [e]; exact Finset.mem_of_mem_erase hc
      · exact hc
    have hq : (h.RemoveClient key ch).queue = h.queue ∧ (h.RemoveClient key ch).made = h.made := by
      unfold Hub.RemoveClient
      split <;> exact ⟨rfl, rfl⟩
    show HubInv (h.RemoveClient key ch)
    refine ⟨?_, ?_, ?_⟩
    · intro k c hc
      show c < (h.RemoveClient key ch).made
      rw [hq.2]
      exact h1 k c (hsub k c hc)
    · intro k1 k2 c hc1 hc2
      exact h2 k1 k2 c (hsub k1 c hc1) (hsub k2 c hc2)
    · intro c
      show ((h.RemoveClient key ch).queue c).length ≤ chanCap
      rw [hq.1]
      exact h3 c
  | publish key msg =>
    show HubInv (h.send key msg)
    refine ⟨h1, h2, ?_⟩
    intro c
    show (if c ∈ h.registered key then trySend (h.queue c) msg else h.queue c).length ≤ chanCap
    split
    · exact trySend_length _ _ (h3 c)
    · exact h3 c
  | receive ch =>
    show HubInv (h.receive ch)
    refine ⟨h1, h2, ?_⟩
    intro c
    show (if c = ch then (h.queue c).tail else h.queue c).length ≤ chanCap
    split
    · rw [List.length_tail]
      have := h3 c
      omega
    · exact h3 c

theorem hub_reachable_inv {h : Hub} (hr : h.Reachable) : HubInv h := by
  obtain ⟨ops, rfl⟩ := hr
  have hgen : ∀ (ops : List HubOp) (h0 : Hub), HubInv h0 → HubInv (ops.foldl Hub.step h0) := by
    intro ops
    induction ops with
    | nil => intro h0 hi; exact hi
    | cons op rest ih => intro h0 hi; exact ih _ (hubInv_step h0 op hi)
  exact hgen ops _ hubInv_empty

theorem foldl_trySend (msgs : List String) : ∀ q : List String,
    msgs.foldl trySend q = q ++ msgs.take (chanCap - q.length) := by
  induction msgs with
  | nil => intro q; simp
  | cons m rest ih =>
    intro q
    rw [List.foldl_cons, ih]
    unfold trySend
    split
    · rename_i hlt
      rw [List.length_append, List.length_singleton]
      have e : chanCap - q.length = (chanCap - (q.length + 1)) + 1 := by omega
      rw [e, List.take_succ_cons, List.append_assoc]
      rfl
    · rename_i hge
      have e : chanCap - q.length = 0 := by omega
      rw [e]
      simp

theorem foldl_send_queue (key : String) (msgs : List String) : ∀ (h : Hub) (c : Nat),
    c ∈ h.registered key →
    (msgs.foldl (fun h m => h.send key m) h).queue c = msgs.foldl trySend (h.queue c) := by
  induction msgs with
  | nil => intro h c _; rfl
  | cons m rest ih =>
    intro h c hc
    rw [List.foldl_cons, List.foldl_cons, ih (h.send key m) c hc]
    show List.foldl trySend (if c ∈ h.registered key then trySend (h.queue c) m else h.queue c)
      rest = _
    rw [if_pos hc]

/-- C13: with each subscription a channel of capacity 10 in a hub registry, in
every hub state that subscribe, unsubscribe, publish and receive events
produce, a publish under `key` appends the message to the buffer of every
channel registered under `key` that has free capacity, leaves every full
buffer unchanged, changes no channel registered under another key and changes
no registration; no buffer ever exceeds the capacity; after a sequence of
publishes under `key` the buffer of a subscriber is what it held before
followed by the published messages, in publish order, up to the capacity.
`BroadcastRoomEvent` publishes the serialised event, stamped with the clock
reading, under its share id, and `BroadcastProgress` publishes the serialised
snapshot under the upload id. -/
theorem C13_publish (marshalE : RoomEvent → String) (marshalP : Progress → String) (h : Hub)
    (key msg : String) (hr : h.Reachable) :
    chanCap = 10 ∧
    (∀ c ∈ h.registered key, (h.queue c).length < chanCap →
      (h.send key msg).queue c = h.queue c ++ [msg]) ∧
    (∀ c ∈ h.registered key, ¬ (h.queue c).length < chanCap →
      (h.send key msg).queue c = h.queue c) ∧
    (∀ c, (h.queue c).length ≤ chanCap ∧ ((h.send key msg).queue c).length ≤ chanCap) ∧
    (∀ (k : String) (c : Nat), k ≠ key → c ∈ h.registered k →
      (h.send key msg).queue c = h.queue c) ∧
    (∀ k : String, (h.send key msg).registered k = h.registered k) ∧
    (∀ (msgs : List String) (c : Nat), c ∈ h.registered key →
      (msgs.foldl (fun h m => h.send key m) h).queue c =
        h.queue c ++ msgs.take (chanCap - (h.queue c).length)) ∧
    (∀ (rs : RoomService) (event : RoomEvent) (now : Int), rs.hub = h →
      (rs.BroadcastRoomEvent marshalE event now).hub =
        h.send event.ShareID (marshalE { event with Timestamp := now })) ∧
    (∀ (s : Store) (u : String) (p : Progress), progressOf s u = some p →
      SSEService.BroadcastProgress marshalP h s u = h.send u (marshalP p)) := by
  have hinv := hub_reachable_inv hr
  have hinv' := hubInv_step h (.publish key msg) hinv
  refine ⟨rfl, ?_, ?_, fun c => ⟨hinv.2.2 c, hinv'.2.2 c⟩, ?_, fun k => rfl, ?_, ?_, ?_⟩
  · intro c hc hlen
    show (if c ∈ h.registered key then trySend (h.queue c) msg else h.queue c) = _
    rw [if_pos hc, trySend, if_pos hlen]
  · intro c hc hlen
    show (if c ∈ h.registered key then trySend (h.queue c) msg else h.queue c) = _
    rw [if_pos hc, trySend, if_neg hlen]
  · intro k c hk hc
    have hnot : c ∉ h.registered key := fun hc' => hk (hinv.2.1 k key c hc hc')
    show (if c ∈ h.registered key then trySend (h.queue c) msg else h.queue c) = _
    rw [if_neg hnot]
  · intro msgs c hc
    rw [foldl_send_queue key msgs h c hc, foldl_trySend]
  · intro rs event now hrs
    simp only [RoomService.BroadcastRoomEvent, hrs]
  · intro s u p hp
    simp only [SSEService.BroadcastProgress, hp]

/-- In a hub with two subscribers of room `r1` and one of room `r2`, a publish
under `r1` reaches channel 0 and leaves channel 2 alone. -/
theorem C13_witness :
    (hubRooms.send "r1" "m").queue 0 = hubRooms.queue 0 ++ ["m"] ∧
    (hubRooms.send "r1" "m").queue 2 = hubRooms.queue 2 :=
  ⟨(C13_publish (fun _ => "") (fun _ => "") hubRooms "r1" "m" ⟨_, rfl⟩).2.1 0
      (by decide) (by decide),
    (C13_publish (fun _ => "") (fun _ => "") hubRooms "r1" "m" ⟨_, rfl⟩).2.2.2.2.1 "r2" 2
      (by decide) (by decide)⟩



/-! ## The state of a room in the session model -/

theorem map_filterMap_key {α : Type} (f : String → Option α) (g : α → String)
    (hfg : ∀ u x, f u = some x → g x = u) : ∀ l : List String,
    (l.filterMap f).map g = l.filter (fun u => (f u).isSome) := by
  intro l
  induction l with
  | nil => rfl
  | cons u rest ih =>
    cases hf : f u with
    | none => simp [List.filterMap_cons, hf, ih]
    | some x => simp [List.filterMap_cons, hf, ih, hfg u x hf]

theorem count_filter_nodup {l : List String} (hl : l.Nodup) (p : String → Bool) (u : String) :
    (l.filter p).count u = if u ∈ l ∧ p u = true then 1 else 0 := by
  split
  · rename_i h
    exact List.count_eq_one_of_mem (hl.filter _) (List.mem_filter.mpr h)
  · rename_i h
    exact List.count_eq_zero_of_not_mem (fun hm => h (List.mem_filter.mp hm))

theorem activeEntry_of {modTime : String → Int} {s : Store} {shareID u : String} {d : Dir}
    {md : Metadata} (hd : s u = some d) (hmd : d "metadata.json" = some (.descriptor md))
    (hshare : md.ShareID = shareID) :
    activeEntry modTime s shareID u =
      if d.stat md.Filename = false then
        some ⟨u, md.Filename, md.TotalChunks, (ReadReceivedChunks d).length,
          if md.TotalChunks > 0 then
            (((ReadReceivedChunks d).length : Int) * 100).tdiv md.TotalChunks
          else 0,
          modTime u⟩
      else none := by
  simp only [activeEntry, hd, hmd, hshare, true_and]

theorem completedEntry_of {L : Lib} {dirSize : Int} {modTime : String → Int} {s : Store}
    {shareID u : String} {d : Dir} {md : Metadata} (hd : s u = some d)
    (hmd : d "metadata.json" = some (.descriptor md)) (hshare : md.ShareID = shareID) :
    completedEntry L dirSize modTime s shareID u =
      if d.stat md.Filename = true then
        some ⟨u, md.Filename, d.statSize L dirSize md.Filename, modTime u⟩
      else none := by
  simp only [completedEntry, hd, hmd, hshare, true_and]

theorem roomState_listed (L : Lib) (dirSize : Int) (modTime : String → Int)
    (entries : List String) (s : Store) (rs : RoomService) (shareID : String) (now : Int) :
    (rs.GetRoomState L dirSize modTime entries s shareID now).listed =
      entries.filter (fun u => (activeEntry modTime s shareID u).isSome) ++
      entries.filter (fun u => (completedEntry L dirSize modTime s shareID u).isSome) := by
  unfold RoomState.listed
  rw [roomState_active, roomState_completed]
  rw [map_filterMap_key _ _ (fun u x hx => by
      obtain ⟨d, md, -, -, -, -, rfl⟩ := activeEntry_some hx; rfl)]
  rw [map_filterMap_key _ _ (fun u x hx => by
      obtain ⟨d, md, -, -, -, -, rfl⟩ := completedEntry_some hx; rfl)]

theorem roomState_expiresIn (L : Lib) (dirSize : Int) (modTime : String → Int)
    (entries : List String) (s : Store) (rs : RoomService) (shareID : String) (now : Int) :
    0 ≤ (rs.GetRoomState L dirSize modTime entries s shareID now).ExpiresIn := by
  simp only [RoomService.GetRoomState]
  split <;> omega

/-- Session model: in every reachable storage state, for a listing of the storage root
that names each session directory once, `GetRoomState` lists each session
whose descriptor has the requested share id exactly once and no other
session; such a session is listed under completed files, with the size of the
file named by its descriptor, when that file exists, and otherwise under
active uploads with its `total_chunks`, the size of its received set and the
percent `floor(received * 100 / total_chunks)` (0 when `total_chunks` is not
positive); and `expires_in` is not negative. -/
theorem session_room_state (L : Lib) (dirSize : Int) (modTime : String → Int)
    (entries : List String) (s : Store) (rs : RoomService) (shareID : String) (now : Int)
    (hr : Reachable L s) (hnodup : entries.Nodup)
    (hlist : ∀ u, u ∈ entries ↔ (s u).isSome = true) :
    (∀ (u : String) (d : Dir) (md : Metadata), s u = some d →
      d "metadata.json" = some (.descriptor md) → md.ShareID = shareID →
      (rs.GetRoomState L dirSize modTime entries s shareID now).listed.count u = 1 ∧
      (d.stat md.Filename = true →
        (⟨u, md.Filename, d.statSize L dirSize md.Filename, modTime u⟩ : CompletedFile) ∈
          (rs.GetRoomState L dirSize modTime entries s shareID now).CompletedFiles ∧
        (∀ a ∈ (rs.GetRoomState L dirSize modTime entries s shareID now).ActiveUploads,
          a.UploadID ≠ u) ∧
        (md.Filename ≠ "" → ∀ f, d md.Filename = some f →
          d.statSize L dirSize md.Filename = ((f.bytes L).length : Int))) ∧
      (d.stat md.Filename = false →
        (⟨u, md.Filename, md.TotalChunks, ((ReadReceivedChunks d).toFinset.card : Int),
          if 0 < md.TotalChunks then
            ((ReadReceivedChunks d).toFinset.card : Int) * 100 / md.TotalChunks
          else 0,
          modTime u⟩ : UploadInfo) ∈
          (rs.GetRoomState L dirSize modTime entries s shareID now).ActiveUploads ∧
        ∀ c ∈ (rs.GetRoomState L dirSize modTime entries s shareID now).CompletedFiles,
          c.UploadID ≠ u)) ∧
    (∀ u ∈ (rs.GetRoomState L dirSize modTime entries s shareID now).listed,
      ∃ d md, s u = some d ∧ d "metadata.json" = some (.descriptor md) ∧
        md.ShareID = shareID) ∧
    0 ≤ (rs.GetRoomState L dirSize modTime entries s shareID now).ExpiresIn := by
  refine ⟨?_, ?_, roomState_expiresIn L dirSize modTime entries s rs shareID now⟩
  · intro u d md hd hmd hshare
    have hmem : u ∈ entries := (hlist u).mpr (by rw [hd]; rfl)
    have hA := @activeEntry_of modTime s shareID u d md hd hmd hshare
    have hC := @completedEntry_of L dirSize modTime s shareID u d md hd hmd hshare
    obtain ⟨-, -, -, -, hsorted⟩ := reachable_inv hr u d hd
    have hcard : ((ReadReceivedChunks d).toFinset.card : Int) =
        ((ReadReceivedChunks d).length : Int) := by
      rw [List.toFinset_card_of_nodup hsorted.nodup]
    refine ⟨?_, ?_, ?_⟩
    · rw [roomState_listed, List.count_append, count_filter_nodup hnodup,
        count_filter_nodup hnodup, hA, hC]
      by_cases hst : d.stat md.Filename = true
      · simp [hst, hmem]
      · have hst' : d.stat md.Filename = false := by simpa using hst
        simp [hst', hmem]
    · intro hst
      refine ⟨?_, ?_, ?_⟩
      · rw [roomState_completed, List.mem_filterMap]
        exact ⟨u, hmem, by rw [hC, if_pos hst]⟩
      · intro a ha hu
        rw [roomState_active, List.mem_filterMap] at ha
        obtain ⟨u', -, hu'⟩ := ha
        obtain ⟨d', md', hd', hmd', -, hst', rfl⟩ := activeEntry_some hu'
        simp only [] at hu
        subst hu
        rw [hd] at hd'
        cases hd'
        rw [hmd] at hmd'
        cases hmd'
        rw [hst] at hst'
        exact absurd hst' (by simp)
      · intro hne f hf
        simp [Dir.statSize, hne, hf]
    · intro hst
      refine ⟨?_, ?_⟩
      · rw [roomState_active, List.mem_filterMap]
        refine ⟨u, hmem, ?_⟩
        rw [hA, if_pos hst, hcard]
        congr 2
        by_cases hT : 0 < md.TotalChunks
        · rw [if_pos hT, if_pos hT, Int.tdiv_eq_ediv (by omega) (by omega)]
        · rw [if_neg hT, if_neg hT]
      · intro c hc hu
        rw [roomState_completed, List.mem_filterMap] at hc
        obtain ⟨u', -, hu'⟩ := hc
        obtain ⟨d', md', hd', hmd', -, hst', rfl⟩ := completedEntry_some hu'
        simp only [] at hu
        subst hu
        rw [hd] at hd'
        cases hd'
        rw [hmd] at hmd'
        cases hmd'
        rw [hst] at hst'
        exact absurd hst' (by simp)
  · intro u hu
    rw [roomState_listed, List.mem_append, List.mem_filter, List.mem_filter] at hu
    rcases hu with ⟨-, h⟩ | ⟨-, h⟩
    · cases ha : activeEntry modTime s shareID u with
      | none => rw [ha] at h; exact absurd h (by simp)
      | some info =>
        obtain ⟨d, md, hd, hmd, hs, -, -⟩ := activeEntry_some ha
        exact ⟨d, md, hd, hmd, hs⟩
    · cases hc : completedEntry L dirSize modTime s shareID u with
      | none => rw [hc] at h; exact absurd h (by simp)
      | some c =>
        obtain ⟨d, md, hd, hmd, hs, -, -⟩ := completedEntry_some hc
        exact ⟨d, md, hd, hmd, hs⟩

theorem step_dom (L : Lib) (s : Store) (op : Op) (u : String)
    (h : (step L s op u).isSome = true) :
    (s u).isSome = true ∨ ∃ md fresh, op = .init md fresh ∧ md.UploadID = u := by
  cases op with
  | init md fresh =>
    by_cases hu : u = md.UploadID
    · exact Or.inr ⟨md, fresh, rfl, hu.symm⟩
    · left
      simp only [step, InitHandler] at h
      split at h
      · exact h
      · have hid : (if md.ShareID = "" then { md with ShareID := fresh } else md).UploadID =
            md.UploadID := by split <;> rfl
        simp only [Store.set, hid, if_neg hu] at h
        exact h
  | upload u0 idx cl body =>
    left
    simp only [step] at h
    rcases upload_cases L s u0 idx cl body with e | ⟨d0, md, hd0, -, -, -, -, -, -, he⟩
    · rw [e] at h; exact h
    · rw [he] at h
      simp only [Store.set] at h
      split at h
      · rename_i hu; rw [hu, hd0]; rfl
      · exact h
  | complete u0 =>
    left
    simp only [step] at h
    rcases complete_cases L s u0 with e | ⟨d0, md, hd0, -, -, e | ⟨data, e⟩⟩
    · rw [e] at h; exact h
    · rw [e] at h
      simp only [Store.set] at h
      split at h
      · rename_i hu; rw [hu, hd0]; rfl
      · exact h
    · rw [e] at h
      simp only [Store.set] at h
      split at h
      · rename_i hu; rw [hu, hd0]; rfl
      · exact h
  | cleanup u0 =>
    left
    simp only [step] at h
    rcases cleanup_cases s u0 with e | e
    · rw [e] at h; exact h
    · rw [e] at h
      simp only [Store.set] at h
      split at h
      · exact absurd h (by simp)
      · exact h

/-- A session directory of a storage produced by requests was created by one
of the create requests. -/
theorem run_dom (L : Lib) (ops : List Op) : ∀ (s : Store) (u : String),
    (run L s ops u).isSome = true →
    (s u).isSome = true ∨ ∃ md fresh, Op.init md fresh ∈ ops ∧ md.UploadID = u := by
  induction ops with
  | nil => intro s u h; exact Or.inl h
  | cons op rest ih =>
    intro s u h
    rcases ih (step L s op) u h with h1 | ⟨md, fresh, hm, hu⟩
    · rcases step_dom L s op u h1 with h2 | ⟨md, fresh, rfl, hu⟩
      · exact Or.inl h2
      · exact Or.inr ⟨md, fresh, List.mem_cons_self _ _, hu⟩
    · exact Or.inr ⟨md, fresh, List.mem_cons_of_mem _ hm, hu⟩

/-! ## Paths -/

theorem storageRoot_eq : Disk.StorageRoot = ["storage"] := by decide

theorem splitSlash_of_no_slash : ∀ cs : List Char, '/' ∉ cs → Disk.splitSlash cs = [cs] := by
  intro cs
  induction cs with
  | nil => intro _; rfl
  | cons c rest ih =>
    intro h
    simp only [List.mem_cons, not_or] at h
    have hc : c ≠ '/' := fun e => h.1 e.symm
    simp [Disk.splitSlash, hc, ih h.2]

theorem components_of_no_slash {n : String} (h : '/' ∉ n.data) : Disk.components n = [n] := by
  simp [Disk.components, splitSlash_of_no_slash n.data h]

/-- A plain component is appended by `filepath.Join` as it is. -/
theorem join_component (base : Disk.Path) {n : String} (h0 : n ≠ "") (h1 : n ≠ ".")
    (h2 : n ≠ "..") (h3 : '/' ∉ n.data) : Disk.join base n = base ++ [n] := by
  simp [Disk.join, components_of_no_slash h3, Disk.pushComp, h0, h1, h2]

theorem join_plain (base : Disk.Path) {n : String} (h : Disk.plainName n) :
    Disk.join base n = base ++ [n] :=
  join_component base h.1 h.2.1 h.2.2.1 h.2.2.2.1

theorem join_empty (base : Disk.Path) : Disk.join base "" = base := by
  simp [Disk.join, Disk.components, Disk.splitSlash, Disk.pushComp]

theorem withSuffix_snoc (q : Disk.Path) (x ext : String) :
    Disk.withSuffix (q ++ [x]) ext = q ++ [x ++ ext] := by
  simp [Disk.withSuffix]

theorem sessionDir_eq {u : String} (h : Disk.plainName u) :
    Disk.join Disk.StorageRoot u = Disk.sessionDir u := by
  rw [storageRoot_eq, join_plain _ h]; rfl

theorem toDigitsCore_no_slash (fuel : Nat) : ∀ (n : Nat) (ds : List Char),
    '/' ∉ ds → '/' ∉ Nat.toDigitsCore 10 fuel n ds := by
  induction fuel with
  | zero => intro n ds h; simpa [Nat.toDigitsCore] using h
  | succ f ih =>
    intro n ds h
    have hd : Nat.digitChar (n % 10) ≠ '/' := by
      have hk : n % 10 < 10 := Nat.mod_lt _ (by decide)
      generalize n % 10 = k at hk
      interval_cases k <;> decide
    simp only [Nat.toDigitsCore]
    split
    · simp only [List.mem_cons, not_or]
      exact ⟨fun e => hd e.symm, h⟩
    · apply ih
      simp only [List.mem_cons, not_or]
      exact ⟨fun e => hd e.symm, h⟩

theorem chunkName_no_slash (i : Nat) : '/' ∉ (chunkName i).data := by
  rw [chunkName_data]
  simp only [List.mem_append, not_or, pad6, Nat.toDigits, List.mem_replicate]
  exact ⟨by decide, fun h => absurd h.2 (by decide), toDigitsCore_no_slash _ _ _ (by simp)⟩

theorem chunkName_ne_dots (i : Nat) :
    chunkName i ≠ "" ∧ chunkName i ≠ "." ∧ chunkName i ≠ ".." := by
  have h : ∀ s : String, s.length < 6 → chunkName i ≠ s := by
    intro s hs e
    have h1 := congrArg String.length e
    simp only [chunkName, String.length_append] at h1
    have h2 : "chunk_".length = 6 := by decide
    omega
  exact ⟨h _ (by decide), h _ (by decide), h _ (by decide)⟩

theorem join_chunkName (base : Disk.Path) (i : Nat) :
    Disk.join base (chunkName i) = base ++ [chunkName i] :=
  join_component base (chunkName_ne_dots i).1 (chunkName_ne_dots i).2.1 (chunkName_ne_dots i).2.2
    (chunkName_no_slash i)

theorem join_metadata (base : Disk.Path) :
    Disk.join base "metadata.json" = base ++ ["metadata.json"] :=
  join_component base (by decide) (by decide) (by decide) (by decide)

theorem join_received (base : Disk.Path) :
    Disk.join base "received.json" = base ++ ["received.json"] :=
  join_component base (by decide) (by decide) (by decide) (by decide)

/-! ## The table of the file system -/

theorem get_erase (fs : Disk.FS) (p q : Disk.Path) :
    (fs.erase p).get q = if q = p then none else fs.get q := by
  induction fs with
  | nil => simp [Disk.FS.erase, Disk.FS.get]
  | cons e rest ih =>
    obtain ⟨k, n⟩ := e
    simp only [Disk.FS.erase] at ih ⊢
    by_cases hk : k = p
    · subst hk
      simp only [List.filter_cons, ne_eq, not_true_eq_false, decide_False, Bool.false_eq_true,
        if_false, ih, Disk.FS.get]
      by_cases hq : q = k
      · simp [hq]
      · have hq' : ¬ k = q := fun e => hq e.symm
        simp [hq, hq']
    · simp only [List.filter_cons, ne_eq, hk, not_false_eq_true, decide_True, if_true,
        Disk.FS.get, ih]
      by_cases hq : q = p
      · subst hq; simp [hk]
      · simp [hq]

theorem get_set (fs : Disk.FS) (p q : Disk.Path) (n : Disk.Node) :
    (fs.set p n).get q = if q = p then some n else fs.get q := by
  simp only [Disk.FS.set, Disk.FS.get, get_erase]
  by_cases hq : q = p
  · subst hq; simp
  · have hq' : ¬ p = q := fun e => hq e.symm
    simp [hq, hq']

theorem get_eraseTree (fs : Disk.FS) (p q : Disk.Path) :
    (fs.eraseTree p).get q = if p.isPrefixOf q = true then none else fs.get q := by
  induction fs with
  | nil => simp [Disk.FS.eraseTree, Disk.FS.get]
  | cons e rest ih =>
    obtain ⟨k, n⟩ := e
    simp only [Disk.FS.eraseTree] at ih ⊢
    by_cases hk : p.isPrefixOf k = true
    · simp only [List.filter_cons, hk, Bool.not_true, Bool.false_eq_true, if_false, ih,
        Disk.FS.get]
      by_cases hq : k = q
      · subst hq; simp [hk]
      · simp [hq]
    · simp only [List.filter_cons, hk, Bool.not_false, if_true, Disk.FS.get, ih]
      by_cases hq : k = q
      · subst hq; simp [hk]
      · simp [hq]

/-! ## Session directories inside the file system -/

theorem putDir_file (g : Disk.Path → Option Disk.Node) (u : String) (d : Dir) (n : String) :
    Disk.putDir g u d (Disk.sessionFile u n) = (d n).map Disk.Node.file := by
  simp [Disk.putDir, Disk.sessionFile]

theorem putDir_other_file (g : Disk.Path → Option Disk.Node) (u : String) (d : Dir)
    {v : String} (n : String) (hv : v ≠ u) :
    Disk.putDir g u d (Disk.sessionFile v n) = g (Disk.sessionFile v n) := by
  simp [Disk.putDir, Disk.sessionFile, hv]

theorem putDir_dir (g : Disk.Path → Option Disk.Node) (u : String) (d : Dir) (v : String) :
    Disk.putDir g u d (Disk.sessionDir v) = g (Disk.sessionDir v) := by
  simp [Disk.putDir, Disk.sessionDir]

theorem putDir_write (g : Disk.Path → Option Disk.Node) (u : String) (d : Dir) (n : String)
    (c : FileData) (p : Disk.Path) :
    Disk.putDir g u (d.write n c) p =
      if p = Disk.sessionFile u n then some (.file c) else Disk.putDir g u d p := by
  rcases p with _ | ⟨r, _ | ⟨v, _ | ⟨m, _ | ⟨x, rest⟩⟩⟩⟩ <;>
    simp [Disk.putDir, Disk.sessionFile, Dir.write]
  by_cases h : r = "storage" ∧ v = u
  · obtain ⟨rfl, rfl⟩ := h
    by_cases hm : m = n
    · simp [hm]
    · simp [hm]
  · have h' : ¬ (r = "storage" ∧ v = u ∧ m = n) := fun e => h ⟨e.1, e.2.1⟩
    simp [h, h']

theorem putDir_remove (g : Disk.Path → Option Disk.Node) (u : String) (d : Dir) (n : String)
    (p : Disk.Path) :
    Disk.putDir g u (d.remove n) p =
      if p = Disk.sessionFile u n then none else Disk.putDir g u d p := by
  rcases p with _ | ⟨r, _ | ⟨v, _ | ⟨m, _ | ⟨x, rest⟩⟩⟩⟩ <;>
    simp [Disk.putDir, Disk.sessionFile, Dir.remove]
  by_cases h : r = "storage" ∧ v = u
  · obtain ⟨rfl, rfl⟩ := h
    by_cases hm : m = n
    · simp [hm]
    · simp [hm]
  · have h' : ¬ (r = "storage" ∧ v = u ∧ m = n) := fun e => h ⟨e.1, e.2.1⟩
    simp [h, h']

theorem rep_refl {fs0 : Disk.FS} (hs : Disk.Shape fs0) (u : String) :
    Disk.Rep fs0 u fs0 (Disk.view fs0 u) := by
  intro p
  rcases p with _ | ⟨r, _ | ⟨v, _ | ⟨m, _ | ⟨x, rest⟩⟩⟩⟩ <;> simp only [Disk.putDir]
  split
  · rename_i h
    obtain ⟨hr, hv⟩ := h
    subst hr hv
    simp only [Disk.view, Disk.sessionFile]
    cases h : Disk.FS.get fs0 ["storage", v, m] with
    | none => rfl
    | some nd =>
      cases nd with
      | dir => exact absurd h (hs.files v m)
      | file c => rfl
  · rfl

section rep

variable {fs0 fs : Disk.FS} {u : String} {d : Dir}

theorem rep_get_file (hr : Disk.Rep fs0 u fs d) (n : String) :
    fs.get (Disk.sessionFile u n) = (d n).map Disk.Node.file := by
  rw [hr, putDir_file]

theorem rep_get_dir (hr : Disk.Rep fs0 u fs d) (v : String) :
    fs.get (Disk.sessionDir v) = fs0.get (Disk.sessionDir v) := by
  rw [hr, putDir_dir]

theorem rep_get_cwd (hr : Disk.Rep fs0 u fs d) : fs.get [] = fs0.get [] := by
  rw [hr]; rfl

theorem rep_get_root (hr : Disk.Rep fs0 u fs d) : fs.get ["storage"] = fs0.get ["storage"] := by
  rw [hr]; rfl

theorem rep_get_other (hr : Disk.Rep fs0 u fs d) {v : String} (n : String) (hv : v ≠ u) :
    fs.get (Disk.sessionFile v n) = fs0.get (Disk.sessionFile v n) := by
  rw [hr, putDir_other_file _ _ _ _ hv]

theorem rep_shape (hs : Disk.Shape fs0) (hd : fs0.get (Disk.sessionDir u) = some .dir)
    (hr : Disk.Rep fs0 u fs d) : Disk.Shape fs := by
  refine ⟨by rw [rep_get_cwd hr, hs.cwd], by rw [rep_get_root hr, hs.root], ?_, ?_, ?_⟩
  · intro v c
    rw [rep_get_dir hr]
    exact hs.sess v c
  · intro v n
    by_cases hv : v = u
    · subst hv
      rw [rep_get_file hr]
      cases d n <;> simp
    · rw [rep_get_other hr n hv]
      exact hs.files v n
  · intro v n h
    rw [rep_get_dir hr]
    by_cases hv : v = u
    · subst hv; exact hd
    · rw [rep_get_other hr n hv] at h
      exact hs.closed v n h

theorem rep_view (hr : Disk.Rep fs0 u fs d) : Disk.view fs u = d := by
  funext n
  simp only [Disk.view, rep_get_file hr]
  cases d n <;> rfl

theorem rep_view_other (hr : Disk.Rep fs0 u fs d) {v : String} (hv : v ≠ u) :
    Disk.view fs v = Disk.view fs0 v := by
  funext n
  simp only [Disk.view, rep_get_other hr n hv]

theorem rep_toStore (hd : fs0.get (Disk.sessionDir u) = some .dir) (hr : Disk.Rep fs0 u fs d) :
    Disk.toStore fs = (Disk.toStore fs0).set u (some d) := by
  funext v
  simp only [Disk.toStore, Store.set, rep_get_dir hr]
  by_cases hv : v = u
  · subst hv
    simp [hd, rep_view hr]
  · simp [hv, rep_view_other hr hv]

theorem rep_stat_dir (hs : Disk.Shape fs0) (hd : fs0.get (Disk.sessionDir u) = some .dir)
    (hr : Disk.Rep fs0 u fs d) : fs.stat (Disk.sessionDir u) = .found .dir := by
  have h0 := rep_get_cwd hr
  have h1 := rep_get_root hr
  have h2 := rep_get_dir hr u
  rw [hs.cwd] at h0
  rw [hs.root] at h1
  rw [hd] at h2
  simp only [Disk.sessionDir] at h2
  simp [Disk.FS.stat, Disk.FS.walk, Disk.sessionDir, h0, h1, h2]

theorem rep_stat_file (hs : Disk.Shape fs0) (hd : fs0.get (Disk.sessionDir u) = some .dir)
    (hr : Disk.Rep fs0 u fs d) (n : String) :
    fs.stat (Disk.sessionFile u n) =
      match d n with
      | some c => .found (.file c)
      | none => .notExist := by
  have h0 := rep_get_cwd hr
  have h1 := rep_get_root hr
  have h2 := rep_get_dir hr u
  have h3 := rep_get_file hr n
  rw [hs.cwd] at h0
  rw [hs.root] at h1
  rw [hd] at h2
  simp only [Disk.sessionDir] at h2
  simp only [Disk.sessionFile] at h3
  simp only [Disk.FS.stat, Disk.FS.walk, Disk.sessionFile, h0, h1, h2, h3, List.nil_append,
    List.singleton_append, List.cons_append]
  cases d n <;> rfl

theorem rep_readFile (hs : Disk.Shape fs0) (hd : fs0.get (Disk.sessionDir u) = some .dir)
    (hr : Disk.Rep fs0 u fs d) (n : String) :
    fs.readFile (Disk.sessionFile u n) =
      match d n with
      | some c => .ok c
      | none => .notExist := by
  simp only [Disk.FS.readFile, rep_stat_file hs hd hr]
  cases d n <;> rfl

theorem rep_set (hr : Disk.Rep fs0 u fs d) (n : String) (c : FileData) :
    Disk.Rep fs0 u (fs.set (Disk.sessionFile u n) (.file c)) (d.write n c) := by
  intro p
  rw [get_set, putDir_write, hr]

theorem rep_erase (hr : Disk.Rep fs0 u fs d) (n : String) :
    Disk.Rep fs0 u (fs.erase (Disk.sessionFile u n)) (d.remove n) := by
  intro p
  rw [get_erase, putDir_remove, hr]

theorem rep_writeFile (hs : Disk.Shape fs0) (hd : fs0.get (Disk.sessionDir u) = some .dir)
    (hr : Disk.Rep fs0 u fs d) (n : String) (c : FileData) :
    fs.writeFile (Disk.sessionFile u n) c = some (fs.set (Disk.sessionFile u n) (.file c)) := by
  have hdrop : (Disk.sessionFile u n).dropLast = Disk.sessionDir u := rfl
  simp only [Disk.FS.writeFile, rep_stat_file hs hd hr, hdrop, rep_stat_dir hs hd hr]
  cases d n <;> rfl

theorem dir_remove_absent {d : Dir} {n : String} (h : d n = none) : d.remove n = d := by
  funext m
  by_cases hm : m = n
  · subst hm; simp [Dir.remove, h]
  · simp [Dir.remove, hm]

theorem dir_rename_self (d : Dir) (n : String) : d.rename n n = d := by
  funext m
  by_cases hm : m = n
  · subst hm; simp [Dir.rename]
  · simp [Dir.rename, hm]

theorem dir_rename_eq (d : Dir) {a b : String} {c : FileData} (ha : d a = some c)
    (hab : a ≠ b) : d.rename a b = (d.remove a).write b c := by
  funext m
  by_cases hm : m = b
  · subst hm; simp [Dir.rename, Dir.write, ha]
  · by_cases hm2 : m = a
    · subst hm2; simp [Dir.rename, Dir.write, Dir.remove, hm]
    · simp [Dir.rename, Dir.write, Dir.remove, hm, hm2]

theorem rep_remove (hs : Disk.Shape fs0) (hd : fs0.get (Disk.sessionDir u) = some .dir)
    (hr : Disk.Rep fs0 u fs d) (n : String) :
    Disk.Rep fs0 u ((fs.remove (Disk.sessionFile u n)).getD fs) (d.remove n) := by
  simp only [Disk.FS.remove, rep_stat_file hs hd hr]
  cases h : d n with
  | none =>
    simp only [Option.getD_none]
    rw [dir_remove_absent h]
    exact hr
  | some c =>
    simp only [Option.getD_some]
    exact rep_erase hr n

theorem sessionFile_injective {u a b : String} (h : Disk.sessionFile u a = Disk.sessionFile u b) :
    a = b := by
  simpa [Disk.sessionFile] using h

theorem rep_rename (hs : Disk.Shape fs0) (hd : fs0.get (Disk.sessionDir u) = some .dir)
    (hr : Disk.Rep fs0 u fs d) {a : String} (b : String) {c : FileData} (ha : d a = some c) :
    ∃ fs', fs.rename (Disk.sessionFile u a) (Disk.sessionFile u b) = some fs' ∧
      Disk.Rep fs0 u fs' (d.rename a b) := by
  have hdrop : (Disk.sessionFile u b).dropLast = Disk.sessionDir u := rfl
  by_cases hab : a = b
  · subst hab
    refine ⟨fs, ?_, by rw [dir_rename_self]; exact hr⟩
    simp [Disk.FS.rename, rep_stat_file hs hd hr, ha]
  · have hne : Disk.sessionFile u a ≠ Disk.sessionFile u b := fun e => hab (sessionFile_injective e)
    refine ⟨(fs.erase (Disk.sessionFile u a)).set (Disk.sessionFile u b) (.file c), ?_, ?_⟩
    · simp only [Disk.FS.rename, rep_stat_file hs hd hr, ha, if_neg hne, hdrop,
        rep_stat_dir hs hd hr]
      cases d b <;> rfl
    · rw [dir_rename_eq d ha hab]
      exact rep_set (rep_erase hr a) b c

end rep

/-! ## Chunk ingestion over the file system -/

theorem sessionDir_snoc (u n : String) : Disk.sessionDir u ++ [n] = Disk.sessionFile u n := rfl

theorem join_session_metadata (u : String) :
    Disk.join (Disk.sessionDir u) "metadata.json" = Disk.sessionFile u "metadata.json" := by
  rw [join_metadata, sessionDir_snoc]

theorem join_session_received (u : String) :
    Disk.join (Disk.sessionDir u) "received.json" = Disk.sessionFile u "received.json" := by
  rw [join_received, sessionDir_snoc]

theorem join_session_chunk (u : String) (i : Nat) :
    Disk.join (Disk.sessionDir u) (chunkName i) = Disk.sessionFile u (chunkName i) := by
  rw [join_chunkName, sessionDir_snoc]

theorem join_session_plain (u : String) {n : String} (h : Disk.plainName n) :
    Disk.join (Disk.sessionDir u) n = Disk.sessionFile u n := by
  rw [join_plain _ h, sessionDir_snoc]

theorem withSuffix_sessionFile (u n ext : String) :
    Disk.withSuffix (Disk.sessionFile u n) ext = Disk.sessionFile u (n ++ ext) := by
  rw [← sessionDir_snoc, withSuffix_snoc, sessionDir_snoc]

theorem shape_stat_dir_none {fs : Disk.FS} (hs : Disk.Shape fs) {u : String}
    (h : fs.get (Disk.sessionDir u) = none) : fs.stat (Disk.sessionDir u) = .notExist := by
  simp only [Disk.sessionDir] at h
  simp [Disk.FS.stat, Disk.FS.walk, Disk.sessionDir, hs.cwd, hs.root, h]

theorem shape_stat_file_none {fs : Disk.FS} (hs : Disk.Shape fs) {u : String}
    (h : fs.get (Disk.sessionDir u) = none) (n : String) :
    fs.stat (Disk.sessionFile u n) = .notExist := by
  simp only [Disk.sessionDir] at h
  simp [Disk.FS.stat, Disk.FS.walk, Disk.sessionFile, hs.cwd, hs.root, h]

theorem shape_get_dir {fs : Disk.FS} (hs : Disk.Shape fs) (u : String) :
    fs.get (Disk.sessionDir u) = none ∨ fs.get (Disk.sessionDir u) = some .dir := by
  cases h : fs.get (Disk.sessionDir u) with
  | none => exact Or.inl rfl
  | some nd =>
    cases nd with
    | dir => exact Or.inr rfl
    | file c => exact absurd h (hs.sess u c)

theorem toStore_of_dir {fs : Disk.FS} {u : String} (h : fs.get (Disk.sessionDir u) = some .dir) :
    Disk.toStore fs u = some (Disk.view fs u) := by
  simp [Disk.toStore, h]

theorem toStore_of_none {fs : Disk.FS} {u : String} (h : fs.get (Disk.sessionDir u) = none) :
    Disk.toStore fs u = none := by
  simp [Disk.toStore, h]

section rep

variable {E : Disk.Env} {fs0 fs : Disk.FS} {u : String} {d : Dir}

theorem rep_stat_filename (hs : Disk.Shape fs0) (hd : fs0.get (Disk.sessionDir u) = some .dir)
    (hr : Disk.Rep fs0 u fs d) {F : String} (hF : F = "" ∨ Disk.plainName F) :
    (fs.stat (Disk.join (Disk.sessionDir u) F)).isFound = d.stat F := by
  rcases hF with rfl | hF
  · rw [join_empty, rep_stat_dir hs hd hr]; rfl
  · rw [join_session_plain u hF, rep_stat_file hs hd hr]
    have hne : F ≠ "" := hF.1
    cases h : d F <;> simp [Dir.stat, hne, h, Disk.Lookup.isFound]

theorem rep_readReceived (hs : Disk.Shape fs0) (hd : fs0.get (Disk.sessionDir u) = some .dir)
    (hr : Disk.Rep fs0 u fs d) (hty : ∀ b, d "received.json" ≠ some (.raw b)) :
    Disk.ReadReceivedChunks E fs (Disk.sessionDir u) = ReadReceivedChunks d := by
  simp only [Disk.ReadReceivedChunks, join_session_received, rep_readFile hs hd hr,
    ReadReceivedChunks]
  cases h : d "received.json" with
  | none => rfl
  | some c =>
    cases c with
    | descriptor md => rfl
    | indexList arr => rfl
    | raw b => exact absurd h (hty b)

theorem rep_append (hs : Disk.Shape fs0) (hd : fs0.get (Disk.sessionDir u) = some .dir)
    (hr : Disk.Rep fs0 u fs d) (hty : ∀ b, d "received.json" ≠ some (.raw b)) (idx : Int) :
    Disk.Rep fs0 u (Disk.AppendReceivedChunk E fs (Disk.sessionDir u) idx)
      (AppendReceivedChunk d idx) := by
  simp only [Disk.AppendReceivedChunk, join_session_received, rep_readFile hs hd hr,
    AppendReceivedChunk, rep_writeFile hs hd hr, Option.getD_some]
  cases h : d "received.json" with
  | none =>
    simp only []
    split
    · exact rep_set hr _ _
    · exact hr
  | some c =>
    cases c with
    | descriptor md =>
      simp only [Disk.decodeIndices, Option.getD_none]
      split
      · exact rep_set hr _ _
      · exact hr
    | indexList arr =>
      simp only [Disk.decodeIndices, Option.getD_some]
      split
      · exact rep_set hr _ _
      · exact hr
    | raw b => exact absurd h (hty b)

theorem rep_existingChunk (hs : Disk.Shape fs0) (hd : fs0.get (Disk.sessionDir u) = some .dir)
    (hr : Disk.Rep fs0 u fs d) (idx : Int) (h : String) :
    Disk.existingChunk E fs (Disk.sessionFile u (chunkName idx.toNat)) h =
      existingChunk E.lib d idx h := by
  simp only [Disk.existingChunk, withSuffix_sessionFile, rep_readFile hs hd hr, existingChunk]
  cases d (chunkName idx.toNat) with
  | none => rfl
  | some c =>
    simp only []
    cases d (chunkName idx.toNat ++ ".xxhash") <;> rfl

theorem rep_storeChunk (hs : Disk.Shape fs0) (hd : fs0.get (Disk.sessionDir u) = some .dir)
    (hr : Disk.Rep fs0 u fs d) (hty : ∀ b, d "received.json" ≠ some (.raw b)) (idx : Int)
    (body : List Nat) (h : String) :
    ∃ fs', Disk.storeChunk E fs (Disk.sessionDir u) idx body h =
        (.answer (.received body.length h), fs') ∧
      Disk.Rep fs0 u fs' (storeChunk d idx body h) := by
  have h1 := rep_set hr (chunkName idx.toNat ++ ".part") (.raw body)
  obtain ⟨fs2, hren, h2⟩ := rep_rename hs hd h1 (chunkName idx.toNat)
    (show (d.write (chunkName idx.toNat ++ ".part") (.raw body)) (chunkName idx.toNat ++ ".part")
      = some (.raw body) by simp [Dir.write])
  have h3 := rep_set h2 (chunkName idx.toNat ++ ".xxhash") (.raw (strBytes h))
  have hty3 : ∀ b, ((((d.write (chunkName idx.toNat ++ ".part") (.raw body)).rename
      (chunkName idx.toNat ++ ".part") (chunkName idx.toNat)).write
      (chunkName idx.toNat ++ ".xxhash") (.raw (strBytes h))) "received.json") ≠ some (.raw b) := by
    intro b
    have e : ((((d.write (chunkName idx.toNat ++ ".part") (.raw body)).rename
      (chunkName idx.toNat ++ ".part") (chunkName idx.toNat)).write
      (chunkName idx.toNat ++ ".xxhash") (.raw (strBytes h))) "received.json") =
        d "received.json" := by
      simp [Dir.write, Dir.rename, (append_xxhash_ne_received _).symm,
        (chunkName_ne_received _).symm, (append_part_ne_received _).symm]
    rw [e]
    exact hty b
  have h4 := @rep_append E _ _ _ _ hs hd h3 hty3 idx
  refine ⟨_, ?_, h4⟩
  simp only [Disk.storeChunk, join_session_chunk, withSuffix_sessionFile,
    rep_writeFile hs hd hr, Disk.MoveFile, hren, rep_writeFile hs hd h2, Option.getD_some]

end rep

/-- `UploadHandler` over the file system answers as the handler of the session
model does on the storage the file system holds, when the names are plain. -/
theorem disk_upload_sim (E : Disk.Env) (fs : Disk.FS) (u idxStr : String) (idx cl : Int)
    (body : List Nat) (hs : Disk.Shape fs) (hu : Disk.plainName u)
    (hidx : Disk.atoi idxStr = some idx)
    (hty : ∀ d, Disk.toStore fs u = some d → Disk.TypedSession d) :
    (Disk.UploadHandler E fs u idxStr cl body).1 =
      .answer (UploadHandler E.lib (Disk.toStore fs) u idx cl body).1 ∧
    Disk.toStore (Disk.UploadHandler E fs u idxStr cl body).2 =
      (UploadHandler E.lib (Disk.toStore fs) u idx cl body).2 ∧
    Disk.Shape (Disk.UploadHandler E fs u idxStr cl body).2 := by
  rcases shape_get_dir hs u with hnone | hdir
  · have h1 : Disk.UploadHandler E fs u idxStr cl body = (.answer .sessionNotFound, fs) := by
      simp [Disk.UploadHandler, hidx, sessionDir_eq hu, shape_stat_dir_none hs hnone]
    have h2 : UploadHandler E.lib (Disk.toStore fs) u idx cl body =
        (.sessionNotFound, Disk.toStore fs) := by
      simp [UploadHandler, toStore_of_none hnone]
    rw [h1, h2]
    exact ⟨rfl, rfl, hs⟩
  · have hr := rep_refl hs u
    have hst := toStore_of_dir hdir
    obtain ⟨hmt, hrt, hname⟩ := hty _ hst
    have hstat : fs.stat (Disk.sessionDir u) ≠ .notExist := by
      rw [rep_stat_dir hs hdir hr]; simp
    by_cases hcl : cl > MaxUploadSize
    · have h1 : Disk.UploadHandler E fs u idxStr cl body = (.answer .payloadTooLarge, fs) := by
        simp only [Disk.UploadHandler, hidx, sessionDir_eq hu, if_neg hstat, if_pos hcl]
      have h2 : UploadHandler E.lib (Disk.toStore fs) u idx cl body =
          (.payloadTooLarge, Disk.toStore fs) := by
        simp only [UploadHandler, hst, if_pos hcl]
      rw [h1, h2]
      exact ⟨rfl, rfl, hs⟩
    cases hm : Disk.view fs u "metadata.json" with
    | none =>
      have h1 : Disk.UploadHandler E fs u idxStr cl body = (.answer .metadataNotFound, fs) := by
        simp only [Disk.UploadHandler, hidx, sessionDir_eq hu, if_neg hstat, if_neg hcl,
          join_session_metadata, rep_readFile hs hdir hr, hm]
      have h2 : UploadHandler E.lib (Disk.toStore fs) u idx cl body =
          (.metadataNotFound, Disk.toStore fs) := by
        simp only [UploadHandler, hst, if_neg hcl, hm]
      rw [h1, h2]
      exact ⟨rfl, rfl, hs⟩
    | some c =>
      cases c with
      | raw b => exact absurd hm (hmt b)
      | indexList arr =>
        have h1 : Disk.UploadHandler E fs u idxStr cl body = (.answer .invalidMetadata, fs) := by
          simp only [Disk.UploadHandler, hidx, sessionDir_eq hu, if_neg hstat, if_neg hcl,
            join_session_metadata, rep_readFile hs hdir hr, hm, Disk.decodeMetadata]
        have h2 : UploadHandler E.lib (Disk.toStore fs) u idx cl body =
            (.invalidMetadata, Disk.toStore fs) := by
          simp only [UploadHandler, hst, if_neg hcl, hm]
        rw [h1, h2]
        exact ⟨rfl, rfl, hs⟩
      | descriptor md =>
        have hF := hname md hm
        rw [upload_eq E.lib _ u idx cl body hst hm]
        have h1 : Disk.UploadHandler E fs u idxStr cl body =
            if idx < 0 ∨ idx ≥ md.TotalChunks then (.answer .indexOutOfRange, fs)
            else if (Disk.view fs u).stat md.Filename = true then (.answer .alreadyCompleted, fs)
            else if body = [] then (.answer .emptyBody, fs)
            else
              match existingChunk E.lib (Disk.view fs u) idx (hashHex E.lib body) with
              | some existingData =>
                (.answer (.alreadyReceived existingData.length (hashHex E.lib body)), fs)
              | none =>
                if expectedHash md idx ≠ "" ∧ expectedHash md idx ≠ hashHex E.lib body then
                  (.answer (.hashMismatch (expectedHash md idx) (hashHex E.lib body)), fs)
                else Disk.storeChunk E fs (Disk.sessionDir u) idx body (hashHex E.lib body) := by
          simp only [Disk.UploadHandler, hidx, sessionDir_eq hu, if_neg hstat, if_neg hcl,
            join_session_metadata, rep_readFile hs hdir hr, hm, Disk.decodeMetadata,
            rep_stat_filename hs hdir hr hF, join_session_chunk, rep_existingChunk hs hdir hr,
            List.length_eq_zero]
          try rfl
        rw [h1, if_neg hcl]
        by_cases h2 : idx < 0 ∨ idx ≥ md.TotalChunks
        · rw [if_pos h2, if_pos h2]; exact ⟨rfl, rfl, hs⟩
        rw [if_neg h2, if_neg h2]
        by_cases h3 : (Disk.view fs u).stat md.Filename = true
        · rw [if_pos h3, if_pos h3]; exact ⟨rfl, rfl, hs⟩
        rw [if_neg h3, if_neg h3]
        by_cases h4 : body = []
        · rw [if_pos h4, if_pos h4]; exact ⟨rfl, rfl, hs⟩
        rw [if_neg h4, if_neg h4]
        cases hex : existingChunk E.lib (Disk.view fs u) idx (hashHex E.lib body) with
        | some e => exact ⟨rfl, rfl, hs⟩
        | none =>
          simp only []
          by_cases h5 : expectedHash md idx ≠ "" ∧ expectedHash md idx ≠ hashHex E.lib body
          · rw [if_pos h5, if_pos h5]; exact ⟨rfl, rfl, hs⟩
          rw [if_neg h5, if_neg h5]
          obtain ⟨fs', hsc, hrep⟩ := @rep_storeChunk E _ _ _ _ hs hdir hr hrt idx body
            (hashHex E.lib body)
          rw [hsc]
          exact ⟨rfl, rep_toStore hdir hrep, rep_shape hs hdir hrep⟩

/-- What `UploadHandler` does to the file system: nothing, unless it reached the
durable write. -/
theorem disk_upload_cases (E : Disk.Env) (fs : Disk.FS) (u idxStr : String) (cl : Int)
    (body : List Nat) :
    (Disk.UploadHandler E fs u idxStr cl body).2 = fs ∨
    (∃ n h, (Disk.UploadHandler E fs u idxStr cl body).1 = .answer (.received n h)) ∨
    (Disk.UploadHandler E fs u idxStr cl body).1 = .writeFailed ∨
    (Disk.UploadHandler E fs u idxStr cl body).1 = .finalizeFailed := by
  cases hidx : Disk.atoi idxStr with
  | none => left; simp only [Disk.UploadHandler, hidx]
  | some idx =>
    by_cases h0 : fs.stat (Disk.join Disk.StorageRoot u) = .notExist
    · left; simp only [Disk.UploadHandler, hidx, if_pos h0]
    by_cases h1 : cl > MaxUploadSize
    · left; simp only [Disk.UploadHandler, hidx, if_neg h0, if_pos h1]
    cases hrd : fs.readFile (Disk.join (Disk.join Disk.StorageRoot u) "metadata.json") with
    | notExist => left; simp only [Disk.UploadHandler, hidx, if_neg h0, if_neg h1, hrd]
    | failed => left; simp only [Disk.UploadHandler, hidx, if_neg h0, if_neg h1, hrd]
    | ok c =>
      cases hdm : Disk.decodeMetadata E c with
      | none => left; simp only [Disk.UploadHandler, hidx, if_neg h0, if_neg h1, hrd, hdm]
      | some md =>
        by_cases h2 : idx < 0 ∨ idx ≥ md.TotalChunks
        · left; simp only [Disk.UploadHandler, hidx, if_neg h0, if_neg h1, hrd, hdm, if_pos h2]
        by_cases h3 : (fs.stat (Disk.join (Disk.join Disk.StorageRoot u) md.Filename)).isFound
            = true
        · left
          simp only [Disk.UploadHandler, hidx, if_neg h0, if_neg h1, hrd, hdm, if_neg h2,
            if_pos h3]
        by_cases h4 : body.length = 0
        · left
          simp only [Disk.UploadHandler, hidx, if_neg h0, if_neg h1, hrd, hdm, if_neg h2,
            if_neg h3, if_pos h4]
        cases hex : Disk.existingChunk E fs
            (Disk.join (Disk.join Disk.StorageRoot u) (chunkName idx.toNat))
            (hashHex E.lib body) with
        | some e =>
          left
          simp only [Disk.UploadHandler, hidx, if_neg h0, if_neg h1, hrd, hdm, if_neg h2,
            if_neg h3, if_neg h4, hex]
        | none =>
          by_cases h5 : expectedHash md idx ≠ "" ∧ expectedHash md idx ≠ hashHex E.lib body
          · left
            simp only [Disk.UploadHandler, hidx, if_neg h0, if_neg h1, hrd, hdm, if_neg h2,
              if_neg h3, if_neg h4, hex, if_pos h5]
          · have he : Disk.UploadHandler E fs u idxStr cl body =
                Disk.storeChunk E fs (Disk.join Disk.StorageRoot u) idx body
                  (hashHex E.lib body) := by
              simp only [Disk.UploadHandler, hidx, if_neg h0, if_neg h1, hrd, hdm, if_neg h2,
                if_neg h3, if_neg h4, hex, if_neg h5]
            rw [he]
            unfold Disk.storeChunk
            simp only []
            split
            · left; rfl
            · split
              · right; right; right; rfl
              · right; left; exact ⟨_, _, rfl⟩

/-! ## Assembly over the file system -/

theorem pathString_sessionFile (u n : String) :
    Disk.pathString (Disk.sessionFile u n) = "storage/" ++ u ++ "/" ++ n := by
  simp [Disk.pathString, Disk.sessionFile, String.intercalate, String.intercalate.go]

section rep

variable {E : Disk.Env} {fs0 : Disk.FS} {u : String}

theorem rep_assemble (hs : Disk.Shape fs0) (hd : fs0.get (Disk.sessionDir u) = some .dir)
    (tmp : String) : ∀ (l : List Nat) (fs : Disk.FS) (d : Dir) (acc : List Nat),
    Disk.Rep fs0 u fs d →
    (∃ fs' d' data,
      Disk.assembleChunks E (Disk.sessionDir u) (Disk.sessionFile u tmp) l fs acc =
        .ok (fs', data) ∧
      assembleChunks E.lib tmp l d acc = .ok (d', data) ∧ Disk.Rep fs0 u fs' d' ∧
      ((d tmp).isSome = true → (d' tmp).isSome = true)) ∨
    (∃ i fs' d',
      Disk.assembleChunks E (Disk.sessionDir u) (Disk.sessionFile u tmp) l fs acc =
        .error (i, fs') ∧
      assembleChunks E.lib tmp l d acc = .error i ∧ Disk.Rep fs0 u fs' d' ∧
      ∀ n, n ≠ tmp → d' n = d n) := by
  intro l
  induction l with
  | nil =>
    intro fs d acc hr
    left
    exact ⟨fs, d, acc, rfl, rfl, hr, fun h => h⟩
  | cons i rest ih =>
    intro fs d acc hr
    simp only [Disk.assembleChunks, assembleChunks, join_session_chunk, rep_readFile hs hd hr]
    cases hc : d (chunkName i) with
    | none =>
      right
      exact ⟨i, fs, d, rfl, rfl, hr, fun _ _ => rfl⟩
    | some data =>
      simp only []
      rcases ih (fs.set (Disk.sessionFile u tmp) (.file (.raw (acc ++ data.bytes E.lib))))
        (d.write tmp (.raw (acc ++ data.bytes E.lib))) (acc ++ data.bytes E.lib)
        (rep_set hr _ _) with
        ⟨fs', d', out, h1, h2, h3, h4⟩ | ⟨j, fs', d', h1, h2, h3, h4⟩
      · left
        exact ⟨fs', d', out, h1, h2, h3, fun _ => h4 (by simp [Dir.write])⟩
      · right
        refine ⟨j, fs', d', h1, h2, h3, ?_⟩
        intro n hn
        rw [h4 n hn]
        simp [Dir.write, hn]

theorem rep_removeLoop (hs : Disk.Shape fs0) (hd : fs0.get (Disk.sessionDir u) = some .dir) :
    ∀ (l : List Nat) (fs : Disk.FS) (d : Dir), Disk.Rep fs0 u fs d →
    Disk.Rep fs0 u
      (l.foldl (fun fs i =>
        let chunkPath := Disk.join (Disk.sessionDir u) (chunkName i)
        let fs := (fs.remove chunkPath).getD fs
        (fs.remove (Disk.withSuffix chunkPath ".xxhash")).getD fs) fs)
      (l.foldl (fun d i => (d.remove (chunkName i)).remove (chunkName i ++ ".xxhash")) d) := by
  intro l
  induction l with
  | nil => intro fs d hr; exact hr
  | cons i rest ih =>
    intro fs d hr
    simp only [List.foldl_cons]
    apply ih
    simp only [join_session_chunk, withSuffix_sessionFile]
    exact rep_remove hs hd (rep_remove hs hd hr _) _

theorem rep_removeChunks (hs : Disk.Shape fs0) (hd : fs0.get (Disk.sessionDir u) = some .dir)
    {fs : Disk.FS} {d : Dir} (hr : Disk.Rep fs0 u fs d) (total : Int) :
    Disk.Rep fs0 u (Disk.removeChunks fs (Disk.sessionDir u) total) (removeChunks d total) :=
  rep_removeLoop hs hd _ fs d hr

end rep

/-- `CompleteHandler` over the file system answers as the handler of the session
model does on the storage the file system holds, when the names are plain. -/
theorem disk_complete_sim (E : Disk.Env) (fs : Disk.FS) (u : String) (hs : Disk.Shape fs)
    (hu : Disk.plainName u)
    (hty : ∀ d, Disk.toStore fs u = some d → Disk.TypedSession d) :
    (Disk.CompleteHandler E fs u).1 = .answer (CompleteHandler E.lib (Disk.toStore fs) u).1 ∧
    Disk.toStore (Disk.CompleteHandler E fs u).2 = (CompleteHandler E.lib (Disk.toStore fs) u).2 ∧
    Disk.Shape (Disk.CompleteHandler E fs u).2 := by
  rcases shape_get_dir hs u with hnone | hdir
  · have h1 : Disk.CompleteHandler E fs u = (.answer .metadataNotFound, fs) := by
      simp only [Disk.CompleteHandler, sessionDir_eq hu, join_session_metadata,
        Disk.FS.readFile, shape_stat_file_none hs hnone]
    have h2 : CompleteHandler E.lib (Disk.toStore fs) u =
        (.metadataNotFound, Disk.toStore fs) := by
      simp only [CompleteHandler, toStore_of_none hnone]
    rw [h1, h2]
    exact ⟨rfl, rfl, hs⟩
  · have hr := rep_refl hs u
    have hst := toStore_of_dir hdir
    obtain ⟨hmt, hrt, hname⟩ := hty _ hst
    cases hm : Disk.view fs u "metadata.json" with
    | none =>
      have h1 : Disk.CompleteHandler E fs u = (.answer .metadataNotFound, fs) := by
        simp only [Disk.CompleteHandler, sessionDir_eq hu, join_session_metadata,
          rep_readFile hs hdir hr, hm]
      have h2 : CompleteHandler E.lib (Disk.toStore fs) u =
          (.metadataNotFound, Disk.toStore fs) := by
        simp only [CompleteHandler, hst, hm]
      rw [h1, h2]
      exact ⟨rfl, rfl, hs⟩
    | some c =>
      cases c with
      | raw b => exact absurd hm (hmt b)
      | indexList arr =>
        have h1 : Disk.CompleteHandler E fs u = (.answer .invalidMetadata, fs) := by
          simp only [Disk.CompleteHandler, sessionDir_eq hu, join_session_metadata,
            rep_readFile hs hdir hr, hm, Disk.decodeMetadata]
        have h2 : CompleteHandler E.lib (Disk.toStore fs) u =
            (.invalidMetadata, Disk.toStore fs) := by
          simp only [CompleteHandler, hst, hm]
        rw [h1, h2]
        exact ⟨rfl, rfl, hs⟩
      | descriptor md =>
        have hF := hname md hm
        by_cases h1 : (Disk.view fs u).stat md.Filename = true
        · have e1 : Disk.CompleteHandler E fs u = (.answer .alreadyCompleted, fs) := by
            simp only [Disk.CompleteHandler, sessionDir_eq hu, join_session_metadata,
              rep_readFile hs hdir hr, hm, Disk.decodeMetadata,
              rep_stat_filename hs hdir hr hF, h1, if_true]
          have e2 : CompleteHandler E.lib (Disk.toStore fs) u =
              (.alreadyCompleted, Disk.toStore fs) := by
            simp only [CompleteHandler, hst, hm, h1, if_true]
          rw [e1, e2]
          exact ⟨rfl, rfl, hs⟩
        have hFp : Disk.plainName md.Filename := by
          rcases hF with h | h
          · rw [h] at h1; exact absurd rfl h1
          · exact h
        by_cases h2 : (missingChunks (ReadReceivedChunks (Disk.view fs u)) md.TotalChunks).length
            > 0
        · have e1 : Disk.CompleteHandler E fs u =
              (.answer (.incomplete (missingChunks (ReadReceivedChunks (Disk.view fs u))
                md.TotalChunks) (ReadReceivedChunks (Disk.view fs u)).length md.TotalChunks),
                fs) := by
            simp only [Disk.CompleteHandler, sessionDir_eq hu, join_session_metadata,
              rep_readFile hs hdir hr, hm, Disk.decodeMetadata,
              rep_stat_filename hs hdir hr hF, h1, rep_readReceived hs hdir hr hrt, h2,
              if_true, if_false]
            rfl
          have e2 : CompleteHandler E.lib (Disk.toStore fs) u =
              (.incomplete (missingChunks (ReadReceivedChunks (Disk.view fs u))
                md.TotalChunks) (ReadReceivedChunks (Disk.view fs u)).length md.TotalChunks,
                Disk.toStore fs) := by
            simp only [CompleteHandler, hst, hm, h1, h2, if_true, if_false]
            rfl
          rw [e1, e2]
          exact ⟨rfl, rfl, hs⟩
        have hstatF : (fs.stat (Disk.sessionFile u md.Filename)).isFound =
            (Disk.view fs u).stat md.Filename := by
          rw [← join_session_plain u hFp]
          exact rep_stat_filename hs hdir hr hF
        have hw := rep_set hr (md.Filename ++ ".part") (.raw [])
        rcases @rep_assemble E _ _ hs hdir (md.Filename ++ ".part")
            (List.range md.TotalChunks.toNat) _ _ [] hw with
          ⟨fs', d', data, hA, hB, hrep, hsome⟩ | ⟨i, fs', d', hA, hB, hrep, hsame⟩
        · by_cases h3 : md.FileHash ≠ "" ∧ md.FileHash ≠ hashHex E.lib data
          · have hrem := rep_remove hs hdir hrep (md.Filename ++ ".part")
            have e1 : Disk.CompleteHandler E fs u =
                (.answer (.overallHashMismatch md.FileHash (hashHex E.lib data)),
                  (fs'.remove (Disk.sessionFile u (md.Filename ++ ".part"))).getD fs') := by
              simp only [Disk.CompleteHandler, sessionDir_eq hu, join_session_metadata,
                rep_readFile hs hdir hr, hm, Disk.decodeMetadata,
                rep_stat_filename hs hdir hr hF, h1, rep_readReceived hs hdir hr hrt, h2,
                join_session_plain u hFp, hstatF, withSuffix_sessionFile,
                rep_writeFile hs hdir hr, hA,
                if_false, if_pos h3]
              rfl
            have e2 : CompleteHandler E.lib (Disk.toStore fs) u =
                (.overallHashMismatch md.FileHash (hashHex E.lib data),
                  (Disk.toStore fs).set u (some (d'.remove (md.Filename ++ ".part")))) := by
              simp only [CompleteHandler, hst, hm, h1, h2, hB, if_false, if_pos h3]
              rfl
            rw [e1, e2]
            exact ⟨rfl, rep_toStore hdir hrem, rep_shape hs hdir hrem⟩
          · obtain ⟨c, hc⟩ := Option.isSome_iff_exists.mp (hsome (by simp [Dir.write]))
            obtain ⟨fs2, hren, hrep2⟩ := rep_rename hs hdir hrep md.Filename hc
            have hrep3 := rep_removeChunks hs hdir hrep2 md.TotalChunks
            have hrep4 := rep_remove hs hdir hrep3 "received.json"
            have e1 : Disk.CompleteHandler E fs u =
                (.answer (.assembled ("storage/" ++ u ++ "/" ++ md.Filename)
                    (hashHex E.lib data) ("/static/" ++ u ++ "/" ++ md.Filename)),
                  ((Disk.removeChunks fs2 (Disk.sessionDir u) md.TotalChunks).remove
                    (Disk.sessionFile u "received.json")).getD
                    (Disk.removeChunks fs2 (Disk.sessionDir u) md.TotalChunks)) := by
              simp only [Disk.CompleteHandler, sessionDir_eq hu, join_session_metadata,
                rep_readFile hs hdir hr, hm, Disk.decodeMetadata,
                rep_stat_filename hs hdir hr hF, h1, rep_readReceived hs hdir hr hrt, h2,
                join_session_plain u hFp, hstatF, withSuffix_sessionFile,
                rep_writeFile hs hdir hr, hA,
                if_false, if_neg h3, hren, join_session_received, pathString_sessionFile]
              rfl
            have e2 : CompleteHandler E.lib (Disk.toStore fs) u =
                (.assembled ("storage/" ++ u ++ "/" ++ md.Filename)
                    (hashHex E.lib data) ("/static/" ++ u ++ "/" ++ md.Filename),
                  (Disk.toStore fs).set u (some
                    ((removeChunks (d'.rename (md.Filename ++ ".part") md.Filename)
                      md.TotalChunks).remove "received.json"))) := by
              simp only [CompleteHandler, hst, hm, h1, h2, hB, if_false, if_neg h3]
              rfl
            rw [e1, e2]
            exact ⟨rfl, rep_toStore hdir hrep4, rep_shape hs hdir hrep4⟩
        · have hrem := rep_remove hs hdir hrep (md.Filename ++ ".part")
          have hsame' : d'.remove (md.Filename ++ ".part") =
              ((Disk.view fs u).write (md.Filename ++ ".part") (.raw [])).remove
                (md.Filename ++ ".part") := by
            funext n
            by_cases hn : n = md.Filename ++ ".part"
            · simp [Dir.remove, hn]
            · simp only [Dir.remove, if_neg hn]
              exact hsame n hn
          rw [hsame'] at hrem
          have e1 : Disk.CompleteHandler E fs u =
              (.answer (.missingChunk i),
                (fs'.remove (Disk.sessionFile u (md.Filename ++ ".part"))).getD fs') := by
            simp only [Disk.CompleteHandler, sessionDir_eq hu, join_session_metadata,
              rep_readFile hs hdir hr, hm, Disk.decodeMetadata,
              rep_stat_filename hs hdir hr hF, h1, rep_readReceived hs hdir hr hrt, h2,
              join_session_plain u hFp, hstatF, withSuffix_sessionFile,
              rep_writeFile hs hdir hr, hA,
              if_false]
            rfl
          have e2 : CompleteHandler E.lib (Disk.toStore fs) u =
              (.missingChunk i,
                (Disk.toStore fs).set u (some
                  (((Disk.view fs u).write (md.Filename ++ ".part") (.raw [])).remove
                    (md.Filename ++ ".part")))) := by
            simp only [CompleteHandler, hst, hm, h1, h2, hB, if_false]
            rfl
          rw [e1, e2]
          exact ⟨rfl, rep_toStore hdir hrem, rep_shape hs hdir hrem⟩

/-! ## Cleanup and create over the file system -/

theorem get_eraseTree_session (fs : Disk.FS) (u : String) :
    (fs.eraseTree (Disk.sessionDir u)).get [] = fs.get [] ∧
    (fs.eraseTree (Disk.sessionDir u)).get ["storage"] = fs.get ["storage"] ∧
    (∀ v, (fs.eraseTree (Disk.sessionDir u)).get (Disk.sessionDir v) =
      if v = u then none else fs.get (Disk.sessionDir v)) ∧
    (∀ v n, (fs.eraseTree (Disk.sessionDir u)).get (Disk.sessionFile v n) =
      if v = u then none else fs.get (Disk.sessionFile v n)) := by
  refine ⟨?_, ?_, ?_, ?_⟩
  · rw [get_eraseTree]; simp [Disk.sessionDir, List.isPrefixOf]
  · rw [get_eraseTree]; simp [Disk.sessionDir, List.isPrefixOf]
  · intro v
    rw [get_eraseTree]
    by_cases hv : v = u
    · subst hv; simp [Disk.sessionDir, List.isPrefixOf]
    · have hv' : ¬ u = v := fun e => hv e.symm
      simp [Disk.sessionDir, List.isPrefixOf, hv, hv']
  · intro v n
    rw [get_eraseTree]
    by_cases hv : v = u
    · subst hv; simp [Disk.sessionDir, Disk.sessionFile, List.isPrefixOf]
    · have hv' : ¬ u = v := fun e => hv e.symm
      simp [Disk.sessionDir, Disk.sessionFile, List.isPrefixOf, hv, hv']

theorem shape_eraseTree {fs : Disk.FS} (hs : Disk.Shape fs) (u : String) :
    Disk.Shape (fs.eraseTree (Disk.sessionDir u)) ∧
    Disk.toStore (fs.eraseTree (Disk.sessionDir u)) = (Disk.toStore fs).set u none := by
  obtain ⟨h0, h1, h2, h3⟩ := get_eraseTree_session fs u
  refine ⟨⟨by rw [h0, hs.cwd], by rw [h1, hs.root], ?_, ?_, ?_⟩, ?_⟩
  · intro v c
    rw [h2]
    split
    · simp
    · exact hs.sess v c
  · intro v n
    rw [h3]
    split
    · simp
    · exact hs.files v n
  · intro v n h
    rw [h3] at h
    rw [h2]
    split at h
    · exact absurd rfl h
    · rename_i hv
      rw [if_neg hv]
      exact hs.closed v n h
  · funext v
    simp only [Disk.toStore, Store.set, h2]
    by_cases hv : v = u
    · simp [hv]
    · simp only [if_neg hv]
      have : Disk.view (fs.eraseTree (Disk.sessionDir u)) v = Disk.view fs v := by
        funext n
        simp only [Disk.view, h3, if_neg hv]
      rw [this]

/-- `CleanupHandler` over the file system answers as the handler of the session
model does on the storage the file system holds, when the names are plain. -/
theorem disk_cleanup_sim (E : Disk.Env) (fs : Disk.FS) (u : String) (hs : Disk.Shape fs)
    (hu : Disk.plainName u)
    (hty : ∀ d, Disk.toStore fs u = some d → Disk.TypedSession d) :
    (Disk.CleanupHandler E fs u).1 = .answer (CleanupHandler (Disk.toStore fs) u).1 ∧
    Disk.toStore (Disk.CleanupHandler E fs u).2 = (CleanupHandler (Disk.toStore fs) u).2 ∧
    Disk.Shape (Disk.CleanupHandler E fs u).2 := by
  rcases shape_get_dir hs u with hnone | hdir
  · have h1 : Disk.CleanupHandler E fs u = (.answer .sessionNotFound, fs) := by
      simp only [Disk.CleanupHandler, sessionDir_eq hu, shape_stat_dir_none hs hnone, if_true]
    have h2 : CleanupHandler (Disk.toStore fs) u = (.sessionNotFound, Disk.toStore fs) := by
      simp only [CleanupHandler, toStore_of_none hnone]
    rw [h1, h2]
    exact ⟨rfl, rfl, hs⟩
  · have hr := rep_refl hs u
    have hst := toStore_of_dir hdir
    obtain ⟨hmt, hrt, hname⟩ := hty _ hst
    have hstat : fs.stat (Disk.sessionDir u) ≠ .notExist := by
      rw [rep_stat_dir hs hdir hr]; simp
    have hrm : fs.removeAll (Disk.sessionDir u) = some (fs.eraseTree (Disk.sessionDir u)) := by
      have hne : Disk.sessionDir u ≠ [] := by simp [Disk.sessionDir]
      simp only [Disk.FS.removeAll, if_neg hne, rep_stat_dir hs hdir hr]
    cases hm : Disk.view fs u "metadata.json" with
    | none =>
      have e1 : Disk.CleanupHandler E fs u =
          (.answer (.deleted u), fs.eraseTree (Disk.sessionDir u)) := by
        simp only [Disk.CleanupHandler, sessionDir_eq hu, if_neg hstat, join_session_metadata,
          rep_readFile hs hdir hr, hm, hrm]
        rfl
      have e2 : CleanupHandler (Disk.toStore fs) u =
          (.deleted u, (Disk.toStore fs).set u none) := by
        simp only [CleanupHandler, hst, hm]
        rfl
      rw [e1, e2]
      exact ⟨rfl, (shape_eraseTree hs u).2, (shape_eraseTree hs u).1⟩
    | some c =>
      cases c with
      | raw b => exact absurd hm (hmt b)
      | indexList arr =>
        have e1 : Disk.CleanupHandler E fs u =
            (.answer (.deleted u), fs.eraseTree (Disk.sessionDir u)) := by
          simp only [Disk.CleanupHandler, sessionDir_eq hu, if_neg hstat, join_session_metadata,
            rep_readFile hs hdir hr, hm, hrm, Disk.decodeMetadata]
          rfl
        have e2 : CleanupHandler (Disk.toStore fs) u =
            (.deleted u, (Disk.toStore fs).set u none) := by
          simp only [CleanupHandler, hst, hm]
          rfl
        rw [e1, e2]
        exact ⟨rfl, (shape_eraseTree hs u).2, (shape_eraseTree hs u).1⟩
      | descriptor md =>
        have hF := hname md hm
        have e1 : Disk.CleanupHandler E fs u =
            if (Disk.view fs u).stat md.Filename = true then (.answer .forbidden, fs)
            else (.answer (.deleted u), fs.eraseTree (Disk.sessionDir u)) := by
          simp only [Disk.CleanupHandler, sessionDir_eq hu, if_neg hstat, join_session_metadata,
            rep_readFile hs hdir hr, hm, hrm, Disk.decodeMetadata,
            rep_stat_filename hs hdir hr hF]
        rw [e1, cleanup_eq _ u hst hm]
        split
        · exact ⟨rfl, rfl, hs⟩
        · exact ⟨rfl, (shape_eraseTree hs u).2, (shape_eraseTree hs u).1⟩

theorem store_set_set (s : Store) (u : String) (a b : Option Dir) :
    (s.set u a).set u b = s.set u b := by
  funext v
  simp only [Store.set]
  split <;> rfl

theorem shape_mkdirAll {fs : Disk.FS} (hs : Disk.Shape fs) (u : String) :
    ∃ fs1, fs.mkdirAll (Disk.sessionDir u) = some fs1 ∧ Disk.Shape fs1 ∧
      fs1.get (Disk.sessionDir u) = some .dir ∧
      Disk.toStore fs1 = (Disk.toStore fs).set u (some ((Disk.toStore fs u).getD Dir.empty)) := by
  rcases shape_get_dir hs u with hnone | hdir
  · refine ⟨fs.set (Disk.sessionDir u) .dir, ?_, ?_, ?_, ?_⟩
    · have h2 := hnone
      simp only [Disk.sessionDir] at h2
      simp [Disk.FS.mkdirAll, Disk.FS.mkdirs, Disk.sessionDir, hs.cwd, hs.root, h2, get_set]
    · refine ⟨?_, ?_, ?_, ?_, ?_⟩
      · rw [get_set]; simp [Disk.sessionDir, hs.cwd]
      · rw [get_set]; simp [Disk.sessionDir, hs.root]
      · intro v c
        rw [get_set]
        split
        · simp
        · exact hs.sess v c
      · intro v n
        rw [get_set]
        simp only [Disk.sessionDir, Disk.sessionFile, List.cons.injEq, List.cons_ne_nil,
          and_false, if_false]
        exact hs.files v n
      · intro v n h
        rw [get_set] at h
        simp only [Disk.sessionDir, Disk.sessionFile, List.cons.injEq, List.cons_ne_nil,
          and_false, if_false] at h
        rw [get_set]
        split
        · rfl
        · exact hs.closed v n h
    · rw [get_set]; simp
    · funext v
      simp only [Disk.toStore, Store.set, get_set]
      have hview : ∀ w, Disk.view (fs.set (Disk.sessionDir u) .dir) w = Disk.view fs w := by
        intro w
        funext n
        simp [Disk.view, get_set, Disk.sessionDir, Disk.sessionFile]
      by_cases hv : v = u
      · subst hv
        simp only [if_true, hnone, Option.getD_none, hview]
        congr 1
        funext n
        simp only [Disk.view, Dir.empty]
        cases hf : fs.get (Disk.sessionFile v n) with
        | none => rfl
        | some nd =>
          have := hs.closed v n (by rw [hf]; simp)
          rw [hnone] at this
          cases this
      · have hne : Disk.sessionDir v ≠ Disk.sessionDir u := by
          simpa [Disk.sessionDir] using hv
        simp only [if_neg hne, if_neg hv, hview]
  · refine ⟨fs, ?_, hs, hdir, ?_⟩
    · have h2 := hdir
      simp only [Disk.sessionDir] at h2
      simp [Disk.FS.mkdirAll, Disk.FS.mkdirs, Disk.sessionDir, hs.cwd, hs.root, h2]
    · funext v
      simp only [Store.set]
      split
      · rename_i hv
        subst hv
        simp [toStore_of_dir hdir]
      · rfl

/-- `InitHandler` over the file system answers as the handler of the session
model does on the storage the file system holds, when the upload id is plain. -/
theorem disk_init_sim (fs : Disk.FS) (md : Metadata) (fresh : String) (hs : Disk.Shape fs)
    (hu : Disk.plainName md.UploadID) :
    (Disk.InitHandler fs md fresh).1 = .answer (InitHandler (Disk.toStore fs) md fresh).1 ∧
    Disk.toStore (Disk.InitHandler fs md fresh).2 = (InitHandler (Disk.toStore fs) md fresh).2 ∧
    Disk.Shape (Disk.InitHandler fs md fresh).2 := by
  have hid : md.UploadID ≠ "" := hu.1
  have hu' : (if md.ShareID = "" then { md with ShareID := fresh } else md).UploadID =
      md.UploadID := by split <;> rfl
  obtain ⟨fs1, hmk, hs1, hd1, hst1⟩ := shape_mkdirAll hs md.UploadID
  have hr1 := rep_refl hs1 md.UploadID
  have hview : Disk.view fs1 md.UploadID = (Disk.toStore fs md.UploadID).getD Dir.empty := by
    have h := congrFun hst1 md.UploadID
    rw [toStore_of_dir hd1] at h
    simpa [Store.set] using h
  have hr2 := rep_set hr1 "metadata.json"
    (.descriptor (if md.ShareID = "" then { md with ShareID := fresh } else md))
  have hr3 := rep_set hr2 "received.json" (.indexList [])
  have e1 : Disk.InitHandler fs md fresh =
      (.answer (.created md.UploadID
        (if md.ShareID = "" then { md with ShareID := fresh } else md).ShareID),
        (fs1.set (Disk.sessionFile md.UploadID "metadata.json")
          (.file (.descriptor (if md.ShareID = "" then { md with ShareID := fresh } else md)))).set
          (Disk.sessionFile md.UploadID "received.json") (.file (.indexList []))) := by
    simp only [Disk.InitHandler, if_neg hid, hu', sessionDir_eq hu, hmk, join_session_metadata,
      join_session_received, rep_writeFile hs1 hd1 hr1, rep_writeFile hs1 hd1 hr2,
      Option.getD_some]
  have e2 : InitHandler (Disk.toStore fs) md fresh =
      (.created md.UploadID
        (if md.ShareID = "" then { md with ShareID := fresh } else md).ShareID,
        (Disk.toStore fs).set md.UploadID (some
          ((((Disk.toStore fs md.UploadID).getD Dir.empty).write "metadata.json"
            (.descriptor (if md.ShareID = "" then { md with ShareID := fresh } else md))).write
            "received.json" (.indexList [])))) := by
    simp only [InitHandler, if_neg hid, hu']
  rw [e1, e2]
  refine ⟨rfl, ?_, rep_shape hs1 hd1 hr3⟩
  rw [rep_toStore hd1 hr3, hst1, store_set_set, hview]

/-! ## Requests with plain names -/

theorem init_store (s : Store) (md : Metadata) (fresh : String) (hid : md.UploadID ≠ "") :
    (InitHandler s md fresh).2 = s.set md.UploadID (some
      ((((s md.UploadID).getD Dir.empty).write "metadata.json"
        (.descriptor (if md.ShareID = "" then { md with ShareID := fresh } else md))).write
        "received.json" (.indexList []))) := by
  have hu : (if md.ShareID = "" then { md with ShareID := fresh } else md).UploadID =
      md.UploadID := by split <;> rfl
  simp only [InitHandler, if_neg hid, hu]

/-- The received list file of a session of the session model never holds raw
bytes. -/
theorem step_received_typed (L : Lib) (s : Store) (op : Op)
    (h : ∀ u d b, s u = some d → d "received.json" ≠ some (.raw b)) :
    ∀ u d b, step L s op u = some d → d "received.json" ≠ some (.raw b) := by
  intro u d b hd
  cases op with
  | init md fresh =>
    simp only [step] at hd
    by_cases hid : md.UploadID = ""
    · simp only [InitHandler, if_pos hid] at hd
      exact h u d b hd
    · rw [init_store s md fresh hid] at hd
      simp only [Store.set] at hd
      split at hd
      · cases hd
        simp [Dir.write]
      · exact h u d b hd
  | upload u0 idx cl body =>
    simp only [step] at hd
    rcases upload_cases L s u0 idx cl body with e | ⟨d0, md, hd0, -, -, -, -, -, -, he⟩
    · rw [e] at hd; exact h u d b hd
    · rw [he] at hd
      simp only [Store.set] at hd
      split at hd
      · cases hd
        rw [storeChunk_received_file]
        simp
      · exact h u d b hd
  | complete u0 =>
    simp only [step] at hd
    rcases complete_cases L s u0 with e | ⟨d0, md, hd0, -, -, e | ⟨data, e⟩⟩
    · rw [e] at hd; exact h u d b hd
    · rw [e] at hd
      simp only [Store.set] at hd
      split at hd
      · cases hd
        simp only [Dir.remove, if_neg (append_part_ne_received _).symm]
        exact h u0 d0 b hd0
      · exact h u d b hd
    · rw [e] at hd
      simp only [Store.set] at hd
      split at hd
      · cases hd
        rw [assembledDir_received]
        simp
      · exact h u d b hd
  | cleanup u0 =>
    simp only [step] at hd
    rcases cleanup_cases s u0 with e | e
    · rw [e] at hd; exact h u d b hd
    · rw [e] at hd
      simp only [Store.set] at hd
      split at hd
      · cases hd
      · exact h u d b hd

theorem reachable_received_typed {L : Lib} {s : Store} (hr : Reachable L s) :
    ∀ u d b, s u = some d → d "received.json" ≠ some (.raw b) := by
  obtain ⟨ops, rfl⟩ := hr
  have : ∀ (ops : List Op) (s : Store),
      (∀ u d b, s u = some d → d "received.json" ≠ some (.raw b)) →
      ∀ u d b, run L s ops u = some d → d "received.json" ≠ some (.raw b) := by
    intro ops
    induction ops with
    | nil => intro s h; exact h
    | cons op rest ih =>
      intro s h
      exact ih (step L s op) (step_received_typed L s op h)
  exact this ops Store.empty (fun u d b hd => by simp [Store.empty] at hd)

/-- A request whose descriptor names a plain file keeps the filenames of the
stored descriptors plain. -/
theorem step_plainNames (L : Lib) (s : Store) (op : Op)
    (hop : ∀ md fresh, op = .init md fresh → md.Filename = "" ∨ Disk.plainName md.Filename)
    (h : Disk.PlainNames s) : Disk.PlainNames (step L s op) := by
  intro u d' md' hd' hmd'
  by_cases hinit : ∃ md fresh, op = .init md fresh
  · obtain ⟨md, fresh, rfl⟩ := hinit
    have hsafe := hop md fresh rfl
    simp only [step] at hd'
    by_cases hid : md.UploadID = ""
    · simp only [InitHandler, if_pos hid] at hd'
      exact h u d' md' hd' hmd'
    · rw [init_store s md fresh hid] at hd'
      simp only [Store.set] at hd'
      split at hd'
      · cases hd'
        simp only [Dir.write, if_true] at hmd'
        rw [if_neg (by decide)] at hmd'
        simp only [Option.some.injEq, FileData.descriptor.injEq] at hmd'
        rw [← hmd']
        split <;> exact hsafe
      · exact h u d' md' hd' hmd'
  · have hop' : ∀ md fresh, op ≠ .init md fresh := fun md fresh e => hinit ⟨md, fresh, e⟩
    rcases step_dom L s op u (by rw [hd']; rfl) with hs | ⟨md, fresh, e, -⟩
    · obtain ⟨d, hd⟩ := Option.isSome_iff_exists.mp hs
      have := step_metadata L s op u d d' hop' hd hd'
      rw [this] at hmd'
      exact h u d md' hd hmd'
    · exact absurd e (hop' md fresh)

theorem reachable_run {L : Lib} (ops : List Op) : ∀ {s : Store}, Reachable L s →
    Reachable L (run L s ops) := by
  induction ops with
  | nil => intro s h; exact h
  | cons op rest ih => intro s h; exact ih (reachable_step h op)

/-- In a storage that requests with plain filenames produced, the JSON files of
every session hold documents the handlers wrote. -/
theorem typed_of_reachable {L : Lib} {s : Store} (hr : Reachable L s) (hp : Disk.PlainNames s)
    {u : String} {d : Dir} (hd : s u = some d) : Disk.TypedSession d := by
  obtain ⟨md, hmd, -, -, -⟩ := reachable_inv hr u d hd
  refine ⟨?_, fun b => reachable_received_typed hr u d b hd, fun md' hmd' => hp u d md' hd hmd'⟩
  intro b e
  rw [hmd] at e
  cases e

/-- One request with plain names: the file system keeps its shape, and the
storage it holds is the storage the session model reaches by the same
request. -/
theorem disk_step_sim (E : Disk.Env) (fs : Disk.FS) (op : Disk.Op) (hs : Disk.Shape fs)
    (hp : op.Plain) (hty : ∀ u d, Disk.toStore fs u = some d → Disk.TypedSession d) :
    Disk.Shape (Disk.step E fs op) ∧
    Disk.toStore (Disk.step E fs op) = run E.lib (Disk.toStore fs) op.flat := by
  cases op with
  | init md fresh =>
    obtain ⟨-, h2, h3⟩ := disk_init_sim fs md fresh hs hp.1
    exact ⟨h3, h2⟩
  | upload u idxStr cl body =>
    cases hidx : Disk.atoi idxStr with
    | none =>
      have : Disk.step E fs (.upload u idxStr cl body) = fs := by
        simp only [Disk.step, Disk.UploadHandler, hidx]
      rw [this]
      simp only [Disk.Op.flat, hidx]
      exact ⟨hs, rfl⟩
    | some idx =>
      obtain ⟨-, h2, h3⟩ := disk_upload_sim E fs u idxStr idx cl body hs hp hidx (hty u)
      simp only [Disk.Op.flat, hidx]
      exact ⟨h3, h2⟩
  | complete u =>
    obtain ⟨-, h2, h3⟩ := disk_complete_sim E fs u hs hp (hty u)
    exact ⟨h3, h2⟩
  | cleanup u =>
    obtain ⟨-, h2, h3⟩ := disk_cleanup_sim E fs u hs hp (hty u)
    exact ⟨h3, h2⟩

theorem shape_initial : Disk.Shape Disk.FS.initial := by
  refine ⟨by decide, by decide, ?_, ?_, ?_⟩
  · intro u c
    simp [Disk.FS.initial, Disk.FS.get, storageRoot_eq, Disk.sessionDir]
  · intro u n
    simp [Disk.FS.initial, Disk.FS.get, storageRoot_eq, Disk.sessionFile]
  · intro u n h
    simp [Disk.FS.initial, Disk.FS.get, storageRoot_eq, Disk.sessionFile] at h

theorem toStore_initial : Disk.toStore Disk.FS.initial = Store.empty := by
  funext u
  simp [Disk.toStore, Disk.FS.initial, Disk.FS.get, storageRoot_eq, Disk.sessionDir, Store.empty]

theorem flat_plain (E : Disk.Env) (op : Disk.Op) (hp : op.Plain) (s : Store)
    (h : Disk.PlainNames s) : Disk.PlainNames (run E.lib s op.flat) := by
  cases op with
  | init md fresh =>
    exact step_plainNames E.lib s (.init md fresh)
      (fun md' fresh' e => by cases e; exact hp.2) h
  | upload u idxStr cl body =>
    simp only [Disk.Op.flat]
    cases Disk.atoi idxStr with
    | none => exact h
    | some idx =>
      exact step_plainNames E.lib s (.upload u idx cl body) (fun md' fresh' e => by cases e) h
  | complete u => exact step_plainNames E.lib s (.complete u) (fun md' fresh' e => by cases e) h
  | cleanup u => exact step_plainNames E.lib s (.cleanup u) (fun md' fresh' e => by cases e) h

theorem flat_plainIds (E : Disk.Env) (op : Disk.Op) (hp : op.Plain) (s : Store)
    (h : Disk.PlainIds s) : Disk.PlainIds (run E.lib s op.flat) := by
  intro u hu
  rcases run_dom E.lib op.flat s u hu with h0 | ⟨md, fresh, hm, rfl⟩
  · exact h u h0
  · cases op with
    | init md0 fresh0 =>
      simp only [Disk.Op.flat, List.mem_singleton, Op.init.injEq] at hm
      rw [hm.1]
      exact hp.1
    | upload u0 idxStr cl body =>
      simp only [Disk.Op.flat] at hm
      cases hidx : Disk.atoi idxStr with
      | none => rw [hidx] at hm; simp at hm
      | some idx => rw [hidx] at hm; simp at hm
    | complete u0 => simp [Disk.Op.flat] at hm
    | cleanup u0 => simp [Disk.Op.flat] at hm

theorem run_good (E : Disk.Env) (ops : List Disk.Op) : ∀ fs : Disk.FS,
    (∀ op ∈ ops, op.Plain) → Disk.Shape fs → Reachable E.lib (Disk.toStore fs) →
    Disk.PlainNames (Disk.toStore fs) → Disk.PlainIds (Disk.toStore fs) →
    Disk.Shape (Disk.run E fs ops) ∧ Reachable E.lib (Disk.toStore (Disk.run E fs ops)) ∧
      Disk.PlainNames (Disk.toStore (Disk.run E fs ops)) ∧
      Disk.PlainIds (Disk.toStore (Disk.run E fs ops)) := by
  induction ops with
  | nil => intro fs _ h1 h2 h3 h4; exact ⟨h1, h2, h3, h4⟩
  | cons op rest ih =>
    intro fs hp h1 h2 h3 h4
    have hop := hp op (List.mem_cons_self _ _)
    obtain ⟨g1, g2⟩ := disk_step_sim E fs op h1 hop
      (fun u d hd => typed_of_reachable h2 h3 hd)
    apply ih (Disk.step E fs op) (fun o ho => hp o (List.mem_cons_of_mem _ ho)) g1
    · rw [g2]; exact reachable_run _ h2
    · rw [g2]; exact flat_plain E op hop _ h3
    · rw [g2]; exact flat_plainIds E op hop _ h4

/-- A file system that requests with plain names produced has the shape of a
storage of sessions, and the storage it holds is one the session model
reaches. -/
theorem plainReachable_good {E : Disk.Env} {fs : Disk.FS} (h : Disk.PlainReachable E fs) :
    Disk.Shape fs ∧ Reachable E.lib (Disk.toStore fs) ∧ Disk.PlainNames (Disk.toStore fs) ∧
      Disk.PlainIds (Disk.toStore fs) := by
  obtain ⟨ops, hp, rfl⟩ := h
  apply run_good E ops _ hp shape_initial
  · rw [toStore_initial]; exact ⟨[], rfl⟩
  · rw [toStore_initial]
    intro u d md hd
    simp [Store.empty] at hd
  · rw [toStore_initial]
    intro u hu
    simp [Store.empty] at hu

theorem plainReachable_typed {E : Disk.Env} {fs : Disk.FS} (h : Disk.PlainReachable E fs)
    (u : String) (d : Dir) (hd : Disk.toStore fs u = some d) : Disk.TypedSession d :=
  typed_of_reachable (plainReachable_good h).2.1 (plainReachable_good h).2.2.1 hd

theorem plainReachable_step {E : Disk.Env} {fs : Disk.FS} (h : Disk.PlainReachable E fs)
    {op : Disk.Op} (hp : op.Plain) : Disk.PlainReachable E (Disk.step E fs op) := by
  obtain ⟨ops, hops, rfl⟩ := h
  refine ⟨ops ++ [op], ?_, by simp [Disk.run, List.foldl_append]⟩
  intro o ho
  rcases List.mem_append.mp ho with h1 | h1
  · exact hops o h1
  · rw [List.mem_singleton.mp h1]; exact hp

/-! ## Reading the file system as a storage of sessions -/

theorem shape_get_file {fs : Disk.FS} (hs : Disk.Shape fs) (u n : String) :
    fs.get (Disk.sessionFile u n) = (Disk.view fs u n).map Disk.Node.file := by
  have h := rep_get_file (rep_refl hs u) n
  exact h

theorem view_of_get {fs : Disk.FS} {u n : String} {c : FileData}
    (h : fs.get (Disk.sessionFile u n) = some (.file c)) : Disk.view fs u n = some c := by
  simp [Disk.view, h]

theorem toStore_of_get {fs : Disk.FS} (hs : Disk.Shape fs) {u n : String} {c : FileData}
    (h : fs.get (Disk.sessionFile u n) = some (.file c)) :
    Disk.toStore fs u = some (Disk.view fs u) :=
  toStore_of_dir (hs.closed u n (by rw [h]; simp))

theorem get_of_toStore {fs : Disk.FS} {u n : String} {d : Dir} {c : FileData}
    (hd : Disk.toStore fs u = some d) (hc : d n = some c) :
    fs.get (Disk.sessionFile u n) = some (.file c) := by
  simp only [Disk.toStore] at hd
  split at hd
  · cases hd
    simp only [Disk.view] at hc
    split at hc
    · rename_i c' hg
      cases hc
      exact hg
    · cases hc
  · cases hd

theorem get_none_of_toStore {fs : Disk.FS} (hs : Disk.Shape fs) {u n : String} {d : Dir}
    (hd : Disk.toStore fs u = some d) (hc : d n = none) :
    fs.get (Disk.sessionFile u n) = none := by
  simp only [Disk.toStore] at hd
  split at hd
  · cases hd
    rw [shape_get_file hs, hc]
    rfl
  · cases hd

theorem toStore_dir {fs : Disk.FS} {u : String} {d : Dir}
    (hd : Disk.toStore fs u = some d) :
    fs.get (Disk.sessionDir u) = some .dir ∧ d = Disk.view fs u := by
  simp only [Disk.toStore] at hd
  split at hd
  · rename_i h
    cases hd
    exact ⟨h, rfl⟩
  · cases hd

theorem toStore_none_iff {fs : Disk.FS} (hs : Disk.Shape fs) (u : String) :
    Disk.toStore fs u = none ↔ fs.get (Disk.sessionDir u) = none := by
  rcases shape_get_dir hs u with h | h
  · simp [toStore_of_none h, h]
  · simp [toStore_of_dir h, h]

/-- In a file system with the shape of a storage of sessions, the received list
the file-system handlers read is the one of the session model. -/
theorem disk_readReceived {E : Disk.Env} {fs : Disk.FS} (hs : Disk.Shape fs) {u : String}
    {d : Dir} (hd : Disk.toStore fs u = some d) (hty : Disk.TypedSession d) :
    Disk.ReadReceivedChunks E fs (Disk.sessionDir u) = ReadReceivedChunks d := by
  obtain ⟨hdir, rfl⟩ := toStore_dir hd
  exact rep_readReceived hs hdir (rep_refl hs u) hty.2.1

theorem disk_stat_filename {fs : Disk.FS} (hs : Disk.Shape fs) {u : String}
    {d : Dir} (hd : Disk.toStore fs u = some d) {F : String}
    (hF : F = "" ∨ Disk.plainName F) :
    (fs.stat (Disk.join (Disk.sessionDir u) F)).isFound = d.stat F := by
  obtain ⟨hdir, rfl⟩ := toStore_dir hd
  exact rep_stat_filename hs hdir (rep_refl hs u) hF

/-- A sequence of requests with plain names: the storage the file system holds
afterwards is the one the session model reaches by the same requests. -/
theorem disk_run_sim (E : Disk.Env) (ops : List Disk.Op) : ∀ fs : Disk.FS,
    (∀ op ∈ ops, op.Plain) → Disk.PlainReachable E fs →
    Disk.toStore (Disk.run E fs ops) =
      run E.lib (Disk.toStore fs) (ops.flatMap Disk.Op.flat) := by
  induction ops with
  | nil => intro fs _ _; rfl
  | cons op rest ih =>
    intro fs hp hr
    have hop := hp op (List.mem_cons_self _ _)
    obtain ⟨hs, -, -, -⟩ := plainReachable_good hr
    obtain ⟨-, g2⟩ := disk_step_sim E fs op hs hop (plainReachable_typed hr)
    have := ih (Disk.step E fs op) (fun o ho => hp o (List.mem_cons_of_mem _ ho))
      (plainReachable_step hr hop)
    simp only [Disk.run, List.foldl_cons] at this ⊢
    rw [this, g2]
    simp [run, List.flatMap_cons, List.foldl_append]

theorem plainReachable_run {E : Disk.Env} {fs : Disk.FS} (h : Disk.PlainReachable E fs)
    (ops : List Disk.Op) (hp : ∀ op ∈ ops, op.Plain) :
    Disk.PlainReachable E (Disk.run E fs ops) := by
  induction ops generalizing fs with
  | nil => exact h
  | cons op rest ih =>
    exact ih (plainReachable_step h (hp op (List.mem_cons_self _ _)))
      (fun o ho => hp o (List.mem_cons_of_mem _ ho))

/-! ## C1: idempotent re-ingestion -/

theorem plainReachable_session {E : Disk.Env} {fs : Disk.FS} (hr : Disk.PlainReachable E fs)
    {u : String} {md : Metadata}
    (hmd : fs.get (Disk.sessionFile u "metadata.json") = some (.file (.descriptor md))) :
    Disk.toStore fs u = some (Disk.view fs u) ∧
    Disk.view fs u "metadata.json" = some (.descriptor md) ∧
    Disk.TypedSession (Disk.view fs u) ∧ (md.Filename = "" ∨ Disk.plainName md.Filename) := by
  obtain ⟨hs, -, hnames, -⟩ := plainReachable_good hr
  have hst := toStore_of_get hs hmd
  have hvm := view_of_get hmd
  exact ⟨hst, hvm, plainReachable_typed hr u _ hst, hnames u _ md hst hvm⟩

/-- What `CompleteHandler` does to the file system: nothing, unless it created
the temporary output. -/
theorem disk_complete_cases (E : Disk.Env) (fs : Disk.FS) (u : String) :
    (Disk.CompleteHandler E fs u).2 = fs ∨
    (∃ i, (Disk.CompleteHandler E fs u).1 = .answer (.missingChunk i)) ∨
    (∃ a b, (Disk.CompleteHandler E fs u).1 = .answer (.overallHashMismatch a b)) ∨
    (Disk.CompleteHandler E fs u).1 = .renameFailed ∨
    (∃ a b c, (Disk.CompleteHandler E fs u).1 = .answer (.assembled a b c)) := by
  cases hrd : fs.readFile (Disk.join (Disk.join Disk.StorageRoot u) "metadata.json") with
  | notExist => left; simp only [Disk.CompleteHandler, hrd]
  | failed => left; simp only [Disk.CompleteHandler, hrd]
  | ok c =>
    cases hdm : Disk.decodeMetadata E c with
    | none => left; simp only [Disk.CompleteHandler, hrd, hdm]
    | some md =>
      by_cases h1 : (fs.stat (Disk.join (Disk.join Disk.StorageRoot u) md.Filename)).isFound
          = true
      · left; simp only [Disk.CompleteHandler, hrd, hdm, if_pos h1]
      by_cases h2 : (missingChunks (Disk.ReadReceivedChunks E fs (Disk.join Disk.StorageRoot u))
          md.TotalChunks).length > 0
      · left; simp only [Disk.CompleteHandler, hrd, hdm, if_neg h1, if_pos h2]
      cases hw : fs.writeFile (Disk.withSuffix
          (Disk.join (Disk.join Disk.StorageRoot u) md.Filename) ".part") (.raw []) with
      | none => left; simp only [Disk.CompleteHandler, hrd, hdm, if_neg h1, if_neg h2, hw]
      | some fs1 =>
        cases ha : Disk.assembleChunks E (Disk.join Disk.StorageRoot u)
            (Disk.withSuffix (Disk.join (Disk.join Disk.StorageRoot u) md.Filename) ".part")
            (List.range md.TotalChunks.toNat) fs1 [] with
        | error e =>
          right; left
          exact ⟨e.1, by simp only [Disk.CompleteHandler, hrd, hdm, if_neg h1, if_neg h2, hw, ha]⟩
        | ok r =>
          by_cases h3 : md.FileHash ≠ "" ∧ md.FileHash ≠ hashHex E.lib r.2
          · right; right; left
            refine ⟨md.FileHash, hashHex E.lib r.2, ?_⟩
            simp only [Disk.CompleteHandler, hrd, hdm, if_neg h1, if_neg h2, hw, ha, if_pos h3]
          · cases hren : r.1.rename (Disk.withSuffix
                (Disk.join (Disk.join Disk.StorageRoot u) md.Filename) ".part")
                (Disk.join (Disk.join Disk.StorageRoot u) md.Filename) with
            | none =>
              right; right; right; left
              simp only [Disk.CompleteHandler, hrd, hdm, if_neg h1, if_neg h2, hw, ha, if_neg h3,
                hren]
            | some fs2 =>
              right; right; right; right
              refine ⟨Disk.pathString (Disk.join (Disk.join Disk.StorageRoot u) md.Filename),
                hashHex E.lib r.2, "/static/" ++ u ++ "/" ++ md.Filename, ?_⟩
              simp only [Disk.CompleteHandler, hrd, hdm, if_neg h1, if_neg h2, hw, ha,
                if_neg h3, hren]

/-- C3, as stated, fails: in the session with filename `a/b` whose only chunk
"A" was received, whose file named by the descriptor does not exist and which
declares no file hash, `CompleteHandler` cannot create its temporary output
`storage/u1/a/b.part` (there is no directory `storage/u1/a`): it answers with
the failure to create the output file and assembles nothing. -/
theorem C3_counterexample :
    Disk.fsNested.get (Disk.sessionFile "u1" "metadata.json") =
      some (.file (.descriptor Disk.sessionNested)) ∧
    (∀ i : Int, i ∈ Disk.ReadReceivedChunks Disk.sampleEnv Disk.fsNested (Disk.sessionDir "u1") ↔
      0 ≤ i ∧ i < Disk.sessionNested.TotalChunks) ∧
    Disk.fsNested.get (Disk.sessionFile "u1" (chunkName 0)) = some (.file (.raw [65])) ∧
    (Disk.fsNested.stat (Disk.join (Disk.sessionDir "u1") Disk.sessionNested.Filename)).isFound
      = false ∧
    Disk.sessionNested.FileHash = "" ∧
    Disk.CompleteHandler Disk.sampleEnv Disk.fsNested "u1" = (.createFailed, Disk.fsNested) := by
  refine ⟨by decide, ?_, by decide, by decide, rfl, by decide⟩
  intro i
  rw [show Disk.ReadReceivedChunks Disk.sampleEnv Disk.fsNested (Disk.sessionDir "u1") = [0]
    by decide, show Disk.sessionNested.TotalChunks = 1 from rfl]
  simp only [List.mem_singleton]
  omega

/-- C3, amended: in every file system that requests with plain names produce,
for a session with a plain upload id and descriptor `md` whose received list
holds exactly the indices of `[0, total_chunks)`, whose chunk artifacts hold the
bytes `b 0, b 1, ...`, whose file named by the descriptor does not exist and
whose declared `file_hash` is empty or the hash of the concatenation,
`CompleteHandler` answers `assembled` with the hash of
`b 0 ++ b 1 ++ ... ++ b (total_chunks - 1)`, and afterwards the file named by
the descriptor holds exactly that concatenation in ascending index order. -/
theorem C3_assembles_in_order (E : Disk.Env) (fs : Disk.FS) (u : String) (md : Metadata)
    (b : Nat → List Nat) (hr : Disk.PlainReachable E fs) (hu : Disk.plainName u)
    (hmd : fs.get (Disk.sessionFile u "metadata.json") = some (.file (.descriptor md)))
    (hrecv : ∀ i : Int, i ∈ Disk.ReadReceivedChunks E fs (Disk.sessionDir u) ↔
      0 ≤ i ∧ i < md.TotalChunks)
    (hchunks : ∀ i : Nat, (i : Int) < md.TotalChunks →
      fs.get (Disk.sessionFile u (chunkName i)) = some (.file (.raw (b i))))
    (hstat : (fs.stat (Disk.join (Disk.sessionDir u) md.Filename)).isFound = false)
    (hhash : md.FileHash = "" ∨
      md.FileHash = hashHex E.lib ((List.range md.TotalChunks.toNat).flatMap b)) :
    (Disk.CompleteHandler E fs u).1 =
      .answer (.assembled ("storage/" ++ u ++ "/" ++ md.Filename)
        (hashHex E.lib ((List.range md.TotalChunks.toNat).flatMap b))
        ("/static/" ++ u ++ "/" ++ md.Filename)) ∧
    (Disk.CompleteHandler E fs u).2.get (Disk.join (Disk.sessionDir u) md.Filename) =
      some (.file (.raw ((List.range md.TotalChunks.toNat).flatMap b))) := by
  obtain ⟨hs, hflat, -, -⟩ := plainReachable_good hr
  obtain ⟨hst, hvm, hty, hF⟩ := plainReachable_session hr hmd
  rw [disk_stat_filename hs hst hF] at hstat
  have hFp : Disk.plainName md.Filename := by
    rcases hF with h | h
    · rw [h] at hstat; exact absurd hstat (by simp [Dir.stat])
    · exact h
  rw [disk_readReceived hs hst hty] at hrecv
  obtain ⟨s1, s2, -⟩ := disk_complete_sim E fs u hs hu (plainReachable_typed hr u)
  obtain ⟨f1, f2⟩ := session_assembles_in_order E.lib (Disk.toStore fs) u (Disk.view fs u) md b
    hflat hst hvm hrecv (fun i hi => view_of_get (hchunks i hi)) hstat hhash
  refine ⟨by rw [s1, f1], ?_⟩
  rw [← s2] at f2
  cases hd' : Disk.toStore (Disk.CompleteHandler E fs u).2 u with
  | none => rw [hd'] at f2; cases f2
  | some d' =>
    rw [hd'] at f2
    rw [join_session_plain u hFp]
    exact get_of_toStore hd' f2

/-- The scenario of the specification: chunks "A", "B", "C" give "ABC". -/
theorem C3_witness :
    (Disk.CompleteHandler Disk.sampleEnv Disk.fsABC "u1").1 =
      .answer (.assembled ("storage/" ++ "u1" ++ "/" ++ sessionABC.Filename)
        (hashHex sampleLib ((List.range sessionABC.TotalChunks.toNat).flatMap
          fun i => [65 + i]))
        ("/static/" ++ "u1" ++ "/" ++ sessionABC.Filename)) ∧
    (Disk.CompleteHandler Disk.sampleEnv Disk.fsABC "u1").2.get
        (Disk.join (Disk.sessionDir "u1") sessionABC.Filename) =
      some (.file (.raw ((List.range sessionABC.TotalChunks.toNat).flatMap
        fun i => [65 + i]))) :=
  C3_assembles_in_order Disk.sampleEnv Disk.fsABC "u1" sessionABC (fun i => [65 + i])
    ⟨_, by decide, rfl⟩ (by decide) (by decide)
    (by
      intro i
      rw [show Disk.ReadReceivedChunks Disk.sampleEnv Disk.fsABC (Disk.sessionDir "u1") =
        [0, 1, 2] by decide]
      simp only [List.mem_cons, List.mem_singleton, List.not_mem_nil, or_false]
      rw [show sessionABC.TotalChunks = 3 from rfl]
      omega)
    (by
      intro i hi
      rw [show sessionABC.TotalChunks = 3 from rfl] at hi
      have h3 : i < 3 := by omega
      interval_cases i <;> decide)
    (by decide) (Or.inl rfl)

/-- C4, as stated, fails: after the two-chunk session `u2` was assembled into
the directory of another session, that directory was cleaned up, and a third
session whose filename is `../u2/received.json` was assembled from the chunk
`[0,0]`, the session `u2` has its descriptor and no file named by it, and its
received set `{0}` is a proper subset of `[0, 2)`; `CompleteHandler` answers
`incomplete` with the received count 2, which is not the size 1 of the received
set. -/
theorem C4_counterexample :
    Disk.fsDuplicate.get (Disk.sessionFile "u2" "metadata.json") =
      some (.file (.descriptor Disk.sessionGuest)) ∧
    (Disk.fsDuplicate.stat
      (Disk.join (Disk.sessionDir "u2") Disk.sessionGuest.Filename)).isFound = false ∧
    (Disk.ReadReceivedChunks Disk.sampleEnv Disk.fsDuplicate (Disk.sessionDir "u2")).toFinset ⊂
      Finset.Ico 0 Disk.sessionGuest.TotalChunks ∧
    (Disk.ReadReceivedChunks Disk.sampleEnv Disk.fsDuplicate
      (Disk.sessionDir "u2")).toFinset.card = 1 ∧
    Disk.CompleteHandler Disk.sampleEnv Disk.fsDuplicate "u2" =
      (.answer (.incomplete [1] 2 2), Disk.fsDuplicate) := by
  refine ⟨by decide, by decide, ?_, ?_, by decide⟩
  · rw [show Disk.ReadReceivedChunks Disk.sampleEnv Disk.fsDuplicate (Disk.sessionDir "u2") =
      [0, 0] by decide, show Disk.sessionGuest.TotalChunks = 2 from rfl]
    decide
  · rw [show Disk.ReadReceivedChunks Disk.sampleEnv Disk.fsDuplicate (Disk.sessionDir "u2") =
      [0, 0] by decide]
    decide

/-- C4, amended: in every file system that requests with plain names produce,
for a session with a plain upload id whose descriptor exists, whose file named
by the descriptor does not exist and whose received set is a proper subset of
`[0, total_chunks)`, `CompleteHandler` answers `incomplete`; the reported
missing list is strictly ascending and holds exactly the indices of
`[0, total_chunks)` absent from the received set, the reported received count
is the size of the received set, the reported total is `total_chunks`, and the
file system is unchanged. -/
theorem C4_incomplete (E : Disk.Env) (fs : Disk.FS) (u : String) (md : Metadata)
    (hr : Disk.PlainReachable E fs) (hu : Disk.plainName u)
    (hmd : fs.get (Disk.sessionFile u "metadata.json") = some (.file (.descriptor md)))
    (hstat : (fs.stat (Disk.join (Disk.sessionDir u) md.Filename)).isFound = false)
    (hsub : (Disk.ReadReceivedChunks E fs (Disk.sessionDir u)).toFinset ⊂
      Finset.Ico 0 md.TotalChunks) :
    ∃ missing : List Int,
      Disk.CompleteHandler E fs u =
        (.answer (.incomplete missing
          (Disk.ReadReceivedChunks E fs (Disk.sessionDir u)).toFinset.card md.TotalChunks), fs) ∧
      missing.Sorted (· < ·) ∧
      ∀ i : Int, i ∈ missing ↔
        i ∈ Finset.Ico 0 md.TotalChunks ∧
          i ∉ (Disk.ReadReceivedChunks E fs (Disk.sessionDir u)).toFinset := by
  obtain ⟨hs, hflat, -, -⟩ := plainReachable_good hr
  obtain ⟨hst, hvm, hty, hF⟩ := plainReachable_session hr hmd
  rw [disk_stat_filename hs hst hF] at hstat
  rw [disk_readReceived hs hst hty] at hsub ⊢
  obtain ⟨s1, -, -⟩ := disk_complete_sim E fs u hs hu (plainReachable_typed hr u)
  obtain ⟨missing, f1, f2, f3⟩ := session_incomplete E.lib (Disk.toStore fs) u (Disk.view fs u)
    md hflat hst hvm hstat hsub
  rw [f1] at s1
  refine ⟨missing, ?_, f2, f3⟩
  rcases disk_complete_cases E fs u with hun | ⟨i, e⟩ | ⟨a, b, e⟩ | e | ⟨a, b, c, e⟩
  · exact Prod.ext s1 hun
  · rw [s1] at e; cases e
  · rw [s1] at e; cases e
  · rw [s1] at e; cases e
  · rw [s1] at e; cases e

/-- The hypotheses of `C4_incomplete` hold when only chunks 0 and 2 of three
arrived: the missing list is `[1]`. -/
theorem C4_witness :
    ∃ missing : List Int,
      Disk.CompleteHandler Disk.sampleEnv Disk.fsAC "u1" =
        (.answer (.incomplete missing
          (Disk.ReadReceivedChunks Disk.sampleEnv Disk.fsAC
            (Disk.sessionDir "u1")).toFinset.card sessionABC.TotalChunks), Disk.fsAC) ∧
      missing.Sorted (· < ·) ∧
      ∀ i : Int, i ∈ missing ↔
        i ∈ Finset.Ico 0 sessionABC.TotalChunks ∧
          i ∉ (Disk.ReadReceivedChunks Disk.sampleEnv Disk.fsAC
            (Disk.sessionDir "u1")).toFinset :=
  C4_incomplete Disk.sampleEnv Disk.fsAC "u1" sessionABC ⟨_, by decide, rfl⟩ (by decide)
    (by decide) (by decide)
    (by
      rw [show Disk.ReadReceivedChunks Disk.sampleEnv Disk.fsAC (Disk.sessionDir "u1") = [0, 2]
        by decide, show sessionABC.TotalChunks = 3 from rfl]
      decide)

/-- C6, as stated, fails: in a session created with filename `chunk_000000`, one
chunk and the declared file hash "deadbeef", after the chunk "A" is accepted
all chunks are received and the declared hash differs from the hash of the
concatenation, yet `CompleteHandler` answers with the already-completed
conflict instead of an integrity failure, and the file named by the descriptor
exists afterwards; and in the session with filename `a/b` and the same declared
hash, `CompleteHandler` answers with the failure to create its output file. -/
theorem C6_counterexample :
    (Disk.UploadHandler Disk.sampleEnv
      (Disk.run Disk.sampleEnv Disk.FS.initial [.init sessionStuck ""]) "u1" "0" 1 [65]).1 =
      .answer (.received 1 (hashHex sampleLib [65])) ∧
    Disk.ReadReceivedChunks Disk.sampleEnv
      (Disk.run Disk.sampleEnv Disk.FS.initial
        [.init sessionStuck "", .upload "u1" "0" 1 [65]]) (Disk.sessionDir "u1") = [0] ∧
    sessionStuck.FileHash ≠ hashHex sampleLib [65] ∧
    Disk.CompleteHandler Disk.sampleEnv
      (Disk.run Disk.sampleEnv Disk.FS.initial
        [.init sessionStuck "", .upload "u1" "0" 1 [65]]) "u1" =
      (.answer .alreadyCompleted,
        Disk.run Disk.sampleEnv Disk.FS.initial
          [.init sessionStuck "", .upload "u1" "0" 1 [65]]) ∧
    (Disk.run Disk.sampleEnv Disk.FS.initial
      [.init sessionStuck "", .upload "u1" "0" 1 [65]]).get
        (Disk.join (Disk.sessionDir "u1") sessionStuck.Filename) = some (.file (.raw [65])) ∧
    Disk.ReadReceivedChunks Disk.sampleEnv
      (Disk.run Disk.sampleEnv Disk.FS.initial
        [.init Disk.sessionNestedBadHash "", .upload "u1" "0" 1 [65]])
      (Disk.sessionDir "u1") = [0] ∧
    (Disk.CompleteHandler Disk.sampleEnv
      (Disk.run Disk.sampleEnv Disk.FS.initial
        [.init Disk.sessionNestedBadHash "", .upload "u1" "0" 1 [65]]) "u1").1 =
      .createFailed := by
  decide

/-- C6, amended: in every file system that requests with plain names produce,
for a session with a plain upload id whose file named by the descriptor does
not exist, with all chunks received, whose chunk artifacts hold the bytes `b 0,
b 1, ...` and whose descriptor declares a non-empty `file_hash` different from
the hash of their concatenation in index order, `CompleteHandler` answers with
the overall hash mismatch carrying the declared and the computed hash;
afterwards the temporary output does not exist, the file named by the
descriptor does not exist, and every other file of the session (chunk
artifacts, side-cars, received list, descriptor) is as it was. -/
theorem C6_integrity_failure (E : Disk.Env) (fs : Disk.FS) (u : String) (md : Metadata)
    (b : Nat → List Nat) (hr : Disk.PlainReachable E fs) (hu : Disk.plainName u)
    (hmd : fs.get (Disk.sessionFile u "metadata.json") = some (.file (.descriptor md)))
    (hstat : (fs.stat (Disk.join (Disk.sessionDir u) md.Filename)).isFound = false)
    (hrecv : ∀ i : Int, 0 ≤ i → i < md.TotalChunks →
      i ∈ Disk.ReadReceivedChunks E fs (Disk.sessionDir u))
    (hchunks : ∀ i : Nat, (i : Int) < md.TotalChunks →
      fs.get (Disk.sessionFile u (chunkName i)) = some (.file (.raw (b i))))
    (hne : md.FileHash ≠ "")
    (hdiff : md.FileHash ≠ hashHex E.lib ((List.range md.TotalChunks.toNat).flatMap b)) :
    (Disk.CompleteHandler E fs u).1 =
      .answer (.overallHashMismatch md.FileHash
        (hashHex E.lib ((List.range md.TotalChunks.toNat).flatMap b))) ∧
    (Disk.CompleteHandler E fs u).2.get
      (Disk.withSuffix (Disk.join (Disk.sessionDir u) md.Filename) ".part") = none ∧
    ((Disk.CompleteHandler E fs u).2.stat
      (Disk.join (Disk.sessionDir u) md.Filename)).isFound = false ∧
    (∀ n : String, n ≠ md.Filename ++ ".part" →
      (Disk.CompleteHandler E fs u).2.get (Disk.sessionFile u n) =
        fs.get (Disk.sessionFile u n)) ∧
    Disk.ReadReceivedChunks E (Disk.CompleteHandler E fs u).2 (Disk.sessionDir u) =
      Disk.ReadReceivedChunks E fs (Disk.sessionDir u) := by
  obtain ⟨hs, hflat, -, -⟩ := plainReachable_good hr
  obtain ⟨hst, hvm, hty, hF⟩ := plainReachable_session hr hmd
  rw [disk_stat_filename hs hst hF] at hstat
  have hFp : Disk.plainName md.Filename := by
    rcases hF with h | h
    · rw [h] at hstat; exact absurd hstat (by simp [Dir.stat])
    · exact h
  rw [disk_readReceived hs hst hty] at hrecv ⊢
  obtain ⟨s1, s2, hs'⟩ := disk_complete_sim E fs u hs hu (plainReachable_typed hr u)
  obtain ⟨d', f1, f2, f3, f4, -, f5, -⟩ := session_integrity_failure E.lib (Disk.toStore fs) u
    (Disk.view fs u) md b hst hvm hstat hrecv (fun i hi => view_of_get (hchunks i hi)) hne hdiff
  have hr' : Disk.PlainReachable E (Disk.CompleteHandler E fs u).2 :=
    @plainReachable_step E fs hr (.complete u) hu
  have hst' : Disk.toStore (Disk.CompleteHandler E fs u).2 u = some d' := by
    rw [s2, f1]; simp [Store.set]
  refine ⟨by rw [s1, f1], ?_, ?_, ?_, ?_⟩
  · rw [join_session_plain u hFp, withSuffix_sessionFile]
    exact get_none_of_toStore hs' hst' f2
  · rw [disk_stat_filename hs' hst' hF]
    exact f3
  · intro n hn
    rw [shape_get_file hs', shape_get_file hs, (toStore_dir hst').2.symm, f4 n hn]
  · rw [disk_readReceived hs' hst' (plainReachable_typed hr' u d' hst'), f5]

/-- The hypotheses of `C6_integrity_failure` hold for a one-chunk session that
declares the file hash "deadbeef". -/
theorem C6_witness :
    (Disk.CompleteHandler Disk.sampleEnv Disk.fsBadHash "u1").1 =
      .answer (.overallHashMismatch sessionBadHash.FileHash
        (hashHex sampleLib ((List.range sessionBadHash.TotalChunks.toNat).flatMap
          fun _ => [65]))) ∧
    (Disk.CompleteHandler Disk.sampleEnv Disk.fsBadHash "u1").2.get
      (Disk.withSuffix (Disk.join (Disk.sessionDir "u1") sessionBadHash.Filename) ".part") =
      none ∧
    ((Disk.CompleteHandler Disk.sampleEnv Disk.fsBadHash "u1").2.stat
      (Disk.join (Disk.sessionDir "u1") sessionBadHash.Filename)).isFound = false ∧
    (∀ n : String, n ≠ sessionBadHash.Filename ++ ".part" →
      (Disk.CompleteHandler Disk.sampleEnv Disk.fsBadHash "u1").2.get
        (Disk.sessionFile "u1" n) = Disk.fsBadHash.get (Disk.sessionFile "u1" n)) ∧
    Disk.ReadReceivedChunks Disk.sampleEnv
      (Disk.CompleteHandler Disk.sampleEnv Disk.fsBadHash "u1").2 (Disk.sessionDir "u1") =
      Disk.ReadReceivedChunks Disk.sampleEnv Disk.fsBadHash (Disk.sessionDir "u1") :=
  C6_integrity_failure Disk.sampleEnv Disk.fsBadHash "u1" sessionBadHash (fun _ => [65])
    ⟨_, by decide, rfl⟩ (by decide) (by decide) (by decide)
    (by
      intro i h0 h1
      rw [show sessionBadHash.TotalChunks = 1 from rfl] at h1
      have hi : i = 0 := by omega
      subst hi
      decide)
    (by
      intro i hi
      rw [show sessionBadHash.TotalChunks = 1 from rfl] at hi
      have hi : i = 0 := by omega
      subst hi
      decide)
    (by decide) (by decide)

/-! ## C8, C17: the received list -/

/-- The received list of a session without a directory is empty. -/
theorem disk_readReceived_absent {E : Disk.Env} {fs : Disk.FS} (hs : Disk.Shape fs)
    {u : String} (h : Disk.toStore fs u = none) :
    Disk.ReadReceivedChunks E fs (Disk.sessionDir u) = [] := by
  have hn := (toStore_none_iff hs u).mp h
  simp only [Disk.ReadReceivedChunks, join_session_received, Disk.FS.readFile,
    shape_stat_file_none hs hn]

/-- A file of a session that `os.ReadFile` returns is the entry at its path. -/
theorem readFile_ok_get {fs : Disk.FS} (hs : Disk.Shape fs) {u n : String} {c : FileData}
    (h : fs.readFile (Disk.sessionFile u n) = .ok c) :
    fs.get (Disk.sessionFile u n) = some (.file c) := by
  rcases shape_get_dir hs u with hn | hd
  · rw [Disk.FS.readFile, shape_stat_file_none hs hn] at h
    cases h
  · have hrd := @rep_readFile fs fs u (Disk.view fs u) hs hd (rep_refl hs u) n
    rw [hrd] at h
    rw [shape_get_file hs]
    cases hv : Disk.view fs u n with
    | none => rw [hv] at h; cases h
    | some c' => rw [hv] at h; cases h; rfl

/-- C8, as stated, fails: after the session `u2` (no chunks) is created and
assembled, and the session `u1` with filename `../u2/received.json` is
created, receives the chunk `[5]` and is assembled, the persisted received list
of `u2` contains the index 5 while no chunk artifact of `u2` exists at that
index. -/
theorem C8_counterexample :
    Disk.fsForged = Disk.run Disk.sampleEnv Disk.FS.initial
      [.init Disk.sessionEmpty "", .complete "u2", .init Disk.sessionForger "",
        .upload "u1" "0" 3 [91, 53, 93], .complete "u1"] ∧
    (5 : Int) ∈ Disk.ReadReceivedChunks Disk.sampleEnv Disk.fsForged
      (Disk.join Disk.StorageRoot "u2") ∧
    Disk.fsForged.stat (Disk.join (Disk.join Disk.StorageRoot "u2") (chunkName 5)) =
      .notExist := by
  decide

/-- C8, amended: in every file system that create, ingest, complete and cleanup
requests with plain names (upload ids that are one path component, filenames
that are one path component or empty) produce from the initial one, every
index of the persisted received list of a session is non-negative and has its
chunk artifact and its hash side-car on disk. -/
theorem C8_received_backed (E : Disk.Env) (fs : Disk.FS) (u : String) (i : Int)
    (hr : Disk.PlainReachable E fs) (hu : Disk.plainName u)
    (hi : i ∈ Disk.ReadReceivedChunks E fs (Disk.join Disk.StorageRoot u)) :
    0 ≤ i ∧
    (∃ c, fs.get (Disk.join (Disk.join Disk.StorageRoot u) (chunkName i.toNat)) =
      some (.file c)) ∧
    (∃ c, fs.get (Disk.withSuffix
      (Disk.join (Disk.join Disk.StorageRoot u) (chunkName i.toNat)) ".xxhash") =
      some (.file c)) := by
  obtain ⟨hs, hflat, -, -⟩ := plainReachable_good hr
  rw [storageRoot_eq, join_plain _ hu] at hi ⊢
  change i ∈ Disk.ReadReceivedChunks E fs (Disk.sessionDir u) at hi
  change 0 ≤ i ∧
    (∃ c, fs.get (Disk.join (Disk.sessionDir u) (chunkName i.toNat)) = some (.file c)) ∧
    (∃ c, fs.get (Disk.withSuffix (Disk.join (Disk.sessionDir u) (chunkName i.toNat))
      ".xxhash") = some (.file c))
  cases hst : Disk.toStore fs u with
  | none =>
    rw [disk_readReceived_absent hs hst] at hi
    cases hi
  | some d =>
    rw [disk_readReceived hs hst (plainReachable_typed hr u d hst)] at hi
    obtain ⟨h0, hc, hsc⟩ := session_received_backed E.lib (Disk.toStore fs) u d i hflat hst hi
    refine ⟨h0, ?_, ?_⟩
    · rw [join_session_chunk]
      obtain ⟨c, hc'⟩ := Option.isSome_iff_exists.mp hc
      exact ⟨c, get_of_toStore hst hc'⟩
    · rw [join_session_chunk, withSuffix_sessionFile]
      obtain ⟨c, hc'⟩ := Option.isSome_iff_exists.mp hsc
      exact ⟨c, get_of_toStore hst hc'⟩

/-- The hypotheses of `C8_received_backed` hold for the index 2 after the
chunks "A", "B", "C" of a three-chunk session arrived. -/
theorem C8_witness :
    0 ≤ (2 : Int) ∧
    (∃ c, Disk.fsABC.get (Disk.join (Disk.join Disk.StorageRoot "u1")
      (chunkName (2 : Int).toNat)) = some (.file c)) ∧
    (∃ c, Disk.fsABC.get (Disk.withSuffix
      (Disk.join (Disk.join Disk.StorageRoot "u1") (chunkName (2 : Int).toNat)) ".xxhash") =
      some (.file c)) :=
  C8_received_backed Disk.sampleEnv Disk.fsABC "u1" 2 ⟨_, by decide, rfl⟩ (by decide)
    (by decide)

/-- C17, as stated, fails: after the session `u2` with `total_chunks = 0` is
created and assembled, and the session `u1` with filename
`../u2/received.json` is created, receives the chunk `[5]` and is assembled,
the received list file of `u2` exists and holds the index 5, which is outside
`[0, total_chunks) = [0, 0)` of the descriptor of `u2`. -/
theorem C17_counterexample :
    Disk.fsForged = Disk.run Disk.sampleEnv Disk.FS.initial
      [.init Disk.sessionEmpty "", .complete "u2", .init Disk.sessionForger "",
        .upload "u1" "0" 3 [91, 53, 93], .complete "u1"] ∧
    (Disk.fsForged.stat (Disk.join (Disk.join Disk.StorageRoot "u2") "received.json")).isFound =
      true ∧
    Disk.ReadReceivedChunks Disk.sampleEnv Disk.fsForged (Disk.join Disk.StorageRoot "u2") =
      [5] ∧
    Disk.fsForged.readFile (Disk.join (Disk.join Disk.StorageRoot "u2") "metadata.json") =
      .ok (.descriptor Disk.sessionEmpty) ∧
    ¬ ((5 : Int) < Disk.sessionEmpty.TotalChunks) := by
  decide

/-- C17, amended: in every file system that create, ingest, complete and
cleanup requests with plain names (upload ids that are one path component,
filenames that are one path component or empty) produce from the initial one,
the persisted received list of a session is strictly ascending and every
element lies in `[0, total_chunks)` of the descriptor the session holds; the
same holds of the array the received list file stores. -/
theorem C17_received_sorted_in_range (E : Disk.Env) (fs : Disk.FS) (u : String)
    (md : Metadata) (hr : Disk.PlainReachable E fs) (hu : Disk.plainName u)
    (hmd : fs.readFile (Disk.join (Disk.join Disk.StorageRoot u) "metadata.json") =
      .ok (.descriptor md)) :
    (Disk.ReadReceivedChunks E fs (Disk.join Disk.StorageRoot u)).Sorted (· < ·) ∧
    (∀ i ∈ Disk.ReadReceivedChunks E fs (Disk.join Disk.StorageRoot u),
      0 ≤ i ∧ i < md.TotalChunks) ∧
    (∀ arr : List Int,
      fs.readFile (Disk.join (Disk.join Disk.StorageRoot u) "received.json") =
        .ok (.indexList arr) →
      arr.Sorted (· < ·) ∧ ∀ i ∈ arr, 0 ≤ i ∧ i < md.TotalChunks) := by
  obtain ⟨hs, hflat, -, -⟩ := plainReachable_good hr
  rw [storageRoot_eq, join_plain _ hu] at hmd ⊢
  change fs.readFile (Disk.join (Disk.sessionDir u) "metadata.json") = _ at hmd
  change (Disk.ReadReceivedChunks E fs (Disk.sessionDir u)).Sorted (· < ·) ∧
    (∀ i ∈ Disk.ReadReceivedChunks E fs (Disk.sessionDir u), 0 ≤ i ∧ i < md.TotalChunks) ∧
    (∀ arr : List Int,
      fs.readFile (Disk.join (Disk.sessionDir u) "received.json") = .ok (.indexList arr) →
      arr.Sorted (· < ·) ∧ ∀ i ∈ arr, 0 ≤ i ∧ i < md.TotalChunks)
  rw [join_session_metadata] at hmd
  rw [join_session_received]
  have hget : fs.get (Disk.sessionFile u "metadata.json") = some (.file (.descriptor md)) :=
    readFile_ok_get hs hmd
  obtain ⟨hst, hvm, hty, -⟩ := plainReachable_session hr hget
  rw [disk_readReceived hs hst hty]
  obtain ⟨h1, h2, h3⟩ := session_received_sorted E.lib (Disk.toStore fs) u (Disk.view fs u)
    md hflat hst hvm
  refine ⟨h1, h2, ?_⟩
  intro arr hc
  exact h3 arr (view_of_get (readFile_ok_get hs hc))

/-- The hypotheses of `C17_received_sorted_in_range` hold after the chunks "A"
and "C" of a three-chunk session arrived. -/
theorem C17_witness :
    (Disk.ReadReceivedChunks Disk.sampleEnv Disk.fsAC
      (Disk.join Disk.StorageRoot "u1")).Sorted (· < ·) ∧
    (∀ i ∈ Disk.ReadReceivedChunks Disk.sampleEnv Disk.fsAC (Disk.join Disk.StorageRoot "u1"),
      0 ≤ i ∧ i < sessionABC.TotalChunks) ∧
    (∀ arr : List Int,
      Disk.fsAC.readFile (Disk.join (Disk.join Disk.StorageRoot "u1") "received.json") =
        .ok (.indexList arr) →
      arr.Sorted (· < ·) ∧ ∀ i ∈ arr, 0 ≤ i ∧ i < sessionABC.TotalChunks) :=
  C17_received_sorted_in_range Disk.sampleEnv Disk.fsAC "u1" sessionABC ⟨_, by decide, rfl⟩
    (by decide) (by decide)

/-! ## A completed session stays as it is until it is created again -/

/-- Session model: a session whose file named by the descriptor exists is left
as it is by every request other than a create for its upload id. -/
theorem completed_step (L : Lib) {s : Store} {u : String} {d : Dir} {md : Metadata}
    (hd : s u = some d) (hmd : d "metadata.json" = some (.descriptor md))
    (hst : d.stat md.Filename = true) (op : Op)
    (hop : ∀ md' fresh, op = .init md' fresh → md'.UploadID ≠ u) :
    step L s op u = some d := by
  cases op with
  | init md' fresh =>
    have hne := hop md' fresh rfl
    by_cases hid : md'.UploadID = ""
    · simp only [step, InitHandler, if_pos hid]
      exact hd
    · show (InitHandler s md' fresh).2 u = some d
      rw [init_store s md' fresh hid]
      simp only [Store.set]
      rw [if_neg (fun e => hne e.symm)]
      exact hd
  | upload v idx cl body =>
    show (UploadHandler L s v idx cl body).2 u = some d
    rcases upload_cases L s v idx cl body with h | ⟨d0, md0, hd0, hmd0, -, -, hst0, -, -, heq⟩
    · rw [h]; exact hd
    · rw [heq]
      simp only [Store.set]
      by_cases huv : u = v
      · subst huv
        rw [hd] at hd0
        cases hd0
        rw [hmd] at hmd0
        cases hmd0
        rw [hst] at hst0
        cases hst0
      · rw [if_neg huv]; exact hd
  | complete v =>
    show (CompleteHandler L s v).2 u = some d
    rcases complete_cases L s v with h | ⟨d0, md0, hd0, hmd0, hst0, h⟩
    · rw [h]; exact hd
    · by_cases huv : u = v
      · subst huv
        rw [hd] at hd0
        cases hd0
        rw [hmd] at hmd0
        cases hmd0
        rw [hst] at hst0
        cases hst0
      · rcases h with h | ⟨data, h⟩ <;>
        · rw [h]
          simp only [Store.set]
          rw [if_neg huv]; exact hd
  | cleanup v =>
    show (CleanupHandler s v).2 u = some d
    by_cases huv : u = v
    · subst huv
      rw [cleanup_eq s u hd hmd, if_pos hst]
      exact hd
    · rcases cleanup_cases s v with h | h
      · rw [h]; exact hd
      · rw [h]
        simp only [Store.set]
        rw [if_neg huv]; exact hd

/-- Session model: a completed session is left as it is by every sequence of
requests without a create for its upload id. -/
theorem completed_run (L : Lib) {u : String} {d : Dir} {md : Metadata}
    (hmd : d "metadata.json" = some (.descriptor md)) (hst : d.stat md.Filename = true)
    (ops : List Op) : ∀ s : Store, s u = some d →
    (∀ md' fresh, Op.init md' fresh ∈ ops → md'.UploadID ≠ u) →
    run L s ops u = some d := by
  induction ops with
  | nil => intro s hd _; exact hd
  | cons op rest ih =>
    intro s hd hno
    have h1 := completed_step L hd hmd hst op
      (fun md' fresh e => hno md' fresh (by rw [e]; exact List.mem_cons_self _ _))
    have h2 := ih (step L s op) h1
      (fun md' fresh hm => hno md' fresh (List.mem_cons_of_mem _ hm))
    simpa [run, List.foldl_cons] using h2

/-- The requests of the session model that file-system requests without a create
for `u` amount to hold no create for `u`. -/
theorem flat_no_create {ops : List Disk.Op} {u : String}
    (hno : ∀ md fresh, Disk.Op.init md fresh ∈ ops → md.UploadID ≠ u) :
    ∀ md fresh, Op.init md fresh ∈ ops.flatMap Disk.Op.flat → md.UploadID ≠ u := by
  intro md fresh hm
  obtain ⟨op, hop, hx⟩ := List.mem_flatMap.mp hm
  cases op with
  | init md' fresh' =>
    simp only [Disk.Op.flat, List.mem_singleton, Op.init.injEq] at hx
    obtain ⟨rfl, rfl⟩ := hx
    exact hno md fresh hop
  | upload v idxStr cl body =>
    simp only [Disk.Op.flat] at hx
    split at hx
    · simp at hx
    · cases hx
  | complete v => simp [Disk.Op.flat] at hx
  | cleanup v => simp [Disk.Op.flat] at hx

/-- A completed session of the file system is left as it is by every sequence of
requests with plain names without a create for its upload id. -/
theorem disk_completed_run {E : Disk.Env} {fs : Disk.FS} (hr : Disk.PlainReachable E fs)
    {u : String} {d : Dir} {md : Metadata} (hd : Disk.toStore fs u = some d)
    (hmd : d "metadata.json" = some (.descriptor md)) (hst : d.stat md.Filename = true)
    (ops : List Disk.Op) (hp : ∀ op ∈ ops, op.Plain)
    (hno : ∀ md' fresh, Disk.Op.init md' fresh ∈ ops → md'.UploadID ≠ u) :
    Disk.toStore (Disk.run E fs ops) u = some d := by
  rw [disk_run_sim E ops fs hp hr]
  exact completed_run E.lib hmd hst _ _ hd (flat_no_create hno)

/-- A file of a session of the storage is what `os.ReadFile` returns at its path. -/
theorem disk_readFile_of_store {fs : Disk.FS} (hs : Disk.Shape fs) {u n : String} {d : Dir}
    {c : FileData} (hd : Disk.toStore fs u = some d) (hc : d n = some c) :
    fs.readFile (Disk.sessionFile u n) = .ok c := by
  obtain ⟨hdir, rfl⟩ := toStore_dir hd
  rw [@rep_readFile fs fs u (Disk.view fs u) hs hdir (rep_refl hs u) n, hc]

/-- The entries at and below a path are gone after `eraseTree`. -/
theorem get_eraseTree_below (fs : Disk.FS) (p q : Disk.Path) (h : p.isPrefixOf q = true) :
    (fs.eraseTree p).get q = none := by
  induction fs with
  | nil => rfl
  | cons e rest ih =>
    simp only [Disk.FS.eraseTree, List.filter_cons] at ih ⊢
    by_cases he : p.isPrefixOf e.1 = true
    · simp only [he, Bool.not_true, Bool.false_eq_true, if_false]
      exact ih
    · simp only [he, Bool.not_false, if_true]
      have hne : e.1 ≠ q := fun e' => he (e' ▸ h)
      obtain ⟨k, v⟩ := e
      simp only [Disk.FS.get]
      rw [if_neg hne]
      exact ih

/-- The four outcomes of `CleanupHandler` on the file system. -/
theorem disk_cleanup_cases (E : Disk.Env) (fs : Disk.FS) (u : String) :
    Disk.CleanupHandler E fs u = (.answer .sessionNotFound, fs) ∨
    Disk.CleanupHandler E fs u = (.answer .forbidden, fs) ∨
    Disk.CleanupHandler E fs u = (.deleteFailed, fs) ∨
    Disk.CleanupHandler E fs u =
      (.answer (.deleted u), fs.eraseTree (Disk.join Disk.StorageRoot u)) := by
  unfold Disk.CleanupHandler
  simp only []
  split
  · left; rfl
  · split
    · right; left; rfl
    · cases hra : fs.removeAll (Disk.join Disk.StorageRoot u) with
      | none => right; right; left; rfl
      | some fs1 =>
        right; right; right
        have h1 : fs1 = fs.eraseTree (Disk.join Disk.StorageRoot u) := by
          unfold Disk.FS.removeAll at hra
          split at hra
          · cases hra
          · split at hra
            · cases hra
            · cases hra; rfl
        rw [h1]

/-! ## C9: cleanup -/

/-- What a successful `CompleteHandler` leaves behind in a file system that
requests with plain names produced: the descriptor it read and the assembled
file, whose name is a plain name. -/
theorem disk_complete_assembled {E : Disk.Env} {fs : Disk.FS} (hr : Disk.PlainReachable E fs)
    {u : String} (hu : Disk.plainName u) {fp fh url : String}
    (hok : (Disk.CompleteHandler E fs u).1 = .answer (.assembled fp fh url)) :
    ∃ d' md data, Disk.toStore (Disk.CompleteHandler E fs u).2 u = some d' ∧
      fs.readFile (Disk.sessionFile u "metadata.json") = .ok (.descriptor md) ∧
      d' "metadata.json" = some (.descriptor md) ∧ d' md.Filename = some (.raw data) ∧
      Disk.plainName md.Filename ∧ fh = hashHex E.lib data := by
  obtain ⟨hs, hflat, hnames, -⟩ := plainReachable_good hr
  obtain ⟨s1, s2, -⟩ := disk_complete_sim E fs u hs hu (plainReachable_typed hr u)
  rw [s1] at hok
  simp only [Disk.CompleteResponse.answer.injEq] at hok
  obtain ⟨d, md, data, hd, hmd, hstat, hmiss, -, -, hfh, hstore⟩ := complete_assembled hok
  obtain ⟨hR, hM, hC⟩ := filename_fresh (reachable_inv hflat u d hd) hmd hstat hmiss
  have hFp : Disk.plainName md.Filename := by
    rcases hnames u d md hd hmd with h | h
    · exact absurd h (stat_false hstat).1
    · exact h
  refine ⟨assembledDir d md data, md, data, ?_, disk_readFile_of_store hs hd hmd, ?_,
    assembledDir_filename d md data hR hC, hFp, hfh⟩
  · rw [s2, hstore]; simp [Store.set]
  · rw [assembledDir_other d md data _ (by decide) hM.symm (append_part_ne_metadata _).symm, hmd]
    intro i _
    exact ⟨(chunkName_ne_metadata i).symm, (append_xxhash_ne_metadata _).symm⟩

/-- C9, as stated, fails: after the session `u1` with filename `a.bin` received
its chunk and `CompleteHandler` answered `assembled`, a create for the same
upload id with filename `b.bin` is accepted; the cleanup that follows is not
rejected but answers `deleted`, and the assembled file `a.bin` is gone. -/
theorem C9_counterexample :
    (Disk.CompleteHandler Disk.sampleEnv
      (Disk.run Disk.sampleEnv Disk.FS.initial
        [.init Disk.sessionFirst "", .upload "u1" "0" 1 [65]]) "u1").1 =
      .answer (.assembled "storage/u1/a.bin" (hashHex sampleLib [65]) "/static/u1/a.bin") ∧
    Disk.fsRecreated = Disk.run Disk.sampleEnv Disk.FS.initial
      [.init Disk.sessionFirst "", .upload "u1" "0" 1 [65], .complete "u1",
        .init Disk.sessionSecond ""] ∧
    Disk.fsRecreated.readFile (Disk.join (Disk.join Disk.StorageRoot "u1") "a.bin") =
      .ok (.raw [65]) ∧
    (Disk.CleanupHandler Disk.sampleEnv Disk.fsRecreated "u1").1 = .answer (.deleted "u1") ∧
    (Disk.CleanupHandler Disk.sampleEnv Disk.fsRecreated "u1").2.stat
      (Disk.join (Disk.join Disk.StorageRoot "u1") "a.bin") = .notExist := by
  decide

/-- C9, amended: in every file system that requests with plain names produce and
for every plain upload id: when `CompleteHandler` answered `assembled`, then
after any further requests with plain names among which is no create for this
upload id, cleanup is rejected as forbidden and leaves the file system as it
is, with the descriptor and the assembled file still present; for an existing
session with a readable descriptor whose file named by the descriptor does not
exist, cleanup answers `deleted` and removes the session directory with
everything below it (descriptor, received list, every chunk artifact and
side-car); when the session directory does not exist it answers not found and
changes nothing. -/
theorem C9_cleanup (E : Disk.Env) (fs : Disk.FS) (u : String)
    (hr : Disk.PlainReachable E fs) (hu : Disk.plainName u) :
    (∀ fp fh url : String, (Disk.CompleteHandler E fs u).1 = .answer (.assembled fp fh url) →
      ∀ ops : List Disk.Op, (∀ op ∈ ops, op.Plain) →
        (∀ md fresh, Disk.Op.init md fresh ∈ ops → md.UploadID ≠ u) →
        Disk.CleanupHandler E (Disk.run E (Disk.CompleteHandler E fs u).2 ops) u =
          (.answer .forbidden, Disk.run E (Disk.CompleteHandler E fs u).2 ops) ∧
        ∃ md data, fh = hashHex E.lib data ∧
          fs.readFile (Disk.join (Disk.join Disk.StorageRoot u) "metadata.json") =
            .ok (.descriptor md) ∧
          (Disk.run E (Disk.CompleteHandler E fs u).2 ops).readFile
            (Disk.join (Disk.join Disk.StorageRoot u) "metadata.json") =
            .ok (.descriptor md) ∧
          (Disk.run E (Disk.CompleteHandler E fs u).2 ops).readFile
            (Disk.join (Disk.join Disk.StorageRoot u) md.Filename) = .ok (.raw data)) ∧
    (∀ md : Metadata,
      fs.readFile (Disk.join (Disk.join Disk.StorageRoot u) "metadata.json") =
        .ok (.descriptor md) →
      (fs.stat (Disk.join (Disk.join Disk.StorageRoot u) md.Filename)).isFound = false →
      Disk.CleanupHandler E fs u =
        (.answer (.deleted u), fs.eraseTree (Disk.join Disk.StorageRoot u)) ∧
      (∀ q : Disk.Path, (Disk.join Disk.StorageRoot u).isPrefixOf q = true →
        (Disk.CleanupHandler E fs u).2.get q = none) ∧
      (Disk.CleanupHandler E fs u).2.stat (Disk.join Disk.StorageRoot u) = .notExist) ∧
    (fs.stat (Disk.join Disk.StorageRoot u) = .notExist →
      Disk.CleanupHandler E fs u = (.answer .sessionNotFound, fs)) := by
  obtain ⟨hs, hflat, hnames, -⟩ := plainReachable_good hr
  rw [sessionDir_eq hu, join_session_metadata]
  refine ⟨?_, ?_, ?_⟩
  · intro fp fh url hok ops hp hno
    obtain ⟨d', md, data, hd', hmd0, hmd', hfile, hFp, hfh⟩ := disk_complete_assembled hr hu hok
    have hr1 : Disk.PlainReachable E (Disk.CompleteHandler E fs u).2 :=
      @plainReachable_step E fs hr (.complete u) hu
    have hr2 := plainReachable_run hr1 ops hp
    have hd2 := disk_completed_run hr1 hd' hmd' (stat_of_some hfile) ops hp hno
    obtain ⟨hs2, -, -, -⟩ := plainReachable_good hr2
    obtain ⟨c1, -, -⟩ := disk_cleanup_sim E _ u hs2 hu (plainReachable_typed hr2 u)
    rw [cleanup_eq _ u hd2 hmd', if_pos (stat_of_some hfile)] at c1
    refine ⟨?_, md, data, hfh, hmd0, disk_readFile_of_store hs2 hd2 hmd', ?_⟩
    · rcases disk_cleanup_cases E (Disk.run E (Disk.CompleteHandler E fs u).2 ops) u with
        h | h | h | h
      · rw [h] at c1; cases c1
      · exact h
      · rw [h] at c1; cases c1
      · rw [h] at c1; cases c1
    · rw [join_session_plain u hFp]
      exact disk_readFile_of_store hs2 hd2 hfile
  · intro md hmd hstat
    obtain ⟨hst, hvm, hty, hF⟩ := plainReachable_session hr (readFile_ok_get hs hmd)
    rw [disk_stat_filename hs hst hF] at hstat
    obtain ⟨c1, c2, c3⟩ := disk_cleanup_sim E fs u hs hu (plainReachable_typed hr u)
    rw [cleanup_eq _ u hst hvm, if_neg (by simp [hstat])] at c1 c2
    have hc : Disk.CleanupHandler E fs u =
        (.answer (.deleted u), fs.eraseTree (Disk.join Disk.StorageRoot u)) := by
      rcases disk_cleanup_cases E fs u with h | h | h | h
      · rw [h] at c1; cases c1
      · rw [h] at c1; cases c1
      · rw [h] at c1; cases c1
      · exact h
    rw [sessionDir_eq hu] at hc
    refine ⟨hc, ?_, ?_⟩
    · intro q hq
      rw [hc]
      exact get_eraseTree_below fs _ q hq
    · apply shape_stat_dir_none c3
      apply (toStore_none_iff c3 u).mp
      rw [c2]
      simp [Store.set]
  · intro hne
    simp only [Disk.CleanupHandler, sessionDir_eq hu, hne, if_true]

/-- The hypotheses of `C9_cleanup` hold for the session that received the chunks
"A", "B", "C". -/
theorem C9_witness :
    (∀ fp fh url : String,
      (Disk.CompleteHandler Disk.sampleEnv Disk.fsABC "u1").1 = .answer (.assembled fp fh url) →
      ∀ ops : List Disk.Op, (∀ op ∈ ops, op.Plain) →
        (∀ md fresh, Disk.Op.init md fresh ∈ ops → md.UploadID ≠ "u1") →
        Disk.CleanupHandler Disk.sampleEnv
          (Disk.run Disk.sampleEnv (Disk.CompleteHandler Disk.sampleEnv Disk.fsABC "u1").2 ops)
          "u1" =
          (.answer .forbidden,
            Disk.run Disk.sampleEnv (Disk.CompleteHandler Disk.sampleEnv Disk.fsABC "u1").2
              ops) ∧
        ∃ md data, fh = hashHex Disk.sampleEnv.lib data ∧
          Disk.fsABC.readFile (Disk.join (Disk.join Disk.StorageRoot "u1") "metadata.json") =
            .ok (.descriptor md) ∧
          (Disk.run Disk.sampleEnv (Disk.CompleteHandler Disk.sampleEnv Disk.fsABC "u1").2
            ops).readFile (Disk.join (Disk.join Disk.StorageRoot "u1") "metadata.json") =
            .ok (.descriptor md) ∧
          (Disk.run Disk.sampleEnv (Disk.CompleteHandler Disk.sampleEnv Disk.fsABC "u1").2
            ops).readFile (Disk.join (Disk.join Disk.StorageRoot "u1") md.Filename) =
            .ok (.raw data)) ∧
    (∀ md : Metadata,
      Disk.fsABC.readFile (Disk.join (Disk.join Disk.StorageRoot "u1") "metadata.json") =
        .ok (.descriptor md) →
      (Disk.fsABC.stat (Disk.join (Disk.join Disk.StorageRoot "u1") md.Filename)).isFound =
        false →
      Disk.CleanupHandler Disk.sampleEnv Disk.fsABC "u1" =
        (.answer (.deleted "u1"), Disk.fsABC.eraseTree (Disk.join Disk.StorageRoot "u1")) ∧
      (∀ q : Disk.Path, (Disk.join Disk.StorageRoot "u1").isPrefixOf q = true →
        (Disk.CleanupHandler Disk.sampleEnv Disk.fsABC "u1").2.get q = none) ∧
      (Disk.CleanupHandler Disk.sampleEnv Disk.fsABC "u1").2.stat
        (Disk.join Disk.StorageRoot "u1") = .notExist) ∧
    (Disk.fsABC.stat (Disk.join Disk.StorageRoot "u1") = .notExist →
      Disk.CleanupHandler Disk.sampleEnv Disk.fsABC "u1" =
        (.answer .sessionNotFound, Disk.fsABC)) :=
  C9_cleanup Disk.sampleEnv Disk.fsABC "u1" ⟨_, by decide, rfl⟩ (by decide)

/-! ## C10, C18: rejections of an ingest -/

/-- An existing session directory of a file system with the shape of a storage
is a session of the storage. -/
theorem toStore_of_stat {fs : Disk.FS} (hs : Disk.Shape fs) {u : String}
    (h : fs.stat (Disk.sessionDir u) ≠ .notExist) :
    Disk.toStore fs u = some (Disk.view fs u) := by
  rcases shape_get_dir hs u with hn | hd
  · exact absurd (shape_stat_dir_none hs hn) h
  · exact toStore_of_dir hd

/-- An ingest that answers with a rejection of the session model leaves the file
system as it is. -/
theorem disk_upload_rejected {E : Disk.Env} {fs : Disk.FS} {u idxStr : String} {cl : Int}
    {body : List Nat} {r : UploadResponse}
    (h : (Disk.UploadHandler E fs u idxStr cl body).1 = .answer r)
    (hr : ∀ n x, r ≠ .received n x) :
    (Disk.UploadHandler E fs u idxStr cl body).2 = fs := by
  rcases disk_upload_cases E fs u idxStr cl body with h1 | ⟨n, x, h1⟩ | h1 | h1
  · exact h1
  · rw [h] at h1
    simp only [Disk.UploadResponse.answer.injEq] at h1
    exact absurd h1 (hr n x)
  · rw [h] at h1; cases h1
  · rw [h] at h1; cases h1

/-- C10, as stated, fails: after a create with upload id `a/b` no session `a`
was ever created, yet an ingest for upload id `a` is answered with the
untyped failure that the descriptor is missing, not with session-not-found;
and after the session `u1` was assembled successfully and its upload id was
created again, an ingest of chunk 0 is accepted and the chunk artifact is
written. -/
theorem C10_counterexample :
    Disk.fsDeepID = Disk.run Disk.sampleEnv Disk.FS.initial [.init Disk.sessionDeepID ""] ∧
    Disk.UploadHandler Disk.sampleEnv Disk.fsDeepID "a" "0" 1 [65] =
      (.answer .metadataNotFound, Disk.fsDeepID) ∧
    (Disk.CompleteHandler Disk.sampleEnv
      (Disk.run Disk.sampleEnv Disk.FS.initial
        [.init Disk.sessionFirst "", .upload "u1" "0" 1 [65]]) "u1").1 =
      .answer (.assembled "storage/u1/a.bin" (hashHex sampleLib [65]) "/static/u1/a.bin") ∧
    Disk.fsRecreated = Disk.run Disk.sampleEnv Disk.FS.initial
      [.init Disk.sessionFirst "", .upload "u1" "0" 1 [65], .complete "u1",
        .init Disk.sessionSecond ""] ∧
    (Disk.UploadHandler Disk.sampleEnv Disk.fsRecreated "u1" "0" 1 [65]).1 =
      .answer (.received 1 (hashHex sampleLib [65])) ∧
    Disk.fsRecreated.stat (Disk.join (Disk.join Disk.StorageRoot "u1") (chunkName 0)) =
      .notExist ∧
    (Disk.UploadHandler Disk.sampleEnv Disk.fsRecreated "u1" "0" 1 [65]).2.readFile
      (Disk.join (Disk.join Disk.StorageRoot "u1") (chunkName 0)) = .ok (.raw [65]) := by
  decide

/-- C10, amended: in every file system that requests with plain names produce
and for every ingest with a plain upload id: an index text that `strconv.Atoi`
does not parse is answered with `bad idx` and nothing changes; for a parsed
index, when the session directory does not exist the answer is
session-not-found, and an existing session has a readable descriptor and, when
the index is outside `[0, total_chunks)`, or the file named by the descriptor
exists, or the declared content length exceeds `MaxUploadSize` (2^30), or the
payload is empty, the ingest answers with the typed rejection of one of the
conditions that hold; in all these cases the file system is unchanged. After
`CompleteHandler` answered `assembled` and any further requests with plain
names among which is no create for this upload id, every ingest for the session
is rejected and leaves the file system unchanged. -/
theorem C10_rejections (E : Disk.Env) (fs : Disk.FS) (u idxStr : String) (cl : Int)
    (body : List Nat) (hr : Disk.PlainReachable E fs) (hu : Disk.plainName u) :
    MaxUploadSize = 2 ^ 30 ∧
    (Disk.atoi idxStr = none → Disk.UploadHandler E fs u idxStr cl body = (.badIdx, fs)) ∧
    (∀ idx : Int, Disk.atoi idxStr = some idx →
      (fs.stat (Disk.join Disk.StorageRoot u) = .notExist →
        Disk.UploadHandler E fs u idxStr cl body = (.answer .sessionNotFound, fs)) ∧
      (fs.stat (Disk.join Disk.StorageRoot u) ≠ .notExist →
        ∃ md, fs.readFile (Disk.join (Disk.join Disk.StorageRoot u) "metadata.json") =
            .ok (.descriptor md) ∧
          ((idx < 0 ∨ md.TotalChunks ≤ idx) ∨
            (fs.stat (Disk.join (Disk.join Disk.StorageRoot u) md.Filename)).isFound = true ∨
            cl > MaxUploadSize ∨ body = [] →
          (Disk.UploadHandler E fs u idxStr cl body).2 = fs ∧
          (((Disk.UploadHandler E fs u idxStr cl body).1 = .answer .payloadTooLarge ∧
              cl > MaxUploadSize) ∨
           ((Disk.UploadHandler E fs u idxStr cl body).1 = .answer .indexOutOfRange ∧
              (idx < 0 ∨ md.TotalChunks ≤ idx)) ∨
           ((Disk.UploadHandler E fs u idxStr cl body).1 = .answer .alreadyCompleted ∧
              (fs.stat (Disk.join (Disk.join Disk.StorageRoot u) md.Filename)).isFound =
                true) ∨
           ((Disk.UploadHandler E fs u idxStr cl body).1 = .answer .emptyBody ∧
              body = []))))) ∧
    (∀ fp fh url : String, (Disk.CompleteHandler E fs u).1 = .answer (.assembled fp fh url) →
      ∀ ops : List Disk.Op, (∀ op ∈ ops, op.Plain) →
        (∀ md fresh, Disk.Op.init md fresh ∈ ops → md.UploadID ≠ u) →
        (Disk.UploadHandler E (Disk.run E (Disk.CompleteHandler E fs u).2 ops) u idxStr cl
          body).2 = Disk.run E (Disk.CompleteHandler E fs u).2 ops ∧
        ((Disk.UploadHandler E (Disk.run E (Disk.CompleteHandler E fs u).2 ops) u idxStr cl
            body).1 = .badIdx ∨
         (Disk.UploadHandler E (Disk.run E (Disk.CompleteHandler E fs u).2 ops) u idxStr cl
            body).1 = .answer .payloadTooLarge ∨
         (Disk.UploadHandler E (Disk.run E (Disk.CompleteHandler E fs u).2 ops) u idxStr cl
            body).1 = .answer .indexOutOfRange ∨
         (Disk.UploadHandler E (Disk.run E (Disk.CompleteHandler E fs u).2 ops) u idxStr cl
            body).1 = .answer .alreadyCompleted)) := by
  obtain ⟨hs, hflat, hnames, -⟩ := plainReachable_good hr
  rw [sessionDir_eq hu, join_session_metadata]
  refine ⟨rfl, ?_, ?_, ?_⟩
  · intro hidx
    simp only [Disk.UploadHandler, hidx]
  · intro idx hidx
    obtain ⟨s1, -, -⟩ := disk_upload_sim E fs u idxStr idx cl body hs hu hidx
      (plainReachable_typed hr u)
    obtain ⟨-, f1, f2, -⟩ := session_rejections E.lib (Disk.toStore fs) u idx cl body hflat
    refine ⟨?_, ?_⟩
    · intro hne
      simp only [Disk.UploadHandler, hidx, sessionDir_eq hu, hne, if_true]
    · intro hex
      have hst := toStore_of_stat hs hex
      obtain ⟨md, hmd, hrej⟩ := f2 _ hst
      have hF := hnames u _ md hst hmd
      refine ⟨md, disk_readFile_of_store hs hst hmd, ?_⟩
      rw [disk_stat_filename hs hst hF]
      intro hcond
      obtain ⟨-, hcases⟩ := hrej hcond
      rw [s1]
      rcases hcases with ⟨h, hc⟩ | ⟨h, hc⟩ | ⟨h, hc⟩ | ⟨h, hc⟩
      · exact ⟨disk_upload_rejected (s1.trans (congrArg _ h)) (fun _ _ e => by cases e),
          Or.inl ⟨congrArg _ h, hc⟩⟩
      · exact ⟨disk_upload_rejected (s1.trans (congrArg _ h)) (fun _ _ e => by cases e),
          Or.inr (Or.inl ⟨congrArg _ h, hc⟩)⟩
      · exact ⟨disk_upload_rejected (s1.trans (congrArg _ h)) (fun _ _ e => by cases e),
          Or.inr (Or.inr (Or.inl ⟨congrArg _ h, hc⟩))⟩
      · exact ⟨disk_upload_rejected (s1.trans (congrArg _ h)) (fun _ _ e => by cases e),
          Or.inr (Or.inr (Or.inr ⟨congrArg _ h, hc⟩))⟩
  · intro fp fh url hok ops hp hno
    obtain ⟨d', md, data, hd', -, hmd', hfile, -, -⟩ := disk_complete_assembled hr hu hok
    have hr1 : Disk.PlainReachable E (Disk.CompleteHandler E fs u).2 :=
      @plainReachable_step E fs hr (.complete u) hu
    have hr2 := plainReachable_run hr1 ops hp
    have hd2 := disk_completed_run hr1 hd' hmd' (stat_of_some hfile) ops hp hno
    obtain ⟨hs2, -, -, -⟩ := plainReachable_good hr2
    cases hidx : Disk.atoi idxStr with
    | none =>
      have h : Disk.UploadHandler E (Disk.run E (Disk.CompleteHandler E fs u).2 ops) u idxStr
          cl body = (.badIdx, Disk.run E (Disk.CompleteHandler E fs u).2 ops) := by
        simp only [Disk.UploadHandler, hidx]
      rw [h]
      exact ⟨rfl, Or.inl rfl⟩
    | some idx =>
      obtain ⟨s1, -, -⟩ := disk_upload_sim E _ u idxStr idx cl body hs2 hu hidx
        (plainReachable_typed hr2 u)
      have hflat2 := upload_eq E.lib _ u idx cl body hd2 hmd'
      by_cases h1 : cl > MaxUploadSize
      · rw [if_pos h1] at hflat2
        rw [hflat2] at s1
        exact ⟨disk_upload_rejected s1 (fun _ _ e => by cases e), Or.inr (Or.inl s1)⟩
      rw [if_neg h1] at hflat2
      by_cases h2 : idx < 0 ∨ idx ≥ md.TotalChunks
      · rw [if_pos h2] at hflat2
        rw [hflat2] at s1
        exact ⟨disk_upload_rejected s1 (fun _ _ e => by cases e), Or.inr (Or.inr (Or.inl s1))⟩
      rw [if_neg h2, if_pos (stat_of_some hfile)] at hflat2
      rw [hflat2] at s1
      exact ⟨disk_upload_rejected s1 (fun _ _ e => by cases e), Or.inr (Or.inr (Or.inr s1))⟩

/-- The hypotheses of `C10_rejections` hold for an ingest of index 7 into the
three-chunk session that received the chunks "A" and "C". -/
theorem C10_witness :
    MaxUploadSize = 2 ^ 30 ∧
    (Disk.atoi "7" = none →
      Disk.UploadHandler Disk.sampleEnv Disk.fsAC "u1" "7" 1 [65] = (.badIdx, Disk.fsAC)) ∧
    (∀ idx : Int, Disk.atoi "7" = some idx →
      (Disk.fsAC.stat (Disk.join Disk.StorageRoot "u1") = .notExist →
        Disk.UploadHandler Disk.sampleEnv Disk.fsAC "u1" "7" 1 [65] =
          (.answer .sessionNotFound, Disk.fsAC)) ∧
      (Disk.fsAC.stat (Disk.join Disk.StorageRoot "u1") ≠ .notExist →
        ∃ md, Disk.fsAC.readFile (Disk.join (Disk.join Disk.StorageRoot "u1") "metadata.json") =
            .ok (.descriptor md) ∧
          ((idx < 0 ∨ md.TotalChunks ≤ idx) ∨
            (Disk.fsAC.stat (Disk.join (Disk.join Disk.StorageRoot "u1")
              md.Filename)).isFound = true ∨
            (1 : Int) > MaxUploadSize ∨ [65] = ([] : List Nat) →
          (Disk.UploadHandler Disk.sampleEnv Disk.fsAC "u1" "7" 1 [65]).2 = Disk.fsAC ∧
          (((Disk.UploadHandler Disk.sampleEnv Disk.fsAC "u1" "7" 1 [65]).1 =
              .answer .payloadTooLarge ∧ (1 : Int) > MaxUploadSize) ∨
           ((Disk.UploadHandler Disk.sampleEnv Disk.fsAC "u1" "7" 1 [65]).1 =
              .answer .indexOutOfRange ∧ (idx < 0 ∨ md.TotalChunks ≤ idx)) ∨
           ((Disk.UploadHandler Disk.sampleEnv Disk.fsAC "u1" "7" 1 [65]).1 =
              .answer .alreadyCompleted ∧
              (Disk.fsAC.stat (Disk.join (Disk.join Disk.StorageRoot "u1")
                md.Filename)).isFound = true) ∨
           ((Disk.UploadHandler Disk.sampleEnv Disk.fsAC "u1" "7" 1 [65]).1 =
              .answer .emptyBody ∧ [65] = ([] : List Nat)))))) ∧
    (∀ fp fh url : String,
      (Disk.CompleteHandler Disk.sampleEnv Disk.fsAC "u1").1 = .answer (.assembled fp fh url) →
      ∀ ops : List Disk.Op, (∀ op ∈ ops, op.Plain) →
        (∀ md fresh, Disk.Op.init md fresh ∈ ops → md.UploadID ≠ "u1") →
        (Disk.UploadHandler Disk.sampleEnv
          (Disk.run Disk.sampleEnv (Disk.CompleteHandler Disk.sampleEnv Disk.fsAC "u1").2 ops)
          "u1" "7" 1 [65]).2 =
          Disk.run Disk.sampleEnv (Disk.CompleteHandler Disk.sampleEnv Disk.fsAC "u1").2 ops ∧
        ((Disk.UploadHandler Disk.sampleEnv
          (Disk.run Disk.sampleEnv (Disk.CompleteHandler Disk.sampleEnv Disk.fsAC "u1").2 ops)
          "u1" "7" 1 [65]).1 = .badIdx ∨
         (Disk.UploadHandler Disk.sampleEnv
          (Disk.run Disk.sampleEnv (Disk.CompleteHandler Disk.sampleEnv Disk.fsAC "u1").2 ops)
          "u1" "7" 1 [65]).1 = .answer .payloadTooLarge ∨
         (Disk.UploadHandler Disk.sampleEnv
          (Disk.run Disk.sampleEnv (Disk.CompleteHandler Disk.sampleEnv Disk.fsAC "u1").2 ops)
          "u1" "7" 1 [65]).1 = .answer .indexOutOfRange ∨
         (Disk.UploadHandler Disk.sampleEnv
          (Disk.run Disk.sampleEnv (Disk.CompleteHandler Disk.sampleEnv Disk.fsAC "u1").2 ops)
          "u1" "7" 1 [65]).1 = .answer .alreadyCompleted)) :=
  C10_rejections Disk.sampleEnv Disk.fsAC "u1" "7" 1 [65] ⟨_, by decide, rfl⟩ (by decide)

/-- C18: in every file system that requests with plain names produce,
`InitHandler` accepts a descriptor with a plain upload id whose filename is
`metadata.json`, `received.json` or empty; in the session it created, every
ingest that the server hands to the handler (declared length within
`BodyLimit`) with an index in `[0, total_chunks)` and every complete request is
answered with the already-completed conflict and changes nothing, because the
path `<session dir>/<filename>` exists. -/
theorem C18_filename_blocks (E : Disk.Env) (fs : Disk.FS) (md : Metadata) (fresh : String)
    (hr : Disk.PlainReachable E fs) (hu : Disk.plainName md.UploadID)
    (hname : md.Filename = "metadata.json" ∨ md.Filename = "received.json" ∨
      md.Filename = "") :
    (∃ share, (Disk.InitHandler fs md fresh).1 = .answer (.created md.UploadID share)) ∧
    ((Disk.InitHandler fs md fresh).2.stat
      (Disk.join (Disk.join Disk.StorageRoot md.UploadID) md.Filename)).isFound = true ∧
    (∀ (idxStr : String) (idx cl : Int) (body : List Nat), Disk.atoi idxStr = some idx →
      cl ≤ Disk.BodyLimit → 0 ≤ idx → idx < md.TotalChunks →
      Disk.UploadHandler E (Disk.InitHandler fs md fresh).2 md.UploadID idxStr cl body =
        (.answer .alreadyCompleted, (Disk.InitHandler fs md fresh).2)) ∧
    Disk.CompleteHandler E (Disk.InitHandler fs md fresh).2 md.UploadID =
      (.answer .alreadyCompleted, (Disk.InitHandler fs md fresh).2) := by
  obtain ⟨hs, -, -, -⟩ := plainReachable_good hr
  have hF : md.Filename = "" ∨ Disk.plainName md.Filename := by
    rcases hname with h | h | h
    · right; rw [h]; decide
    · right; rw [h]; decide
    · left; exact h
  have hr1 : Disk.PlainReachable E (Disk.InitHandler fs md fresh).2 :=
    @plainReachable_step E fs hr (.init md fresh) ⟨hu, hF⟩
  obtain ⟨hs1, -, -, -⟩ := plainReachable_good hr1
  obtain ⟨i1, i2, -⟩ := disk_init_sim fs md fresh hs hu
  obtain ⟨⟨share, b1⟩, b2, b3⟩ := session_filename_blocks E.lib (Disk.toStore fs) md fresh
    hu.1 hname
  obtain ⟨d, md1, -, hd, hF1, -, -, hM, hR, -⟩ := init_eq (Disk.toStore fs) md fresh hu.1
  rw [← i2] at b2 b3 hd
  have hstat : d.stat md.Filename = true := by
    rcases hname with h | h | h
    · rw [h]; exact stat_of_some hM
    · rw [h]; exact stat_of_some hR
    · rw [h]; rfl
  refine ⟨⟨share, by rw [i1, b1]⟩, ?_, ?_, ?_⟩
  · rw [sessionDir_eq hu, disk_stat_filename hs1 hd hF]
    exact hstat
  · intro idxStr idx cl body hidx hcl h0 h1
    obtain ⟨s1, -, -⟩ := disk_upload_sim E _ md.UploadID idxStr idx cl body hs1 hu hidx
      (plainReachable_typed hr1 md.UploadID)
    rw [b2 idx cl body hcl h0 h1] at s1
    exact Prod.ext s1 (disk_upload_rejected s1 (fun _ _ e => by cases e))
  · obtain ⟨s1, -, -⟩ := disk_complete_sim E _ md.UploadID hs1 hu
      (plainReachable_typed hr1 md.UploadID)
    rw [b3] at s1
    refine Prod.ext s1 ?_
    rcases disk_complete_cases E (Disk.InitHandler fs md fresh).2 md.UploadID with
      h | ⟨i, h⟩ | ⟨a, b, h⟩ | h | ⟨a, b, c, h⟩
    · exact h
    · rw [h] at s1; cases s1
    · rw [h] at s1; cases s1
    · rw [h] at s1; cases s1
    · rw [h] at s1; cases s1

/-- The hypotheses of `C18_filename_blocks` hold for a create with filename
`metadata.json` in the initial file system. -/
theorem C18_witness :
    (∃ share, (Disk.InitHandler Disk.FS.initial sessionMetaName "").1 =
      .answer (.created sessionMetaName.UploadID share)) ∧
    ((Disk.InitHandler Disk.FS.initial sessionMetaName "").2.stat
      (Disk.join (Disk.join Disk.StorageRoot sessionMetaName.UploadID)
        sessionMetaName.Filename)).isFound = true ∧
    (∀ (idxStr : String) (idx cl : Int) (body : List Nat), Disk.atoi idxStr = some idx →
      cl ≤ Disk.BodyLimit → 0 ≤ idx → idx < sessionMetaName.TotalChunks →
      Disk.UploadHandler Disk.sampleEnv (Disk.InitHandler Disk.FS.initial sessionMetaName "").2
        sessionMetaName.UploadID idxStr cl body =
        (.answer .alreadyCompleted, (Disk.InitHandler Disk.FS.initial sessionMetaName "").2)) ∧
    Disk.CompleteHandler Disk.sampleEnv (Disk.InitHandler Disk.FS.initial sessionMetaName "").2
      sessionMetaName.UploadID =
      (.answer .alreadyCompleted, (Disk.InitHandler Disk.FS.initial sessionMetaName "").2) :=
  C18_filename_blocks Disk.sampleEnv Disk.FS.initial sessionMetaName ""
    ⟨[], by simp, rfl⟩ (by decide) (by decide)

/-! ## The listing of the storage root and the scan of `GetRoomState` -/

theorem childName_eq_some (p q : Disk.Path) (x : String) :
    Disk.childName p q = some x ↔ q = p ++ [x] := by
  unfold Disk.childName
  constructor
  · intro h
    split at h
    · cases h
    · rename_i y rest hq
      split at h
      · rename_i hp
        cases h
        have := congrArg List.reverse hq
        rw [List.reverse_reverse] at this
        rw [this, List.reverse_cons, hp]
      · cases h
  · intro h
    subst h
    simp

theorem get_isSome_iff (fs : Disk.FS) (p : Disk.Path) :
    (fs.get p).isSome = true ↔ ∃ e ∈ fs, e.1 = p := by
  induction fs with
  | nil =>
    constructor
    · intro h; exact Bool.noConfusion h
    · rintro ⟨e, he, -⟩; cases he
  | cons e rest ih =>
    obtain ⟨k, v⟩ := e
    by_cases hk : k = p
    · constructor
      · intro _; exact ⟨(k, v), List.mem_cons_self _ _, hk⟩
      · intro _; simp only [Disk.FS.get, if_pos hk]; rfl
    · constructor
      · intro h
        simp only [Disk.FS.get, if_neg hk] at h
        obtain ⟨e, he, hp⟩ := ih.mp h
        exact ⟨e, List.mem_cons_of_mem _ he, hp⟩
      · rintro ⟨e, he, hp⟩
        simp only [Disk.FS.get, if_neg hk]
        rcases List.mem_cons.mp he with rfl | he
        · exact absurd hp hk
        · exact ih.mpr ⟨e, he, hp⟩

/-- In a file system with the shape of a storage, `ioutil.ReadDir` of the storage
root returns the names of the session directories, each once. -/
theorem shape_readDir {fs : Disk.FS} (hs : Disk.Shape fs) :
    ∃ entries, fs.readDir Disk.StorageRoot = some entries ∧ entries.Nodup ∧
      ∀ u, u ∈ entries ↔ (Disk.toStore fs u).isSome = true := by
  have hstat : fs.stat Disk.StorageRoot = .found .dir := by
    rw [storageRoot_eq]
    simp [Disk.FS.stat, Disk.FS.walk, hs.cwd, hs.root]
  refine ⟨((fs.filterMap fun e => Disk.childName Disk.StorageRoot e.1).dedup).insertionSort
    Disk.nameLE, by simp only [Disk.FS.readDir, hstat], ?_, ?_⟩
  · exact (List.perm_insertionSort _ _).nodup_iff.mpr (List.nodup_dedup _)
  · intro u
    rw [(List.perm_insertionSort _ _).mem_iff, List.mem_dedup, List.mem_filterMap]
    simp only [childName_eq_some, storageRoot_eq]
    have h1 : (∃ a ∈ fs, a.1 = ["storage"] ++ [u]) ↔ (fs.get (Disk.sessionDir u)).isSome = true :=
      (get_isSome_iff fs _).symm
    rw [h1]
    rcases shape_get_dir hs u with hn | hd
    · rw [hn, toStore_of_none hn]; simp
    · rw [hd, toStore_of_dir hd]; simp

/-- One round of the scan over a session directory with a plain name reads the
same from the file system as from the storage of sessions. -/
theorem disk_scanEntry {E : Disk.Env} {fs : Disk.FS} (hs : Disk.Shape fs)
    (hnames : Disk.PlainNames (Disk.toStore fs)) (dirSize : Int) (modTime : String → Int)
    (shareID : String) (acc : RoomScan) {u : String} (hu : Disk.plainName u) {d : Dir}
    (hd : Disk.toStore fs u = some d) (hty : Disk.TypedSession d) :
    Disk.scanEntry E dirSize modTime fs shareID acc u =
      scanEntry E.lib dirSize modTime (Disk.toStore fs) shareID acc u := by
  obtain ⟨hdir, hview⟩ := toStore_dir hd
  have hget : fs.get (Disk.StorageRoot ++ [u]) = some .dir := by
    rw [storageRoot_eq]; exact hdir
  have hstatM := @rep_stat_file fs fs u (Disk.view fs u) hs hdir (rep_refl hs u) "metadata.json"
  have hreadM := @rep_readFile fs fs u (Disk.view fs u) hs hdir (rep_refl hs u) "metadata.json"
  subst hview
  simp only [Disk.scanEntry, scanEntry, hget, hd, sessionDir_eq hu, join_session_metadata,
    hstatM, hreadM]
  cases hm : Disk.view fs u "metadata.json" with
  | none => simp
  | some c =>
    cases c with
    | raw b => exact absurd hm (hty.1 b)
    | indexList arr => simp [Disk.decodeMetadata]
    | descriptor md =>
      have hF := hnames u _ md hd hm
      simp only [Disk.decodeMetadata, reduceCtorEq, if_false]
      by_cases hsh : md.ShareID = shareID
      · simp only [hsh, ne_eq, not_true_eq_false, if_false]
        rcases hF with h0 | hp
        · have hst : fs.stat (Disk.join (Disk.sessionDir u) md.Filename) = .found .dir := by
            rw [h0, join_empty]
            have := @rep_stat_dir fs fs u (Disk.view fs u) hs hdir (rep_refl hs u)
            exact this
          rw [hst]
          simp [Dir.stat, h0, Dir.statSize, Disk.statSize]
          try rfl
        · rw [join_session_plain u hp,
            @rep_stat_file fs fs u (Disk.view fs u) hs hdir (rep_refl hs u) md.Filename]
          cases hf : Disk.view fs u md.Filename with
          | none =>
            simp only [Dir.stat, hf, hp.1, Option.isSome_none, Bool.or_false,
              decide_False, Bool.false_eq_true, if_false]
            rw [disk_readReceived hs hd hty]
            try rfl
          | some c =>
            simp [Dir.stat, hf, hp.1, Dir.statSize, Disk.statSize]
            try rfl
      · simp [hsh]

theorem disk_scan_foldl {E : Disk.Env} {fs : Disk.FS} (hs : Disk.Shape fs)
    (hnames : Disk.PlainNames (Disk.toStore fs)) (hids : Disk.PlainIds (Disk.toStore fs))
    (hty : ∀ u d, Disk.toStore fs u = some d → Disk.TypedSession d)
    (dirSize : Int) (modTime : String → Int) (shareID : String) (entries : List String) :
    ∀ acc : RoomScan, (∀ u ∈ entries, (Disk.toStore fs u).isSome = true) →
    entries.foldl (Disk.scanEntry E dirSize modTime fs shareID) acc =
      entries.foldl (scanEntry E.lib dirSize modTime (Disk.toStore fs) shareID) acc := by
  induction entries with
  | nil => intro acc _; rfl
  | cons u rest ih =>
    intro acc h
    have hu := h u (List.mem_cons_self _ _)
    obtain ⟨d, hd⟩ := Option.isSome_iff_exists.mp hu
    rw [List.foldl_cons, List.foldl_cons,
      disk_scanEntry hs hnames dirSize modTime shareID acc (hids u hu) hd (hty u d hd)]
    exact ih _ (fun v hv => h v (List.mem_cons_of_mem _ hv))

/-! ## C14: the state of a room -/

/-- In a file system that requests with plain names produce, `GetRoomState`
returns a state whose lists are those of the session model over the listing of
the storage root. -/
theorem disk_roomState {E : Disk.Env} {fs : Disk.FS} (hr : Disk.PlainReachable E fs)
    (dirSize : Int) (modTime : String → Int) (rs : RoomService) (shareID : String)
    (now later : Int) :
    ∃ entries st, entries.Nodup ∧ (∀ u, u ∈ entries ↔ (Disk.toStore fs u).isSome = true) ∧
      Disk.GetRoomState E dirSize modTime fs rs shareID now later = some st ∧
      st.ActiveUploads =
        (rs.GetRoomState E.lib dirSize modTime entries (Disk.toStore fs) shareID
          now).ActiveUploads ∧
      st.CompletedFiles =
        (rs.GetRoomState E.lib dirSize modTime entries (Disk.toStore fs) shareID
          now).CompletedFiles ∧
      0 ≤ st.ExpiresIn := by
  obtain ⟨hs, -, hnames, hids⟩ := plainReachable_good hr
  obtain ⟨entries, hrd, hnd, hmem⟩ := shape_readDir hs
  have hfold := @disk_scan_foldl E fs hs hnames hids (plainReachable_typed hr) dirSize modTime
    shareID entries ⟨[], [], none⟩ (fun u hu => (hmem u).mp hu)
  refine ⟨entries,
    ⟨shareID,
      (entries.foldl (Disk.scanEntry E dirSize modTime fs shareID) ⟨[], [], none⟩).active,
      (entries.foldl (Disk.scanEntry E dirSize modTime fs shareID) ⟨[], [], none⟩).completed,
      (entries.foldl (Disk.scanEntry E dirSize modTime fs shareID) ⟨[], [], none⟩).lastUpdated,
      rs.GetRoomExpiry shareID now,
      if durationSeconds (rs.GetRoomExpiry shareID now - later) < 0 then 0
      else durationSeconds (rs.GetRoomExpiry shareID now - later)⟩,
    hnd, hmem, by simp only [Disk.GetRoomState, hrd], ?_, ?_, ?_⟩
  · simp only [RoomService.GetRoomState, hfold]
  · simp only [RoomService.GetRoomState, hfold]
  · simp only []
    split <;> omega

/-- C14, as stated, fails: after a create with upload id `a/b` and share id
`r1`, the session has a readable descriptor with that share id, yet
`GetRoomState` for `r1` lists no session at all. -/
theorem C14_counterexample :
    Disk.fsDeepID = Disk.run Disk.sampleEnv Disk.FS.initial [.init Disk.sessionDeepID ""] ∧
    Disk.fsDeepID.readFile
      (Disk.join (Disk.join Disk.StorageRoot Disk.sessionDeepID.UploadID) "metadata.json") =
      .ok (.descriptor Disk.sessionDeepID) ∧
    Disk.sessionDeepID.ShareID = "r1" ∧
    (Disk.GetRoomState Disk.sampleEnv 4096 (fun _ => 0) Disk.fsDeepID RoomService.empty "r1"
      0 0).map RoomState.listed = some [] := by
  decide

/-- C14, amended: in every file system that requests with plain names produce,
`GetRoomState` returns a state that lists each session directory with a plain
name whose descriptor is readable and has the requested share id exactly once,
and lists nothing else; such a session is listed under completed files, with
the size `os.Stat` reports for the path `<session dir>/<filename>`, when that
path exists, and otherwise under active uploads with its `total_chunks`, the
size of its received set and the percent `floor(received * 100 /
total_chunks)` (0 when `total_chunks` is not positive); and `expires_in` is
non-negative, whatever the two clock readings are. -/
theorem C14_room_state (E : Disk.Env) (dirSize : Int) (modTime : String → Int) (fs : Disk.FS)
    (rs : RoomService) (shareID : String) (now later : Int)
    (hr : Disk.PlainReachable E fs) :
    ∃ st, Disk.GetRoomState E dirSize modTime fs rs shareID now later = some st ∧
      (∀ (u : String) (md : Metadata), Disk.plainName u →
        fs.readFile (Disk.join (Disk.join Disk.StorageRoot u) "metadata.json") =
          .ok (.descriptor md) →
        md.ShareID = shareID →
        st.listed.count u = 1 ∧
        (∀ node, fs.stat (Disk.join (Disk.join Disk.StorageRoot u) md.Filename) =
            .found node →
          (⟨u, md.Filename, Disk.statSize E dirSize node, modTime u⟩ : CompletedFile) ∈
            st.CompletedFiles ∧
          ∀ a ∈ st.ActiveUploads, a.UploadID ≠ u) ∧
        ((fs.stat (Disk.join (Disk.join Disk.StorageRoot u) md.Filename)).isFound = false →
          (⟨u, md.Filename, md.TotalChunks,
            ((Disk.ReadReceivedChunks E fs (Disk.join Disk.StorageRoot u)).toFinset.card : Int),
            if 0 < md.TotalChunks then
              ((Disk.ReadReceivedChunks E fs (Disk.join Disk.StorageRoot u)).toFinset.card :
                Int) * 100 / md.TotalChunks
            else 0,
            modTime u⟩ : UploadInfo) ∈ st.ActiveUploads ∧
          ∀ c ∈ st.CompletedFiles, c.UploadID ≠ u)) ∧
      (∀ u ∈ st.listed, Disk.plainName u ∧
        ∃ md, fs.readFile (Disk.join (Disk.join Disk.StorageRoot u) "metadata.json") =
          .ok (.descriptor md) ∧ md.ShareID = shareID) ∧
      0 ≤ st.ExpiresIn := by
  obtain ⟨hs, hflat, hnames, hids⟩ := plainReachable_good hr
  obtain ⟨entries, st, hnd, hmem, hst, hA, hC, hexp⟩ :=
    disk_roomState hr dirSize modTime rs shareID now later
  obtain ⟨f1, f2, -⟩ := session_room_state E.lib dirSize modTime entries (Disk.toStore fs) rs
    shareID now hflat hnd hmem
  have hlisted : st.listed =
      (rs.GetRoomState E.lib dirSize modTime entries (Disk.toStore fs) shareID now).listed := by
    simp only [RoomState.listed, hA, hC]
  refine ⟨st, hst, ?_, ?_, hexp⟩
  · intro u md hu hmd hshare
    rw [sessionDir_eq hu, join_session_metadata] at hmd
    rw [sessionDir_eq hu]
    obtain ⟨hd, hvm, hty, hF⟩ := plainReachable_session hr (readFile_ok_get hs hmd)
    obtain ⟨hdir, -⟩ := toStore_dir hd
    obtain ⟨g1, g2, g3⟩ := f1 u (Disk.view fs u) md hd hvm hshare
    rw [hlisted, hA, hC]
    refine ⟨g1, ?_, ?_⟩
    · intro node hnode
      have hfound : (Disk.view fs u).stat md.Filename = true := by
        rw [← disk_stat_filename hs hd hF, hnode]; rfl
      obtain ⟨k1, k2, -⟩ := g2 hfound
      refine ⟨?_, k2⟩
      have hsize : (Disk.view fs u).statSize E.lib dirSize md.Filename =
          Disk.statSize E dirSize node := by
        rcases hF with h0 | hp
        · rw [h0, join_empty,
            @rep_stat_dir fs fs u (Disk.view fs u) hs hdir (rep_refl hs u)] at hnode
          cases hnode
          simp [Dir.statSize, h0, Disk.statSize]
        · rw [join_session_plain u hp,
            @rep_stat_file fs fs u (Disk.view fs u) hs hdir (rep_refl hs u) md.Filename]
            at hnode
          cases hf : Disk.view fs u md.Filename with
          | none => rw [hf] at hnode; cases hnode
          | some c =>
            rw [hf] at hnode
            cases hnode
            simp [Dir.statSize, hp.1, hf, Disk.statSize]
      rw [← hsize]
      exact k1
    · intro hnot
      rw [disk_stat_filename hs hd hF] at hnot
      rw [disk_readReceived hs hd hty]
      exact g3 hnot
  · intro u hu
    rw [hlisted] at hu
    obtain ⟨d, md, hd, hmd, hshare⟩ := f2 u hu
    have hp : Disk.plainName u := hids u (by rw [hd]; rfl)
    refine ⟨hp, md, ?_, hshare⟩
    rw [sessionDir_eq hp, join_session_metadata]
    exact disk_readFile_of_store hs hd hmd

/-- The state `GetRoomState` returns for the room `r1` of `Disk.fsRoom` when the
clock advances by one nanosecond between its two readings. -/
theorem room_scenario :
    (Disk.GetRoomState Disk.sampleEnv 4096 (fun _ => 0) Disk.fsRoom RoomService.empty "r1"
      0 1).map (fun st => (st.ActiveUploads, st.CompletedFiles, st.ExpiresIn)) =
      some ([⟨"u1", "out.bin", 3, 1, 33, 0⟩, ⟨"u2", "two.bin", 2, 0, 0, 0⟩],
        [⟨"u3", "done.bin", 0, 0⟩], 86399) := by
  decide

/-- The room `r1` of a file system with two active sessions, one completed
session and one session of another room lists exactly the three sessions of
`r1`, the completed one under completed files, when the clock advances by one
nanosecond between its two readings. -/
theorem C14_witness :
    Disk.PlainReachable Disk.sampleEnv Disk.fsRoom ∧
    ∃ st, Disk.GetRoomState Disk.sampleEnv 4096 (fun _ => 0) Disk.fsRoom RoomService.empty
        "r1" 0 1 = some st ∧
      st.ActiveUploads = [⟨"u1", "out.bin", 3, 1, 33, 0⟩, ⟨"u2", "two.bin", 2, 0, 0, 0⟩] ∧
      st.CompletedFiles = [⟨"u3", "done.bin", 0, 0⟩] ∧
      st.listed = ["u1", "u2", "u3"] ∧
      st.listed.count "u1" = 1 ∧ 0 ≤ st.ExpiresIn := by
  have hr : Disk.PlainReachable Disk.sampleEnv Disk.fsRoom := ⟨_, by decide, rfl⟩
  obtain ⟨st, hst, h1, -, h3⟩ := C14_room_state Disk.sampleEnv 4096 (fun _ => 0) Disk.fsRoom
    RoomService.empty "r1" 0 1 hr
  have hval := room_scenario
  rw [hst] at hval
  simp only [Option.map_some', Option.some.injEq, Prod.mk.injEq] at hval
  refine ⟨hr, st, hst, hval.1, hval.2.1, ?_,
    (h1 "u1" sessionABC (by decide) (by decide) rfl).1, h3⟩
  simp only [RoomState.listed, hval.1, hval.2.1]
  rfl

end Knot
